import Mathlib

/-! Pangolin `UnpackVideo` (src/video/drivers/unpack.cpp).

A shallow embedding of the packed 10/12-bit to 16-bit video unpacker.

Modelling conventions.

* A byte store `Mem` maps an address to the byte found there. A read of a
  `uint8_t` is taken modulo 256.  A store through a `uint16_t*` writes the
  two bytes of the value, least significant byte first (the little-endian
  layout of the targets Pangolin builds for).
* Addresses are natural numbers, as is the pointer arithmetic on them
  (a pointer that leaves its object has no defined value in C++). The `size_t`
  arithmetic of the constructor, which computes the output layout, wraps
  modulo `2 ^ 64`.
* The scratch buffer owned by `UnpackVideo` (allocated with `new[]`) and the
  caller's output buffer are distinct objects, so each has its own store; an
  `Image` pointer is the byte offset from the start of the store it points
  into.
* The inner `while(pin != pin_end)` loops carry a fuel argument bounding the
  number of iterations; `none` means the loop was still running when the
  fuel ran out.
-/

namespace pangolin

/-- A byte store: address to byte. -/
abbrev Mem := Nat → Nat

/-- Read of a `uint8_t` at address `a`. -/
def load8 (m : Mem) (a : Nat) : Nat := m a % 256

/-- Store of a `uint16_t` at address `a`: the value is truncated to 16 bits and
written least significant byte first. -/
def store16 (m : Mem) (a v : Nat) : Mem :=
  fun x => if x = a then v % 65536 % 256 else if x = a + 1 then v % 65536 / 256 else m x

/-- Read of a `uint16_t` at address `a` (least significant byte first). -/
def load16 (m : Mem) (a : Nat) : Nat := load8 m a + 256 * load8 m (a + 1)

/-- Modelled from the spec: `Image<unsigned char>` is declared in a header that is
not part of the sources; it is the row region of the data model: a start
address, a row pitch in bytes, a width and a height. -/
structure Image where
  pitch : Nat
  ptr : Nat
  w : Nat
  h : Nat
deriving DecidableEq, Repr

/-- The body of `while(pin != pin_end)` in `Convert12to16`: three bytes are
gathered into `val`, two 16-bit samples are stored. Returns the store after the loop. -/
def Convert12to16.row (src : Mem) (pin_end : Nat) : Nat → Nat → Nat → Mem → Option Mem
  | 0, pin, _, dst => if pin ≠ pin_end then none else some dst
  | fuel + 1, pin, pout, dst =>
    if pin ≠ pin_end then
      let val := load8 src pin
      let val := val ||| (load8 src (pin + 1) <<< 8) % 2 ^ 32
      let val := val ||| (load8 src (pin + 2) <<< 16) % 2 ^ 32
      let dst := store16 dst pout (val &&& 0x000FFF)
      let dst := store16 dst (pout + 2) ((val &&& 0xFFF000) >>> 12)
      Convert12to16.row src pin_end fuel (pin + 3) (pout + 4) dst
    else some dst

/-- The loop `for(size_t r=0; r<out.h; ++r)` of `Convert12to16`, from row `r`,
with `n` rows left to do. -/
def Convert12to16.rows (fuel : Nat) (out inp : Image) (src : Mem) : Nat → Nat → Mem → Option Mem
  | 0, _, dst => some dst
  | n + 1, r, dst =>
    match Convert12to16.row src (inp.ptr + (r + 1) * inp.pitch) fuel
        (inp.ptr + r * inp.pitch) (out.ptr + r * out.pitch) dst with
    | none => none
    | some dst => Convert12to16.rows fuel out inp src n (r + 1) dst

/-- The function `Convert12to16(out, in)`: `src` is the store `in.ptr` points into, `dst` the
store `out.ptr` points into. -/
def Convert12to16 (fuel : Nat) (out inp : Image) (src dst : Mem) : Option Mem :=
  Convert12to16.rows fuel out inp src out.h 0 dst

/-- The body of `while(pin != pin_end)` in `Convert10to16`: five bytes are
gathered into a 64-bit `val`, four 16-bit samples are stored. -/
def Convert10to16.row (src : Mem) (pin_end : Nat) : Nat → Nat → Nat → Mem → Option Mem
  | 0, pin, _, dst => if pin ≠ pin_end then none else some dst
  | fuel + 1, pin, pout, dst =>
    if pin ≠ pin_end then
      let val := load8 src pin
      let val := val ||| (load8 src (pin + 1) <<< 8) % 2 ^ 64
      let val := val ||| (load8 src (pin + 2) <<< 16) % 2 ^ 64
      let val := val ||| (load8 src (pin + 3) <<< 24) % 2 ^ 64
      let val := val ||| (load8 src (pin + 4) <<< 32) % 2 ^ 64
      let dst := store16 dst pout (val &&& 0x00000003FF)
      let dst := store16 dst (pout + 2) ((val &&& 0x00000FFC00) >>> 10)
      let dst := store16 dst (pout + 4) ((val &&& 0x003FF00000) >>> 20)
      let dst := store16 dst (pout + 6) ((val &&& 0xFFC0000000) >>> 30)
      Convert10to16.row src pin_end fuel (pin + 5) (pout + 8) dst
    else some dst

/-- The loop `for(size_t r=0; r<out.h; ++r)` of `Convert10to16`, from row `r`,
with `n` rows left to do. -/
def Convert10to16.rows (fuel : Nat) (out inp : Image) (src : Mem) : Nat → Nat → Mem → Option Mem
  | 0, _, dst => some dst
  | n + 1, r, dst =>
    match Convert10to16.row src (inp.ptr + (r + 1) * inp.pitch) fuel
        (inp.ptr + r * inp.pitch) (out.ptr + r * out.pitch) dst with
    | none => none
    | some dst => Convert10to16.rows fuel out inp src n (r + 1) dst

/-- The function `Convert10to16(out, in)`, with the stores as for `Convert12to16`. -/
def Convert10to16 (fuel : Nat) (out inp : Image) (src dst : Mem) : Option Mem :=
  Convert10to16.rows fuel out inp src out.h 0 dst

/-- Modelled from the spec: `VideoPixelFormat` is declared in a header that is not
part of the sources; it is the PixelFormat of the data model, bits per sample and
channel count (both `unsigned int`). -/
structure VideoPixelFormat where
  bpp : Nat
  channels : Nat
deriving DecidableEq, Repr

/-- Modelled from the spec: `StreamInfo` is declared in a header that is not part
of the sources; it is the StreamDescriptor of the data model: pixel format,
width, height, row pitch in bytes and byte offset within the owning buffer, in
the argument order of the constructor call in `UnpackVideo::UnpackVideo`. -/
structure StreamInfo where
  fmt : VideoPixelFormat
  w : Nat
  h : Nat
  pitch : Nat
  offset : Nat
deriving DecidableEq, Repr

/-- Modelled from the spec: accessor `StreamInfo::PixFormat()`. -/
def StreamInfo.PixFormat (si : StreamInfo) : VideoPixelFormat := si.fmt

/-- Modelled from the spec: accessor `StreamInfo::Width()`. -/
def StreamInfo.Width (si : StreamInfo) : Nat := si.w

/-- Modelled from the spec: accessor `StreamInfo::Height()`. -/
def StreamInfo.Height (si : StreamInfo) : Nat := si.h

/-- Modelled from the spec: `StreamInfo::StreamImage(base_ptr)` locates the
sub-region of the stream inside the buffer starting at `base_ptr`: same width,
height and pitch, starting at `base_ptr` plus the byte offset of the stream. -/
def StreamInfo.StreamImage (si : StreamInfo) (base_ptr : Nat) : Image :=
  { pitch := si.pitch, ptr := base_ptr + si.offset, w := si.w, h := si.h }

/-- The exception class thrown by the driver, with its message. -/
structure VideoException where
  what : String
deriving DecidableEq, Repr

/-- Modelled from the spec: the abstract class `VideoInterface` is declared in a
header that is not part of the sources. A wrapped source is a state of type `σ`
together with the operations the driver calls on it: the size and stream
queries, `Start`, `Stop`, and the capture calls, which receive the contents of
the buffer handed to them and the wait flag and yield the returned flag, the
buffer contents afterwards and the next state of the source. -/
structure VideoInterface (σ : Type) where
  SizeBytes : σ → Nat
  Streams : σ → List StreamInfo
  Start : σ → σ
  Stop : σ → σ
  GrabNext : σ → Mem → Bool → Bool × Mem × σ
  GrabNewest : σ → Mem → Bool → Bool × Mem × σ

/-- The data members of `UnpackVideo`: `videoin` holds the one wrapped source (its
state), `buffer` the contents of the scratch buffer. -/
structure UnpackVideo (σ : Type) where
  videoin : σ
  streams : List StreamInfo
  size_bytes : Nat
  buffer : Mem

/-- The loop `for(size_t s=0; s< src->Streams().size(); ++s)` of the constructor,
over the streams of the source still to visit, threading `streams` and
`size_bytes`. The products `w*out_fmt.bpp` and `h*pitch` and the sum
`size_bytes += h*pitch` are `size_t` arithmetic and wrap modulo `2 ^ 64`. -/
def UnpackVideo.new.loop (out_fmt : VideoPixelFormat) :
    List StreamInfo → List StreamInfo → Nat → Except VideoException (List StreamInfo × Nat)
  | [], streams, size_bytes => .ok (streams, size_bytes)
  | si :: rest, streams, size_bytes =>
    let w := si.Width
    let h := si.Height
    let in_fmt := si.PixFormat
    if in_fmt.channels > 1 ∨ in_fmt.bpp < 9 ∨ in_fmt.bpp > 16 then
      .error ⟨"UnpackVideo: currently only supports one channel input."⟩
    else
      let pitch := (w * out_fmt.bpp) % 2 ^ 64 / 8
      UnpackVideo.new.loop out_fmt rest
        (streams ++ [StreamInfo.mk out_fmt w h pitch (0 + size_bytes)])
        ((size_bytes + (h * pitch) % 2 ^ 64) % 2 ^ 64)

/-- The constructor `UnpackVideo::UnpackVideo(src, out_fmt)`. `src` is `none` for a
null pointer; `fresh` is the content of the storage returned by
`new unsigned char[src->SizeBytes()]`. -/
def UnpackVideo.new {σ : Type} (V : VideoInterface σ) (src : Option σ)
    (out_fmt : VideoPixelFormat) (fresh : Mem) : Except VideoException (UnpackVideo σ) :=
  match src with
  | none => .error ⟨"UnpackVideo: VideoInterface in must not be null"⟩
  | some src =>
    if out_fmt.bpp ≠ 16 ∨ out_fmt.channels ≠ 1 then
      .error ⟨"UnpackVideo: Only supports 16bit output."⟩
    else
      match UnpackVideo.new.loop out_fmt (V.Streams src) [] 0 with
      | .error e => .error e
      | .ok (streams, size_bytes) =>
        .ok { videoin := src, streams := streams, size_bytes := size_bytes, buffer := fresh }

/-- The method `UnpackVideo::Start()`: forwards to the wrapped source. -/
def UnpackVideo.Start {σ : Type} (V : VideoInterface σ) (self : UnpackVideo σ) : UnpackVideo σ :=
  { self with videoin := V.Start self.videoin }

/-- The method `UnpackVideo::Stop()`: forwards to the wrapped source. -/
def UnpackVideo.Stop {σ : Type} (V : VideoInterface σ) (self : UnpackVideo σ) : UnpackVideo σ :=
  { self with videoin := V.Stop self.videoin }

/-- The method `UnpackVideo::SizeBytes()`. -/
def UnpackVideo.SizeBytes {σ : Type} (self : UnpackVideo σ) : Nat := self.size_bytes

/-- The method `UnpackVideo::Streams()`. -/
def UnpackVideo.Streams {σ : Type} (self : UnpackVideo σ) : List StreamInfo := self.streams

/-- Why a run of `GrabNext` has no outcome: an inner `while` loop was still
running when the fuel ran out, or `videoin[0]->Streams()[s]` was indexed past
its end (undefined in C++). -/
inductive Stuck where
  | outOfFuel
  | outOfRange
deriving DecidableEq, Repr

/-- The loop `for(size_t s=0; s<streams.size(); ++s)` of `GrabNext`, over the
output streams `Streams()[s]`, `Streams()[s+1]`, ... still to visit. `inStreams`
is `videoin[0]->Streams()`, `buffer` the scratch buffer, `image` the caller's
buffer. The outcome is either normal completion or the thrown exception, each
with the caller's buffer as it is at that moment. The thrown message is the
string literal advanced by `bits` characters, as `"..." + bits` is pointer
arithmetic in C++. -/
def UnpackVideo.GrabNext.loop (fuel : Nat) (inStreams : List StreamInfo) (buffer : Mem) :
    List StreamInfo → Nat → Mem → Except Stuck (Except VideoException Unit × Mem)
  | [], _, image => .ok (.ok (), image)
  | so :: rest, s, image =>
    match inStreams[s]? with
    | none => .error .outOfRange
    | some si =>
      let img_in := si.StreamImage 0
      let img_out := so.StreamImage 0
      let bits := si.PixFormat.bpp
      if bits = 10 then
        match Convert10to16 fuel img_out img_in buffer image with
        | none => .error .outOfFuel
        | some image => UnpackVideo.GrabNext.loop fuel inStreams buffer rest (s + 1) image
      else if bits = 12 then
        match Convert12to16 fuel img_out img_in buffer image with
        | none => .error .outOfFuel
        | some image => UnpackVideo.GrabNext.loop fuel inStreams buffer rest (s + 1) image
      else
        .ok (.error ⟨"Incorrect image bit depth: ".drop bits⟩, image)

/-- The method `UnpackVideo::GrabNext(image, wait)`: the returned flag or the thrown
exception, the caller's buffer afterwards, and the object afterwards. -/
def UnpackVideo.GrabNext {σ : Type} (V : VideoInterface σ) (fuel : Nat) (self : UnpackVideo σ)
    (image : Mem) (wait : Bool) :
    Except Stuck (Except VideoException Bool × Mem × UnpackVideo σ) :=
  match V.GrabNext self.videoin self.buffer wait with
  | (true, buffer, videoin) =>
    let self := { self with videoin := videoin, buffer := buffer }
    match UnpackVideo.GrabNext.loop fuel (V.Streams videoin) buffer self.Streams 0 image with
    | .error e => .error e
    | .ok (.ok (), image) => .ok (.ok true, image, self)
    | .ok (.error e, image) => .ok (.error e, image, self)
  | (false, buffer, videoin) =>
    .ok (.ok false, image, { self with videoin := videoin, buffer := buffer })

/-- The method `UnpackVideo::GrabNewest(image, wait)`: the same as `GrabNext`. -/
def UnpackVideo.GrabNewest {σ : Type} (V : VideoInterface σ) (fuel : Nat) (self : UnpackVideo σ)
    (image : Mem) (wait : Bool) :
    Except Stuck (Except VideoException Bool × Mem × UnpackVideo σ) :=
  UnpackVideo.GrabNext V fuel self image wait

/-- A store holding the bytes of a list from address 0 on, zero elsewhere. -/
def memOfList (bytes : List Nat) : Mem := fun a => bytes.getD a 0

/-- A source with no state that always delivers the given frame. -/
def constSource (streams : List StreamInfo) (size : Nat) (frame : Mem) : VideoInterface Unit :=
  { SizeBytes := fun _ => size, Streams := fun _ => streams, Start := id, Stop := id,
    GrabNext := fun _ _ _ => (true, frame, ()), GrabNewest := fun _ _ _ => (true, frame, ()) }

/-! ## Proof devices: a generic group loop -/

/-- A `while(pin != pin_end)` loop whose body is `step pin pout`, consuming `gi`
input bytes and producing `go` output bytes per turn. -/
def genRow (step : Nat → Nat → Mem → Mem) (gi go pin_end : Nat) : Nat → Nat → Nat → Mem → Option Mem
  | 0, pin, _, dst => if pin ≠ pin_end then none else some dst
  | fuel + 1, pin, pout, dst =>
    if pin ≠ pin_end then genRow step gi go pin_end fuel (pin + gi) (pout + go) (step pin pout dst)
    else some dst

/-- The store after `n` turns of the loop body. -/
def iterRow (step : Nat → Nat → Mem → Mem) (gi go : Nat) : Nat → Nat → Nat → Mem → Mem
  | 0, _, _, dst => dst
  | n + 1, pin, pout, dst => iterRow step gi go n (pin + gi) (pout + go) (step pin pout dst)

/-- A row loop over `n` rows from row `r`. -/
def genRows (step : Nat → Nat → Mem → Mem) (gi go fuel : Nat) (out inp : Image) :
    Nat → Nat → Mem → Option Mem
  | 0, _, dst => some dst
  | n + 1, r, dst =>
    match genRow step gi go (inp.ptr + (r + 1) * inp.pitch) fuel
        (inp.ptr + r * inp.pitch) (out.ptr + r * out.pitch) dst with
    | none => none
    | some dst => genRows step gi go fuel out inp n (r + 1) dst

/-- The store after `n` rows of `k` groups each, from row `r`. -/
def iterRows (step : Nat → Nat → Mem → Mem) (gi go k : Nat) (out inp : Image) :
    Nat → Nat → Mem → Mem
  | 0, _, dst => dst
  | n + 1, r, dst =>
    iterRows step gi go k out inp n (r + 1)
      (iterRow step gi go k (inp.ptr + r * inp.pitch) (out.ptr + r * out.pitch) dst)

/-- The body of the 12-bit loop as a store transformer. -/
def step12 (src : Mem) (pin pout : Nat) (dst : Mem) : Mem :=
  let val := load8 src pin
  let val := val ||| (load8 src (pin + 1) <<< 8) % 2 ^ 32
  let val := val ||| (load8 src (pin + 2) <<< 16) % 2 ^ 32
  let dst := store16 dst pout (val &&& 0x000FFF)
  store16 dst (pout + 2) ((val &&& 0xFFF000) >>> 12)

/-- The body of the 10-bit loop as a store transformer. -/
def step10 (src : Mem) (pin pout : Nat) (dst : Mem) : Mem :=
  let val := load8 src pin
  let val := val ||| (load8 src (pin + 1) <<< 8) % 2 ^ 64
  let val := val ||| (load8 src (pin + 2) <<< 16) % 2 ^ 64
  let val := val ||| (load8 src (pin + 3) <<< 24) % 2 ^ 64
  let val := val ||| (load8 src (pin + 4) <<< 32) % 2 ^ 64
  let dst := store16 dst pout (val &&& 0x00000003FF)
  let dst := store16 dst (pout + 2) ((val &&& 0x00000FFC00) >>> 10)
  let dst := store16 dst (pout + 4) ((val &&& 0x003FF00000) >>> 20)
  store16 dst (pout + 6) ((val &&& 0xFFC0000000) >>> 30)

/-- The body writes nothing outside the `go` bytes from `pout`. -/
def StepFrame (step : Nat → Nat → Mem → Mem) (go : Nat) : Prop :=
  ∀ pin pout dst a, (a < pout ∨ pout + go ≤ a) → step pin pout dst a = dst a

/-- The body fully determines the `go` bytes from `pout`, whatever was there. -/
def StepWrites (step : Nat → Nat → Mem → Mem) (go : Nat) : Prop :=
  ∀ pin pout d1 d2 a, pout ≤ a → a < pout + go → step pin pout d1 a = step pin pout d2 a

/-- The three bytes at `a`, least significant first, as one number. -/
def le24 (m : Mem) (a : Nat) : Nat :=
  load8 m a + 256 * load8 m (a + 1) + 65536 * load8 m (a + 2)

/-- The five bytes at `a`, least significant first, as one number. -/
def le40 (m : Mem) (a : Nat) : Nat :=
  load8 m a + 256 * load8 m (a + 1) + 65536 * load8 m (a + 2) + 16777216 * load8 m (a + 3)
    + 4294967296 * load8 m (a + 4)

/-- The 12-bit packing in the words of the spec: consecutive groups of 3 bytes for 2
samples, little-endian, sample `2i` in bits 0-11 and sample `2i+1` in bits
12-23 of group `i`. -/
def pack12 : List Nat → List Nat
  | s0 :: s1 :: rest =>
    (s0 + 2 ^ 12 * s1) % 256 :: (s0 + 2 ^ 12 * s1) / 2 ^ 8 % 256
      :: (s0 + 2 ^ 12 * s1) / 2 ^ 16 % 256 :: pack12 rest
  | _ => []

/-- The 10-bit packing in the words of the spec: consecutive groups of 5 bytes for 4
samples, little-endian, sample `4i+k` in bits `10k` to `10k+9` of group `i`. -/
def pack10 : List Nat → List Nat
  | s0 :: s1 :: s2 :: s3 :: rest =>
    (s0 + 2 ^ 10 * s1 + 2 ^ 20 * s2 + 2 ^ 30 * s3) % 256
      :: (s0 + 2 ^ 10 * s1 + 2 ^ 20 * s2 + 2 ^ 30 * s3) / 2 ^ 8 % 256
      :: (s0 + 2 ^ 10 * s1 + 2 ^ 20 * s2 + 2 ^ 30 * s3) / 2 ^ 16 % 256
      :: (s0 + 2 ^ 10 * s1 + 2 ^ 20 * s2 + 2 ^ 30 * s3) / 2 ^ 24 % 256
      :: (s0 + 2 ^ 10 * s1 + 2 ^ 20 * s2 + 2 ^ 30 * s3) / 2 ^ 32 % 256 :: pack10 rest
  | _ => []

/-- The output descriptors the constructor loop appends for the given source
streams, when the running `size_bytes` is `off` at its start, with the `size_t`
arithmetic of the loop. -/
def wlayout (out_fmt : VideoPixelFormat) : Nat → List StreamInfo → List StreamInfo
  | _, [] => []
  | off, si :: rest =>
    StreamInfo.mk out_fmt si.w si.h ((si.w * out_fmt.bpp) % 2 ^ 64 / 8) off
      :: wlayout out_fmt
        ((off + (si.h * ((si.w * out_fmt.bpp) % 2 ^ 64 / 8)) % 2 ^ 64) % 2 ^ 64) rest

/-- The value of `size_bytes` after the constructor loop over the given source
streams, from the value `off`, with the `size_t` arithmetic of the loop. -/
def wlayoutSize (out_fmt : VideoPixelFormat) : Nat → List StreamInfo → Nat
  | off, [] => off
  | off, si :: rest =>
    wlayoutSize out_fmt
      ((off + (si.h * ((si.w * out_fmt.bpp) % 2 ^ 64 / 8)) % 2 ^ 64) % 2 ^ 64) rest

/-- The streams for which the `size_t` arithmetic of the constructor does not wrap:
every width is below `2 ^ 60` (so `w * 16` fits) and the total output size, the
sum of `h * 2 * w`, is below `2 ^ 64`. -/
def noWrap (l : List StreamInfo) : Prop :=
  (∀ si ∈ l, si.w < 2 ^ 60) ∧ (l.map (fun t => t.h * (2 * t.w))).sum < 2 ^ 64

instance instDecidableNoWrap (l : List StreamInfo) : Decidable (noWrap l) :=
  inferInstanceAs (Decidable (_ ∧ _))

/-- The output descriptors for the given source streams in exact arithmetic: pitch
`w * bpp / 8`, offsets the running sum of `h * pitch` from `off`. -/
def layout (out_fmt : VideoPixelFormat) : Nat → List StreamInfo → List StreamInfo
  | _, [] => []
  | off, si :: rest =>
    StreamInfo.mk out_fmt si.w si.h (si.w * out_fmt.bpp / 8) off
      :: layout out_fmt (off + si.h * (si.w * out_fmt.bpp / 8)) rest

/-- The sum of `h * pitch` over the given source streams in exact arithmetic. -/
def layoutSize (out_fmt : VideoPixelFormat) : List StreamInfo → Nat
  | [] => 0
  | si :: rest => si.h * (si.w * out_fmt.bpp / 8) + layoutSize out_fmt rest

/-- The format test of the constructor loop: the stream is refused. -/
def refused (si : StreamInfo) : Prop :=
  si.PixFormat.channels > 1 ∨ si.PixFormat.bpp < 9 ∨ si.PixFormat.bpp > 16

instance instDecidableRefused (si : StreamInfo) : Decidable (refused si) :=
  inferInstanceAs (Decidable (_ ∨ _ ∨ _))

/-- A source stream the capture loop can unpack within the given fuel: 10 or 12
bits per sample, a row pitch that is a whole number of 5-byte resp. 3-byte
groups, no more than `w` samples in a row, and a group count within the fuel. -/
def unpackable (fuel : Nat) (si : StreamInfo) : Prop :=
  (si.PixFormat.bpp = 10 ∧ si.pitch % 5 = 0 ∧ 4 * (si.pitch / 5) ≤ si.w ∧ si.pitch / 5 ≤ fuel) ∨
  (si.PixFormat.bpp = 12 ∧ si.pitch % 3 = 0 ∧ 2 * (si.pitch / 3) ≤ si.w ∧ si.pitch / 3 ≤ fuel)

instance instDecidableUnpackable (fuel : Nat) (si : StreamInfo) :
    Decidable (unpackable fuel si) :=
  inferInstanceAs (Decidable (_ ∨ _))

/-- A source with no state that never has a frame ready: its capture calls return
false and leave the buffer handed to them as it is. -/
def idleSource (streams : List StreamInfo) (size : Nat) : VideoInterface Unit :=
  { SizeBytes := fun _ => size, Streams := fun _ => streams, Start := id, Stop := id,
    GrabNext := fun _ buffer _ => (false, buffer, ()),
    GrabNewest := fun _ buffer _ => (false, buffer, ()) }

/-- A store transformer that, at each address, either writes a value that does not
depend on what was there or leaves the byte as it is. -/
def Overwrites (F : Mem → Mem) : Prop :=
  ∀ a, (∀ d1 d2 : Mem, F d1 a = F d2 a) ∨ (∀ d : Mem, F d a = d a)

/-- In-bounds access of an unpack routine, given by its row loop `row` and its
image function `conv`, on an image of `h` rows of `w` samples. For every row
`r < h` the row loop returns; it returns the same from any source store that
agrees with `src` on the bytes of input row `r`; it leaves every byte outside
the `2 * w` bytes of output row `r` as it was; and it overwrites each of these
`2 * w` bytes, whatever was there. For the whole image, `conv` returns; it
returns the same from any source store that agrees with `src` on the
`h * pitch` input bytes; and it leaves every byte outside the `h * 2 * w` output
bytes as it was. -/
def InBounds (row : Mem → Nat → Nat → Nat → Nat → Mem → Option Mem)
    (conv : Nat → Image → Image → Mem → Mem → Option Mem) (fuel w h : Nat) (out inp : Image)
    (src dst : Mem) : Prop :=
  (∀ r, r < h →
    ∃ dst', row src (inp.ptr + (r + 1) * inp.pitch) fuel (inp.ptr + r * inp.pitch)
        (out.ptr + r * out.pitch) dst = some dst' ∧
      (∀ src2 : Mem,
        (∀ a, inp.ptr + r * inp.pitch ≤ a → a < inp.ptr + (r + 1) * inp.pitch →
          load8 src2 a = load8 src a) →
        row src2 (inp.ptr + (r + 1) * inp.pitch) fuel (inp.ptr + r * inp.pitch)
          (out.ptr + r * out.pitch) dst = some dst') ∧
      (∀ a, (a < out.ptr + r * (2 * w) ∨ out.ptr + (r + 1) * (2 * w) ≤ a) → dst' a = dst a) ∧
      (∀ dst2 : Mem,
        ∃ dst2', row src (inp.ptr + (r + 1) * inp.pitch) fuel (inp.ptr + r * inp.pitch)
            (out.ptr + r * out.pitch) dst2 = some dst2' ∧
          ∀ a, out.ptr + r * (2 * w) ≤ a → a < out.ptr + (r + 1) * (2 * w) → dst2' a = dst' a)) ∧
  (∃ m, conv fuel out inp src dst = some m ∧
    (∀ src2 : Mem,
      (∀ a, inp.ptr ≤ a → a < inp.ptr + h * inp.pitch → load8 src2 a = load8 src a) →
      conv fuel out inp src2 dst = some m) ∧
    (∀ a, (a < out.ptr ∨ out.ptr + h * (2 * w) ≤ a) → m a = dst a))

/-! ## Lemmas -/

theorem and_mask_shift (v k n : Nat) : (v &&& ((2 ^ n - 1) <<< k)) >>> k = v / 2 ^ k % 2 ^ n := by
  rw [← Nat.and_pow_two_sub_one_eq_mod, ← Nat.shiftRight_eq_div_pow]
  apply Nat.eq_of_testBit_eq
  intro i
  have hm : ((2 ^ n - 1) <<< k).testBit (k + i) = (2 ^ n - 1).testBit i := by
    rw [← Nat.testBit_shiftRight, Nat.shiftLeft_shiftRight]
  simp only [Nat.testBit_shiftRight, Nat.testBit_and, hm]

theorem or_shift_eq_add (x b k : Nat) (hx : x < 2 ^ k) : x ||| (b <<< k) = x + 2 ^ k * b := by
  rw [Nat.shiftLeft_eq, Nat.or_comm, Nat.mul_comm b, ← Nat.mul_add_lt_is_or hx, Nat.add_comm]

theorem val12_eq (b0 b1 b2 : Nat) (h0 : b0 < 256) (h1 : b1 < 256) (h2 : b2 < 256) :
    (b0 ||| (b1 <<< 8) % 2 ^ 32) ||| (b2 <<< 16) % 2 ^ 32 = b0 + 256 * b1 + 65536 * b2 := by
  have e1 : (b1 <<< 8) % 2 ^ 32 = b1 <<< 8 := by
    apply Nat.mod_eq_of_lt; rw [Nat.shiftLeft_eq]; omega
  have e2 : (b2 <<< 16) % 2 ^ 32 = b2 <<< 16 := by
    apply Nat.mod_eq_of_lt; rw [Nat.shiftLeft_eq]; omega
  rw [e1, e2, or_shift_eq_add b0 b1 8 (by omega), or_shift_eq_add _ b2 16 (by omega)]
  norm_num

theorem val10_eq (b0 b1 b2 b3 b4 : Nat) (h0 : b0 < 256) (h1 : b1 < 256) (h2 : b2 < 256)
    (h3 : b3 < 256) (h4 : b4 < 256) :
    ((((b0 ||| (b1 <<< 8) % 2 ^ 64) ||| (b2 <<< 16) % 2 ^ 64) ||| (b3 <<< 24) % 2 ^ 64)
      ||| (b4 <<< 32) % 2 ^ 64)
      = b0 + 256 * b1 + 65536 * b2 + 16777216 * b3 + 4294967296 * b4 := by
  have e1 : (b1 <<< 8) % 2 ^ 64 = b1 <<< 8 := by
    apply Nat.mod_eq_of_lt; rw [Nat.shiftLeft_eq]; omega
  have e2 : (b2 <<< 16) % 2 ^ 64 = b2 <<< 16 := by
    apply Nat.mod_eq_of_lt; rw [Nat.shiftLeft_eq]; omega
  have e3 : (b3 <<< 24) % 2 ^ 64 = b3 <<< 24 := by
    apply Nat.mod_eq_of_lt; rw [Nat.shiftLeft_eq]; omega
  have e4 : (b4 <<< 32) % 2 ^ 64 = b4 <<< 32 := by
    apply Nat.mod_eq_of_lt; rw [Nat.shiftLeft_eq]; omega
  rw [e1, e2, e3, e4, or_shift_eq_add b0 b1 8 (by omega), or_shift_eq_add _ b2 16 (by omega),
    or_shift_eq_add _ b3 24 (by omega), or_shift_eq_add _ b4 32 (by omega)]
  norm_num

theorem mask12_lo (v : Nat) : v &&& 0x000FFF = v % 4096 := Nat.and_pow_two_sub_one_eq_mod v 12

theorem mask12_hi (v : Nat) : (v &&& 0xFFF000) >>> 12 = v / 4096 % 4096 := and_mask_shift v 12 12

theorem mask10_0 (v : Nat) : v &&& 0x00000003FF = v % 1024 := Nat.and_pow_two_sub_one_eq_mod v 10

theorem mask10_1 (v : Nat) : (v &&& 0x00000FFC00) >>> 10 = v / 2 ^ 10 % 1024 := and_mask_shift v 10 10

theorem mask10_2 (v : Nat) : (v &&& 0x003FF00000) >>> 20 = v / 2 ^ 20 % 1024 := and_mask_shift v 20 10

theorem mask10_3 (v : Nat) : (v &&& 0xFFC0000000) >>> 30 = v / 2 ^ 30 % 1024 := and_mask_shift v 30 10

theorem row12_eq_genRow (src : Mem) (pin_end fuel pin pout : Nat) (dst : Mem) :
    Convert12to16.row src pin_end fuel pin pout dst
      = genRow (step12 src) 3 4 pin_end fuel pin pout dst := by
  induction fuel generalizing pin pout dst with
  | zero => rfl
  | succ f ih =>
    simp only [Convert12to16.row, genRow]
    split
    · rw [ih]; rfl
    · rfl

theorem row10_eq_genRow (src : Mem) (pin_end fuel pin pout : Nat) (dst : Mem) :
    Convert10to16.row src pin_end fuel pin pout dst
      = genRow (step10 src) 5 8 pin_end fuel pin pout dst := by
  induction fuel generalizing pin pout dst with
  | zero => rfl
  | succ f ih =>
    simp only [Convert10to16.row, genRow]
    split
    · rw [ih]; rfl
    · rfl

theorem rows12_eq_genRows (fuel : Nat) (out inp : Image) (src : Mem) (n r : Nat) (dst : Mem) :
    Convert12to16.rows fuel out inp src n r dst
      = genRows (step12 src) 3 4 fuel out inp n r dst := by
  induction n generalizing r dst with
  | zero => rfl
  | succ n ih =>
    simp only [Convert12to16.rows, genRows, row12_eq_genRow]
    split
    · rfl
    · exact ih _ _

theorem rows10_eq_genRows (fuel : Nat) (out inp : Image) (src : Mem) (n r : Nat) (dst : Mem) :
    Convert10to16.rows fuel out inp src n r dst
      = genRows (step10 src) 5 8 fuel out inp n r dst := by
  induction n generalizing r dst with
  | zero => rfl
  | succ n ih =>
    simp only [Convert10to16.rows, genRows, row10_eq_genRow]
    split
    · rfl
    · exact ih _ _

/-- With enough fuel a loop over `n` whole groups ends, in the iterated store. -/
theorem genRow_eq_iterRow (step : Nat → Nat → Mem → Mem) (gi go : Nat) (hgi : 0 < gi)
    (n fuel pin pout : Nat) (dst : Mem) (hf : n ≤ fuel) :
    genRow step gi go (pin + gi * n) fuel pin pout dst = some (iterRow step gi go n pin pout dst) := by
  induction n generalizing fuel pin pout dst with
  | zero => cases fuel <;> simp [genRow, iterRow]
  | succ n ih =>
    cases fuel with
    | zero => omega
    | succ f =>
      have hne : pin ≠ pin + gi * (n + 1) := by
        have : 0 < gi * (n + 1) := Nat.mul_pos hgi (Nat.succ_pos n)
        omega
      have he : pin + gi * (n + 1) = (pin + gi) + gi * n := by ring
      simp only [genRow, iterRow, if_pos hne]
      rw [he]
      exact ih f (pin + gi) (pout + go) _ (by omega)

/-- A loop whose end is not a whole number of groups away never ends. -/
theorem genRow_none (step : Nat → Nat → Mem → Mem) (gi go pin_end : Nat)
    (fuel pin pout : Nat) (dst : Mem) (h : ∀ n, pin_end ≠ pin + gi * n) :
    genRow step gi go pin_end fuel pin pout dst = none := by
  induction fuel generalizing pin pout dst with
  | zero =>
    have := h 0
    simp only [Nat.mul_zero, Nat.add_zero] at this
    simp [genRow, Ne.symm this]
  | succ f ih =>
    have h0 := h 0
    simp only [Nat.mul_zero, Nat.add_zero] at h0
    simp only [genRow, if_pos (Ne.symm h0)]
    apply ih
    intro n hn
    apply h (n + 1)
    rw [hn]; ring

theorem genRows_eq_iterRows (step : Nat → Nat → Mem → Mem) (gi go : Nat) (hgi : 0 < gi)
    (k fuel : Nat) (out inp : Image) (hp : inp.pitch = gi * k) (hf : k ≤ fuel)
    (n r : Nat) (dst : Mem) :
    genRows step gi go fuel out inp n r dst = some (iterRows step gi go k out inp n r dst) := by
  induction n generalizing r dst with
  | zero => rfl
  | succ n ih =>
    have he : inp.ptr + (r + 1) * inp.pitch = (inp.ptr + r * inp.pitch) + gi * k := by
      rw [hp]; ring
    simp only [genRows, iterRows]
    rw [he, genRow_eq_iterRow step gi go hgi k fuel _ _ _ hf]
    exact ih _ _

theorem step_congr {step : Nat → Nat → Mem → Mem} {go : Nat} (hF : StepFrame step go)
    (hW : StepWrites step go) (pin pout : Nat) (d1 d2 : Mem) (a : Nat) (h : d1 a = d2 a) :
    step pin pout d1 a = step pin pout d2 a := by
  by_cases hin : pout ≤ a ∧ a < pout + go
  · exact hW pin pout d1 d2 a hin.1 hin.2
  · rw [hF pin pout d1 a (by omega), hF pin pout d2 a (by omega), h]

theorem iterRow_frame {step : Nat → Nat → Mem → Mem} {go : Nat} (hF : StepFrame step go)
    (gi n pin pout : Nat) (dst : Mem) (a : Nat) (h : a < pout ∨ pout + go * n ≤ a) :
    iterRow step gi go n pin pout dst a = dst a := by
  induction n generalizing pin pout dst with
  | zero => rfl
  | succ n ih =>
    have hm : go * (n + 1) = go + go * n := by ring
    simp only [iterRow]
    rw [ih (pin + gi) (pout + go) _ (by omega), hF pin pout dst a (by omega)]

theorem iterRow_congr {step : Nat → Nat → Mem → Mem} {go : Nat} (hF : StepFrame step go)
    (hW : StepWrites step go) (gi n pin pout : Nat) (d1 d2 : Mem) (a : Nat) (h : d1 a = d2 a) :
    iterRow step gi go n pin pout d1 a = iterRow step gi go n pin pout d2 a := by
  induction n generalizing pin pout d1 d2 with
  | zero => exact h
  | succ n ih =>
    simp only [iterRow]
    exact ih _ _ _ _ (step_congr hF hW pin pout d1 d2 a h)

/-- Inside the bytes of group `g` the row loop leaves what the body wrote there. -/
theorem iterRow_at {step : Nat → Nat → Mem → Mem} {go : Nat} (hF : StepFrame step go)
    (hW : StepWrites step go) (gi n pin pout : Nat) (dst : Mem) (g a : Nat) (hg : g < n)
    (h1 : pout + go * g ≤ a) (h2 : a < pout + go * g + go) :
    iterRow step gi go n pin pout dst a = step (pin + gi * g) (pout + go * g) dst a := by
  induction n generalizing pin pout dst g with
  | zero => omega
  | succ n ih =>
    simp only [iterRow]
    cases g with
    | zero =>
      simp only [Nat.mul_zero, Nat.add_zero] at h1 h2 ⊢
      rw [iterRow_frame hF gi n _ _ _ a (by omega)]
    | succ g =>
      have hm : go * (g + 1) = go + go * g := by ring
      have hm2 : gi * (g + 1) = gi + gi * g := by ring
      rw [ih (pin + gi) (pout + go) _ g (by omega) (by omega) (by omega)]
      rw [hm, hm2, ← Nat.add_assoc, ← Nat.add_assoc]
      exact hW _ _ _ _ a (by omega) (by omega)

theorem iterRows_frame_lo {step : Nat → Nat → Mem → Mem} {go : Nat} (hF : StepFrame step go)
    (gi k : Nat) (out inp : Image) (n r : Nat) (dst : Mem) (a : Nat)
    (h : a < out.ptr + r * out.pitch) :
    iterRows step gi go k out inp n r dst a = dst a := by
  induction n generalizing r dst with
  | zero => rfl
  | succ n ih =>
    have hm : (r + 1) * out.pitch = r * out.pitch + out.pitch := Nat.succ_mul _ _
    simp only [iterRows]
    rw [ih (r + 1) _ (by omega), iterRow_frame hF gi k _ _ _ a (by omega)]

theorem iterRows_frame_hi {step : Nat → Nat → Mem → Mem} {go : Nat} (hF : StepFrame step go)
    (gi k : Nat) (out inp : Image) (hfit : go * k ≤ out.pitch) (n r : Nat) (dst : Mem) (a : Nat)
    (h : out.ptr + (r + n) * out.pitch ≤ a) :
    iterRows step gi go k out inp n r dst a = dst a := by
  induction n generalizing r dst with
  | zero => rfl
  | succ n ih =>
    have hm : (r + (n + 1)) * out.pitch = r * out.pitch + out.pitch + n * out.pitch := by ring
    have hm2 : (r + 1 + n) * out.pitch = r * out.pitch + out.pitch + n * out.pitch := by ring
    simp only [iterRows]
    rw [ih (r + 1) _ (by omega), iterRow_frame hF gi k _ _ _ a (by omega)]

theorem iterRows_congr {step : Nat → Nat → Mem → Mem} {go : Nat} (hF : StepFrame step go)
    (hW : StepWrites step go) (gi k : Nat) (out inp : Image) (n r : Nat) (d1 d2 : Mem) (a : Nat)
    (h : d1 a = d2 a) :
    iterRows step gi go k out inp n r d1 a = iterRows step gi go k out inp n r d2 a := by
  induction n generalizing r d1 d2 with
  | zero => exact h
  | succ n ih =>
    simp only [iterRows]
    exact ih _ _ _ (iterRow_congr hF hW gi k _ _ d1 d2 a h)

/-- Inside the bytes of group `g` of row `q` the image loop leaves what the body
wrote there, when the rows of the output do not overlap. -/
theorem iterRows_at {step : Nat → Nat → Mem → Mem} {go : Nat} (hF : StepFrame step go)
    (hW : StepWrites step go) (gi k : Nat) (out inp : Image) (hfit : go * k ≤ out.pitch)
    (n r : Nat) (dst : Mem) (q g a : Nat) (hq1 : r ≤ q) (hq2 : q < r + n) (hg : g < k)
    (h1 : out.ptr + q * out.pitch + go * g ≤ a) (h2 : a < out.ptr + q * out.pitch + go * g + go) :
    iterRows step gi go k out inp n r dst a
      = step (inp.ptr + q * inp.pitch + gi * g) (out.ptr + q * out.pitch + go * g) dst a := by
  induction n generalizing r dst with
  | zero => omega
  | succ n ih =>
    simp only [iterRows]
    have hgk : go * g + go ≤ go * k := by
      have : go * (g + 1) ≤ go * k := Nat.mul_le_mul_left go hg
      rw [Nat.mul_succ] at this
      exact this
    by_cases hqr : q = r
    · subst hqr
      have hm : (q + 1) * out.pitch = q * out.pitch + out.pitch := Nat.succ_mul _ _
      rw [iterRows_frame_lo hF gi k out inp n (q + 1) _ a (by omega)]
      exact iterRow_at hF hW gi k _ _ dst g a hg h1 h2
    · rw [ih (r + 1) _ (by omega) (by omega)]
      exact hW _ _ _ _ a h1 h2

theorem store16_other (m : Mem) (a v x : Nat) (h : x < a ∨ a + 2 ≤ x) :
    store16 m a v x = m x := by
  unfold store16
  rw [if_neg (by omega), if_neg (by omega)]

theorem store16_lo (m : Mem) (a v : Nat) : store16 m a v a = v % 65536 % 256 := by
  unfold store16
  rw [if_pos rfl]

theorem store16_hi (m : Mem) (a v : Nat) : store16 m a v (a + 1) = v % 65536 / 256 := by
  unfold store16
  rw [if_neg (by omega), if_pos rfl]

theorem store16_cover (m1 m2 : Mem) (a v x : Nat) (h1 : a ≤ x) (h2 : x < a + 2) :
    store16 m1 a v x = store16 m2 a v x := by
  have hx : x = a ∨ x = a + 1 := by omega
  rcases hx with rfl | rfl
  · rw [store16_lo, store16_lo]
  · rw [store16_hi, store16_hi]

theorem store16_congr (m1 m2 : Mem) (a v x : Nat) (h : m1 x = m2 x) :
    store16 m1 a v x = store16 m2 a v x := by
  unfold store16
  rw [h]

theorem load16_store16 (m : Mem) (a v : Nat) : load16 (store16 m a v) a = v % 65536 := by
  unfold load16 load8
  rw [store16_lo, store16_hi]
  omega

theorem load16_congr (m1 m2 : Mem) (a : Nat) (h0 : m1 a = m2 a) (h1 : m1 (a + 1) = m2 (a + 1)) :
    load16 m1 a = load16 m2 a := by
  unfold load16 load8
  rw [h0, h1]

theorem load16_store16_other (m : Mem) (a v x : Nat) (h : x + 2 ≤ a ∨ a + 2 ≤ x) :
    load16 (store16 m a v) x = load16 m x :=
  load16_congr _ _ _ (store16_other m a v x (by omega)) (store16_other m a v (x + 1) (by omega))

theorem load8_lt (m : Mem) (a : Nat) : load8 m a < 256 := Nat.mod_lt _ (by decide)

theorem step12_eq (src : Mem) (pin pout : Nat) (dst : Mem) :
    step12 src pin pout dst
      = store16 (store16 dst pout (le24 src pin % 4096)) (pout + 2) (le24 src pin / 4096 % 4096) := by
  simp only [step12, mask12_lo, mask12_hi]
  rw [val12_eq _ _ _ (load8_lt _ _) (load8_lt _ _) (load8_lt _ _)]
  rfl

theorem step10_eq (src : Mem) (pin pout : Nat) (dst : Mem) :
    step10 src pin pout dst
      = store16 (store16 (store16 (store16 dst pout (le40 src pin % 1024))
          (pout + 2) (le40 src pin / 2 ^ 10 % 1024))
          (pout + 4) (le40 src pin / 2 ^ 20 % 1024))
          (pout + 6) (le40 src pin / 2 ^ 30 % 1024) := by
  simp only [step10, mask10_0, mask10_1, mask10_2, mask10_3]
  rw [val10_eq _ _ _ _ _ (load8_lt _ _) (load8_lt _ _) (load8_lt _ _) (load8_lt _ _) (load8_lt _ _)]
  rfl

theorem step12_frame (src : Mem) : StepFrame (step12 src) 4 := by
  intro pin pout dst a h
  rw [step12_eq, store16_other _ _ _ _ (by omega), store16_other _ _ _ _ (by omega)]

theorem step12_writes (src : Mem) : StepWrites (step12 src) 4 := by
  intro pin pout d1 d2 a h1 h2
  rw [step12_eq, step12_eq]
  by_cases h : pout + 2 ≤ a
  · exact store16_cover _ _ _ _ _ h (by omega)
  · exact store16_congr _ _ _ _ _ (store16_cover _ _ _ _ _ h1 (by omega))

theorem step10_frame (src : Mem) : StepFrame (step10 src) 8 := by
  intro pin pout dst a h
  rw [step10_eq, store16_other _ _ _ _ (by omega), store16_other _ _ _ _ (by omega),
    store16_other _ _ _ _ (by omega), store16_other _ _ _ _ (by omega)]

theorem step10_writes (src : Mem) : StepWrites (step10 src) 8 := by
  intro pin pout d1 d2 a h1 h2
  rw [step10_eq, step10_eq]
  by_cases h6 : pout + 6 ≤ a
  · exact store16_cover _ _ _ _ _ h6 (by omega)
  · apply store16_congr
    by_cases h4 : pout + 4 ≤ a
    · exact store16_cover _ _ _ _ _ h4 (by omega)
    · apply store16_congr
      by_cases h2 : pout + 2 ≤ a
      · exact store16_cover _ _ _ _ _ h2 (by omega)
      · exact store16_congr _ _ _ _ _ (store16_cover _ _ _ _ _ h1 (by omega))

theorem step12_sample0 (src : Mem) (pin pout : Nat) (dst : Mem) :
    load16 (step12 src pin pout dst) pout = le24 src pin % 4096 := by
  rw [step12_eq, load16_store16_other _ _ _ _ (by omega), load16_store16]
  omega

theorem step12_sample1 (src : Mem) (pin pout : Nat) (dst : Mem) :
    load16 (step12 src pin pout dst) (pout + 2) = le24 src pin / 4096 % 4096 := by
  rw [step12_eq, load16_store16]
  omega

theorem step10_sample0 (src : Mem) (pin pout : Nat) (dst : Mem) :
    load16 (step10 src pin pout dst) pout = le40 src pin % 1024 := by
  rw [step10_eq, load16_store16_other _ _ _ _ (by omega), load16_store16_other _ _ _ _ (by omega),
    load16_store16_other _ _ _ _ (by omega), load16_store16]
  omega

theorem step10_sample1 (src : Mem) (pin pout : Nat) (dst : Mem) :
    load16 (step10 src pin pout dst) (pout + 2) = le40 src pin / 2 ^ 10 % 1024 := by
  rw [step10_eq, load16_store16_other _ _ _ _ (by omega), load16_store16_other _ _ _ _ (by omega),
    load16_store16]
  omega

theorem step10_sample2 (src : Mem) (pin pout : Nat) (dst : Mem) :
    load16 (step10 src pin pout dst) (pout + 4) = le40 src pin / 2 ^ 20 % 1024 := by
  rw [step10_eq, load16_store16_other _ _ _ _ (by omega), load16_store16]
  omega

theorem step10_sample3 (src : Mem) (pin pout : Nat) (dst : Mem) :
    load16 (step10 src pin pout dst) (pout + 6) = le40 src pin / 2 ^ 30 % 1024 := by
  rw [step10_eq, load16_store16]
  omega

/-- With enough fuel and a pitch of `k` groups of three bytes, `Convert12to16`
ends in the iterated store. -/
theorem Convert12to16_eq (fuel k : Nat) (out inp : Image) (src dst : Mem)
    (hp : inp.pitch = 3 * k) (hf : k ≤ fuel) :
    Convert12to16 fuel out inp src dst
      = some (iterRows (step12 src) 3 4 k out inp out.h 0 dst) := by
  unfold Convert12to16
  rw [rows12_eq_genRows]
  exact genRows_eq_iterRows _ 3 4 (by decide) k fuel out inp hp hf _ _ _

theorem Convert10to16_eq (fuel k : Nat) (out inp : Image) (src dst : Mem)
    (hp : inp.pitch = 5 * k) (hf : k ≤ fuel) :
    Convert10to16 fuel out inp src dst
      = some (iterRows (step10 src) 5 8 k out inp out.h 0 dst) := by
  unfold Convert10to16
  rw [rows10_eq_genRows]
  exact genRows_eq_iterRows _ 5 8 (by decide) k fuel out inp hp hf _ _ _

/-- A 16-bit read inside group `g` of row `q` sees what the loop body wrote. -/
theorem iterRows_load16 {step : Nat → Nat → Mem → Mem} {go : Nat} (hF : StepFrame step go)
    (hW : StepWrites step go) (gi k : Nat) (out inp : Image) (hfit : go * k ≤ out.pitch)
    (n : Nat) (dst : Mem) (q g j : Nat) (hq : q < n) (hg : g < k) (hj : j + 2 ≤ go) :
    load16 (iterRows step gi go k out inp n 0 dst) (out.ptr + q * out.pitch + go * g + j)
      = load16 (step (inp.ptr + q * inp.pitch + gi * g) (out.ptr + q * out.pitch + go * g) dst)
          (out.ptr + q * out.pitch + go * g + j) := by
  apply load16_congr
  · exact iterRows_at hF hW gi k out inp hfit n 0 dst q g _ (by omega) (by omega) hg
      (by omega) (by omega)
  · exact iterRows_at hF hW gi k out inp hfit n 0 dst q g _ (by omega) (by omega) hg
      (by omega) (by omega)

/-! ## The codec -/

/-- C1, as the claim states it, fails: for an image of 2 rows with input pitch 6
and output pitch 4 (the output descriptor `GrabNext` uses for a source stream
of width 2, height 2 and row pitch 6), the rows of the output overlap, and the
sample at row 0, column 2 ends up as 513, the first sample of row 1, not as the
4090 of the bytes FA FF FF at row offset 3. -/
theorem Convert12to16_rows_overlap :
    (6 % 3 = 0 ∧ 0 < 2 ∧ 1 < 6 / 3) ∧
    (Convert12to16 2 ⟨4, 0, 2, 2⟩ ⟨6, 0, 2, 2⟩
        (memOfList [0x0A, 0x40, 0x01, 0xFA, 0xFF, 0xFF, 1, 2, 3, 4, 5, 6]) (fun _ => 0)).map
          (fun m => load16 m (0 + 0 * 4 + 2 * (2 * 1))) = some 513 ∧
    (load8 (memOfList [0x0A, 0x40, 0x01, 0xFA, 0xFF, 0xFF, 1, 2, 3, 4, 5, 6]) (0 + 0 * 6 + 3 * 1)
      + 256 * load8 (memOfList [0x0A, 0x40, 0x01, 0xFA, 0xFF, 0xFF, 1, 2, 3, 4, 5, 6])
          (0 + 0 * 6 + 3 * 1 + 1)
      + 65536 * load8 (memOfList [0x0A, 0x40, 0x01, 0xFA, 0xFF, 0xFF, 1, 2, 3, 4, 5, 6])
          (0 + 0 * 6 + 3 * 1 + 2)) % 4096 = 4090 := by
  decide

/-- C1, amended. 12-bit unpack: when the input pitch is a multiple of 3 and the rows of
the output image do not overlap (they are at least the `2 * (pitch / 3)` samples
of two bytes apart), `Convert12to16` returns, and for every row `r < h` and
group `g < pitch / 3`, with `v` the little-endian value of the three input bytes
at row offset `3g`, the 16-bit output sample at row `r`, column `2g` is
`v mod 4096` and the one at column `2g + 1` is `(v / 4096) mod 4096`. -/
theorem Convert12to16_samples (fuel : Nat) (out inp : Image) (src dst : Mem)
    (hp : inp.pitch % 3 = 0) (hfit : 2 * (2 * (inp.pitch / 3)) ≤ out.pitch)
    (hfuel : inp.pitch / 3 ≤ fuel) :
    ∃ dst', Convert12to16 fuel out inp src dst = some dst' ∧
      ∀ r g, r < out.h → g < inp.pitch / 3 →
        load16 dst' (out.ptr + r * out.pitch + 2 * (2 * g))
          = (load8 src (inp.ptr + r * inp.pitch + 3 * g)
              + 256 * load8 src (inp.ptr + r * inp.pitch + 3 * g + 1)
              + 65536 * load8 src (inp.ptr + r * inp.pitch + 3 * g + 2)) % 4096 ∧
        load16 dst' (out.ptr + r * out.pitch + 2 * (2 * g + 1))
          = (load8 src (inp.ptr + r * inp.pitch + 3 * g)
              + 256 * load8 src (inp.ptr + r * inp.pitch + 3 * g + 1)
              + 65536 * load8 src (inp.ptr + r * inp.pitch + 3 * g + 2)) / 4096 % 4096 := by
  refine ⟨_, Convert12to16_eq fuel (inp.pitch / 3) out inp src dst (by omega) hfuel, ?_⟩
  intro r g hr hg
  have e0 : out.ptr + r * out.pitch + 2 * (2 * g) = out.ptr + r * out.pitch + 4 * g + 0 := by ring
  have e1 : out.ptr + r * out.pitch + 2 * (2 * g + 1) = out.ptr + r * out.pitch + 4 * g + 2 := by
    ring
  constructor
  · rw [e0, iterRows_load16 (step12_frame src) (step12_writes src) 3 _ out inp (by omega) _ dst
      r g 0 hr hg (by omega)]
    exact step12_sample0 src _ _ dst
  · rw [e1, iterRows_load16 (step12_frame src) (step12_writes src) 3 _ out inp (by omega) _ dst
      r g 2 hr hg (by omega)]
    exact step12_sample1 src _ _ dst

/-- C2, as the claim states it, fails: for an image of 2 rows with input pitch 10
and output pitch 8 (the output descriptor `GrabNext` uses for a source stream
of width 4, height 2 and row pitch 10), the rows of the output overlap, and the
sample at row 0, column 5 ends up as 192, the second sample of row 1, not as
the 1000 of bits 10-19 of the bytes 00 A0 3F C0 FF at row offset 5. -/
theorem Convert10to16_rows_overlap :
    (10 % 5 = 0 ∧ 0 < 2 ∧ 1 < 10 / 5 ∧ 1 < 4) ∧
    (Convert10to16 2 ⟨8, 0, 4, 2⟩ ⟨10, 0, 4, 2⟩
        (memOfList [0x01, 0xFC, 0x0F, 0xE0, 0x01, 0x00, 0xA0, 0x3F, 0xC0, 0xFF,
          1, 2, 3, 4, 5, 6, 7, 8, 9, 10]) (fun _ => 0)).map
          (fun m => load16 m (0 + 0 * 8 + 2 * (4 * 1 + 1))) = some 192 ∧
    le40 (memOfList [0x01, 0xFC, 0x0F, 0xE0, 0x01, 0x00, 0xA0, 0x3F, 0xC0, 0xFF,
          1, 2, 3, 4, 5, 6, 7, 8, 9, 10]) (0 + 0 * 10 + 5 * 1) / 2 ^ (10 * 1) % 1024 = 1000 := by
  decide

/-- C2, amended. 10-bit unpack: when the input pitch is a multiple of 5 and the rows of
the output image do not overlap (they are at least the `4 * (pitch / 5)` samples
of two bytes apart), `Convert10to16` returns, and for every row `r < h`, group
`g < pitch / 5` and `k` in 0..3, with `v` the 40-bit little-endian value of the
five input bytes at row offsets `5g .. 5g+4`, the 16-bit output sample at row
`r`, column `4g + k` is `(v / 2^(10k)) mod 1024`. -/
theorem Convert10to16_samples (fuel : Nat) (out inp : Image) (src dst : Mem)
    (hp : inp.pitch % 5 = 0) (hfit : 2 * (4 * (inp.pitch / 5)) ≤ out.pitch)
    (hfuel : inp.pitch / 5 ≤ fuel) :
    ∃ dst', Convert10to16 fuel out inp src dst = some dst' ∧
      ∀ r g k, r < out.h → g < inp.pitch / 5 → k < 4 →
        load16 dst' (out.ptr + r * out.pitch + 2 * (4 * g + k))
          = (load8 src (inp.ptr + r * inp.pitch + 5 * g)
              + 2 ^ 8 * load8 src (inp.ptr + r * inp.pitch + 5 * g + 1)
              + 2 ^ 16 * load8 src (inp.ptr + r * inp.pitch + 5 * g + 2)
              + 2 ^ 24 * load8 src (inp.ptr + r * inp.pitch + 5 * g + 3)
              + 2 ^ 32 * load8 src (inp.ptr + r * inp.pitch + 5 * g + 4)) / 2 ^ (10 * k) % 1024 := by
  refine ⟨_, Convert10to16_eq fuel (inp.pitch / 5) out inp src dst (by omega) hfuel, ?_⟩
  intro r g k hr hg hk
  have e : out.ptr + r * out.pitch + 2 * (4 * g + k) = out.ptr + r * out.pitch + 8 * g + 2 * k := by
    ring
  rw [e, iterRows_load16 (step10_frame src) (step10_writes src) 5 _ out inp (by omega) _ dst
      r g (2 * k) hr hg (by omega)]
  have hk4 : k = 0 ∨ k = 1 ∨ k = 2 ∨ k = 3 := by omega
  rcases hk4 with rfl | rfl | rfl | rfl
  · rw [Nat.mul_zero, Nat.add_zero, step10_sample0]
    simp [le40]
  · exact step10_sample1 src _ _ dst
  · exact step10_sample2 src _ _ dst
  · exact step10_sample3 src _ _ dst

/-- The amended C1 on one row of two groups, the bytes 0A 40 01 FA FF FF. -/
theorem Convert12to16_samples_witness :
    (6 % 3 = 0 ∧ 2 * (2 * (6 / 3)) ≤ 8 ∧ 6 / 3 ≤ 2) ∧
    ∃ dst', Convert12to16 2 ⟨8, 0, 4, 1⟩ ⟨6, 0, 4, 1⟩
        (memOfList [0x0A, 0x40, 0x01, 0xFA, 0xFF, 0xFF]) (fun _ => 0) = some dst' ∧
      ∀ r g, r < 1 → g < 6 / 3 →
        load16 dst' (0 + r * 8 + 2 * (2 * g))
          = (load8 (memOfList [0x0A, 0x40, 0x01, 0xFA, 0xFF, 0xFF]) (0 + r * 6 + 3 * g)
              + 256 * load8 (memOfList [0x0A, 0x40, 0x01, 0xFA, 0xFF, 0xFF]) (0 + r * 6 + 3 * g + 1)
              + 65536 * load8 (memOfList [0x0A, 0x40, 0x01, 0xFA, 0xFF, 0xFF]) (0 + r * 6 + 3 * g + 2))
            % 4096 ∧
        load16 dst' (0 + r * 8 + 2 * (2 * g + 1))
          = (load8 (memOfList [0x0A, 0x40, 0x01, 0xFA, 0xFF, 0xFF]) (0 + r * 6 + 3 * g)
              + 256 * load8 (memOfList [0x0A, 0x40, 0x01, 0xFA, 0xFF, 0xFF]) (0 + r * 6 + 3 * g + 1)
              + 65536 * load8 (memOfList [0x0A, 0x40, 0x01, 0xFA, 0xFF, 0xFF]) (0 + r * 6 + 3 * g + 2))
            / 4096 % 4096 :=
  ⟨by decide, Convert12to16_samples 2 ⟨8, 0, 4, 1⟩ ⟨6, 0, 4, 1⟩
    (memOfList [0x0A, 0x40, 0x01, 0xFA, 0xFF, 0xFF]) (fun _ => 0) (by decide) (by decide)
    (by decide)⟩

/-- The amended C2 on one row of one group, the bytes 01 FC 0F E0 01. -/
theorem Convert10to16_samples_witness :
    (5 % 5 = 0 ∧ 2 * (4 * (5 / 5)) ≤ 8 ∧ 5 / 5 ≤ 1) ∧
    ∃ dst', Convert10to16 1 ⟨8, 0, 4, 1⟩ ⟨5, 0, 4, 1⟩
        (memOfList [0x01, 0xFC, 0x0F, 0xE0, 0x01]) (fun _ => 0) = some dst' ∧
      ∀ r g k, r < 1 → g < 5 / 5 → k < 4 →
        load16 dst' (0 + r * 8 + 2 * (4 * g + k))
          = (load8 (memOfList [0x01, 0xFC, 0x0F, 0xE0, 0x01]) (0 + r * 5 + 5 * g)
              + 2 ^ 8 * load8 (memOfList [0x01, 0xFC, 0x0F, 0xE0, 0x01]) (0 + r * 5 + 5 * g + 1)
              + 2 ^ 16 * load8 (memOfList [0x01, 0xFC, 0x0F, 0xE0, 0x01]) (0 + r * 5 + 5 * g + 2)
              + 2 ^ 24 * load8 (memOfList [0x01, 0xFC, 0x0F, 0xE0, 0x01]) (0 + r * 5 + 5 * g + 3)
              + 2 ^ 32 * load8 (memOfList [0x01, 0xFC, 0x0F, 0xE0, 0x01]) (0 + r * 5 + 5 * g + 4))
            / 2 ^ (10 * k) % 1024 :=
  ⟨by decide, Convert10to16_samples 1 ⟨8, 0, 4, 1⟩ ⟨5, 0, 4, 1⟩
    (memOfList [0x01, 0xFC, 0x0F, 0xE0, 0x01]) (fun _ => 0) (by decide) (by decide)
    (by decide)⟩

/-! ## Round trips -/

theorem pack12_length (l : List Nat) : (pack12 l).length = 3 * (l.length / 2) := by
  induction l using pack12.induct with
  | case1 s0 s1 rest ih =>
    simp only [pack12, List.length_cons, ih]
    omega
  | case2 l h =>
    have hl : l.length < 2 := by
      match l, h with
      | [], _ => simp
      | [_], _ => simp
      | a :: b :: r, h => exact absurd rfl (h a b r)
    unfold pack12
    split
    · exact absurd rfl (h _ _ _)
    · simp; omega

/-- Group `g` of the packed bytes holds the little-endian value of its two samples. -/
theorem pack12_group (l : List Nat) (hl : ∀ s ∈ l, s < 4096) (g : Nat) (hg : 2 * g + 1 < l.length) :
    (pack12 l).getD (3 * g) 0 % 256 + 256 * ((pack12 l).getD (3 * g + 1) 0 % 256)
      + 65536 * ((pack12 l).getD (3 * g + 2) 0 % 256)
      = l.getD (2 * g) 0 + 4096 * l.getD (2 * g + 1) 0 := by
  induction l using pack12.induct generalizing g with
  | case1 s0 s1 rest ih =>
    have h0 : s0 < 4096 := hl s0 (by simp)
    have h1 : s1 < 4096 := hl s1 (by simp)
    cases g with
    | zero =>
      simp only [pack12, Nat.mul_zero, Nat.zero_add, List.getD_cons_zero, List.getD_cons_succ]
      omega
    | succ g =>
      have e0 : 3 * (g + 1) = 3 * g + 2 + 1 := by ring
      have e1 : 3 * (g + 1) + 1 = 3 * g + 1 + 2 + 1 := by ring
      have e2 : 3 * (g + 1) + 2 = 3 * g + 2 + 2 + 1 := by ring
      have e3 : 2 * (g + 1) = 2 * g + 1 + 1 := by ring
      have e4 : 2 * (g + 1) + 1 = 2 * g + 1 + 1 + 1 := by ring
      simp only [pack12]
      rw [e1, e2, e0, e4, e3]
      simp only [List.getD_cons_succ]
      apply ih (fun s hs => hl s (by simp [hs])) g
      simp only [List.length_cons] at hg
      omega
  | case2 l h =>
    exfalso
    match l, h, hg with
    | [], _, hg => simp at hg
    | [_], _, hg => simp at hg
    | a :: b :: r, h, _ => exact h a b r rfl

/-- A 16-bit read inside group `g` of a single row sees what the loop body wrote. -/
theorem iterRow_load16 {step : Nat → Nat → Mem → Mem} {go : Nat} (hF : StepFrame step go)
    (hW : StepWrites step go) (gi n pin pout : Nat) (dst : Mem) (g j : Nat) (hg : g < n)
    (hj : j + 2 ≤ go) :
    load16 (iterRow step gi go n pin pout dst) (pout + go * g + j)
      = load16 (step (pin + gi * g) (pout + go * g) dst) (pout + go * g + j) := by
  apply load16_congr
  · exact iterRow_at hF hW gi n pin pout dst g _ hg (by omega) (by omega)
  · exact iterRow_at hF hW gi n pin pout dst g _ hg (by omega) (by omega)

theorem le24_pack12 (samples : List Nat) (hrange : ∀ s ∈ samples, s < 4096) (src : Mem) (p : Nat)
    (hsrc : ∀ i, i < (pack12 samples).length → src (p + i) = (pack12 samples).getD i 0)
    (g : Nat) (hg : 2 * g + 1 < samples.length) :
    le24 src (p + 3 * g) = samples.getD (2 * g) 0 + 4096 * samples.getD (2 * g + 1) 0 := by
  have hlen := pack12_length samples
  have e0 := hsrc (3 * g) (by omega)
  have e1 := hsrc (3 * g + 1) (by omega)
  have e2 := hsrc (3 * g + 2) (by omega)
  rw [← Nat.add_assoc] at e1 e2
  unfold le24 load8
  rw [e0, e1, e2]
  exact pack12_group samples hrange g hg

theorem getD_lt_of_forall (samples : List Nat) (b : Nat) (hrange : ∀ s ∈ samples, s < b) (i : Nat)
    (hi : i < samples.length) : samples.getD i 0 < b := by
  rw [List.getD_eq_getElem _ _ hi]
  exact hrange _ (List.getElem_mem hi)

/-- Sample `i` of a packed 12-bit row, as `Convert12to16` writes it. -/
theorem unpack12_packed_at (samples : List Nat) (hrange : ∀ s ∈ samples, s < 4096)
    (src dst : Mem) (pin pout k : Nat) (hk : samples.length = 2 * k)
    (hsrc : ∀ i, i < (pack12 samples).length → src (pin + i) = (pack12 samples).getD i 0)
    (i : Nat) (hi : i < samples.length) :
    load16 (iterRow (step12 src) 3 4 k pin pout dst) (pout + 2 * i) = samples.getD i 0 := by
  have hdm := Nat.div_add_mod i 2
  have hlt : i % 2 < 2 := Nat.mod_lt _ (by decide)
  have h0 := getD_lt_of_forall samples 4096 hrange (2 * (i / 2)) (by omega)
  have h1 := getD_lt_of_forall samples 4096 hrange (2 * (i / 2) + 1) (by omega)
  have hle := le24_pack12 samples hrange src pin hsrc (i / 2) (by omega)
  have hj : i % 2 = 0 ∨ i % 2 = 1 := by omega
  rcases hj with hj | hj
  · have e : pout + 2 * i = pout + 4 * (i / 2) + 0 := by omega
    have ei : i = 2 * (i / 2) := by omega
    rw [e, iterRow_load16 (step12_frame src) (step12_writes src) 3 k pin pout dst (i / 2) 0
      (by omega) (by omega), Nat.add_zero, step12_sample0, hle]
    rw [← ei] at h0 ⊢
    omega
  · have e : pout + 2 * i = pout + 4 * (i / 2) + 2 := by omega
    have ei : i = 2 * (i / 2) + 1 := by omega
    rw [e, iterRow_load16 (step12_frame src) (step12_writes src) 3 k pin pout dst (i / 2) 2
      (by omega) (by omega), step12_sample1, hle]
    rw [← ei] at h1 ⊢
    omega

theorem map_range_eq_of_getD (samples : List Nat) (f : Nat → Nat)
    (h : ∀ i, i < samples.length → f i = samples.getD i 0) :
    (List.range samples.length).map f = samples := by
  apply List.ext_getElem
  · simp
  · intro i h1 h2
    simp only [List.getElem_map, List.getElem_range]
    rw [h i h2, List.getD_eq_getElem _ _ h2]

/-- C3. 12-bit round trip: a list of samples of even length, each below 4096,
packed as the spec describes and laid out as one input row, is unpacked by
`Convert12to16` to exactly the original list, each 16-bit output unit being
below 4096. -/
theorem Convert12to16_roundtrip (samples : List Nat) (fuel : Nat) (out inp : Image)
    (src dst : Mem) (heven : samples.length % 2 = 0) (hrange : ∀ s ∈ samples, s < 4096)
    (hfuel : samples.length / 2 ≤ fuel) (hrow : out.h = 1)
    (hpitch : inp.pitch = (pack12 samples).length)
    (hsrc : ∀ i, i < (pack12 samples).length → src (inp.ptr + i) = (pack12 samples).getD i 0) :
    ∃ dst', Convert12to16 fuel out inp src dst = some dst' ∧
      (List.range samples.length).map (fun i => load16 dst' (out.ptr + 2 * i)) = samples ∧
      ∀ i, i < samples.length → load16 dst' (out.ptr + 2 * i) < 4096 := by
  have hlen := pack12_length samples
  have hk : samples.length = 2 * (samples.length / 2) := by omega
  refine ⟨_, Convert12to16_eq fuel (samples.length / 2) out inp src dst (by omega) hfuel, ?_⟩
  have key : ∀ i, i < samples.length →
      load16 (iterRows (step12 src) 3 4 (samples.length / 2) out inp out.h 0 dst) (out.ptr + 2 * i)
        = samples.getD i 0 := by
    intro i hi
    rw [hrow]
    simp only [iterRows, Nat.zero_mul, Nat.add_zero]
    exact unpack12_packed_at samples hrange src dst inp.ptr out.ptr _ hk hsrc i hi
  refine ⟨map_range_eq_of_getD samples _ key, ?_⟩
  intro i hi
  rw [key i hi]
  exact getD_lt_of_forall samples 4096 hrange i hi

/-- The round trip of C3 on the samples 10, 20, 4090, 4095, packed as the bytes
0A 40 01 FA FF FF. -/
theorem Convert12to16_roundtrip_witness :
    pack12 [10, 20, 4090, 4095] = [0x0A, 0x40, 0x01, 0xFA, 0xFF, 0xFF] ∧
    ∃ dst', Convert12to16 2 ⟨8, 0, 4, 1⟩ ⟨6, 0, 4, 1⟩
        (memOfList [0x0A, 0x40, 0x01, 0xFA, 0xFF, 0xFF]) (fun _ => 0) = some dst' ∧
      (List.range 4).map (fun i => load16 dst' (0 + 2 * i)) = [10, 20, 4090, 4095] ∧
      ∀ i, i < 4 → load16 dst' (0 + 2 * i) < 4096 :=
  ⟨by decide,
   Convert12to16_roundtrip [10, 20, 4090, 4095] 2 ⟨8, 0, 4, 1⟩ ⟨6, 0, 4, 1⟩
    (memOfList [0x0A, 0x40, 0x01, 0xFA, 0xFF, 0xFF]) (fun _ => 0) (by decide) (by decide)
    (by decide) rfl (by decide) (by decide)⟩

theorem pack10_length (l : List Nat) : (pack10 l).length = 5 * (l.length / 4) := by
  induction l using pack10.induct with
  | case1 s0 s1 s2 s3 rest ih =>
    simp only [pack10, List.length_cons, ih]
    omega
  | case2 l h =>
    have hl : l.length < 4 := by
      match l, h with
      | [], _ => simp
      | [_], _ => simp
      | [_, _], _ => simp
      | [_, _, _], _ => simp
      | a :: b :: c :: d :: r, h => exact absurd rfl (h a b c d r)
    unfold pack10
    split
    · exact absurd rfl (h _ _ _ _ _)
    · simp; omega

/-- Group `g` of the packed bytes holds the little-endian value of its four samples. -/
theorem pack10_group (l : List Nat) (hl : ∀ s ∈ l, s < 1024) (g : Nat) (hg : 4 * g + 3 < l.length) :
    (pack10 l).getD (5 * g) 0 % 256 + 256 * ((pack10 l).getD (5 * g + 1) 0 % 256)
      + 65536 * ((pack10 l).getD (5 * g + 2) 0 % 256)
      + 16777216 * ((pack10 l).getD (5 * g + 3) 0 % 256)
      + 4294967296 * ((pack10 l).getD (5 * g + 4) 0 % 256)
      = l.getD (4 * g) 0 + 2 ^ 10 * l.getD (4 * g + 1) 0 + 2 ^ 20 * l.getD (4 * g + 2) 0
          + 2 ^ 30 * l.getD (4 * g + 3) 0 := by
  induction l using pack10.induct generalizing g with
  | case1 s0 s1 s2 s3 rest ih =>
    have h0 : s0 < 1024 := hl s0 (by simp)
    have h1 : s1 < 1024 := hl s1 (by simp)
    have h2 : s2 < 1024 := hl s2 (by simp)
    have h3 : s3 < 1024 := hl s3 (by simp)
    cases g with
    | zero =>
      simp only [pack10, Nat.mul_zero, Nat.zero_add, List.getD_cons_zero, List.getD_cons_succ]
      omega
    | succ g =>
      have e0 : 5 * (g + 1) = 5 * g + 4 + 1 := by ring
      have e1 : 5 * (g + 1) + 1 = 5 * g + 1 + 4 + 1 := by ring
      have e2 : 5 * (g + 1) + 2 = 5 * g + 2 + 4 + 1 := by ring
      have e3 : 5 * (g + 1) + 3 = 5 * g + 3 + 4 + 1 := by ring
      have e4 : 5 * (g + 1) + 4 = 5 * g + 4 + 4 + 1 := by ring
      have f0 : 4 * (g + 1) = 4 * g + 3 + 1 := by ring
      have f1 : 4 * (g + 1) + 1 = 4 * g + 1 + 3 + 1 := by ring
      have f2 : 4 * (g + 1) + 2 = 4 * g + 2 + 3 + 1 := by ring
      have f3 : 4 * (g + 1) + 3 = 4 * g + 3 + 3 + 1 := by ring
      simp only [pack10]
      rw [e1, e2, e3, e4, e0, f1, f2, f3, f0]
      simp only [List.getD_cons_succ]
      apply ih (fun s hs => hl s (by simp [hs])) g
      simp only [List.length_cons] at hg
      omega
  | case2 l h =>
    exfalso
    match l, h, hg with
    | [], _, hg => simp at hg
    | [_], _, hg => simp at hg
    | [_, _], _, hg => simp at hg; omega
    | [_, _, _], _, hg => simp at hg
    | a :: b :: c :: d :: r, h, _ => exact h a b c d r rfl

theorem le40_pack10 (samples : List Nat) (hrange : ∀ s ∈ samples, s < 1024) (src : Mem) (p : Nat)
    (hsrc : ∀ i, i < (pack10 samples).length → src (p + i) = (pack10 samples).getD i 0)
    (g : Nat) (hg : 4 * g + 3 < samples.length) :
    le40 src (p + 5 * g) = samples.getD (4 * g) 0 + 2 ^ 10 * samples.getD (4 * g + 1) 0
      + 2 ^ 20 * samples.getD (4 * g + 2) 0 + 2 ^ 30 * samples.getD (4 * g + 3) 0 := by
  have hlen := pack10_length samples
  have e0 := hsrc (5 * g) (by omega)
  have e1 := hsrc (5 * g + 1) (by omega)
  have e2 := hsrc (5 * g + 2) (by omega)
  have e3 := hsrc (5 * g + 3) (by omega)
  have e4 := hsrc (5 * g + 4) (by omega)
  rw [← Nat.add_assoc] at e1 e2 e3 e4
  unfold le40 load8
  rw [e0, e1, e2, e3, e4]
  exact pack10_group samples hrange g hg

/-- Sample `i` of a packed 10-bit row, as `Convert10to16` writes it. -/
theorem unpack10_packed_at (samples : List Nat) (hrange : ∀ s ∈ samples, s < 1024)
    (src dst : Mem) (pin pout k : Nat) (hk : samples.length = 4 * k)
    (hsrc : ∀ i, i < (pack10 samples).length → src (pin + i) = (pack10 samples).getD i 0)
    (i : Nat) (hi : i < samples.length) :
    load16 (iterRow (step10 src) 5 8 k pin pout dst) (pout + 2 * i) = samples.getD i 0 := by
  have hdm := Nat.div_add_mod i 4
  have hlt : i % 4 < 4 := Nat.mod_lt _ (by decide)
  have h0 := getD_lt_of_forall samples 1024 hrange (4 * (i / 4)) (by omega)
  have h1 := getD_lt_of_forall samples 1024 hrange (4 * (i / 4) + 1) (by omega)
  have h2 := getD_lt_of_forall samples 1024 hrange (4 * (i / 4) + 2) (by omega)
  have h3 := getD_lt_of_forall samples 1024 hrange (4 * (i / 4) + 3) (by omega)
  have hle := le40_pack10 samples hrange src pin hsrc (i / 4) (by omega)
  have hj : i % 4 = 0 ∨ i % 4 = 1 ∨ i % 4 = 2 ∨ i % 4 = 3 := by omega
  rcases hj with hj | hj | hj | hj
  · have e : pout + 2 * i = pout + 8 * (i / 4) + 0 := by omega
    have ei : i = 4 * (i / 4) := by omega
    rw [e, iterRow_load16 (step10_frame src) (step10_writes src) 5 k pin pout dst (i / 4) 0
      (by omega) (by omega), Nat.add_zero, step10_sample0, hle]
    rw [← ei] at h0 ⊢
    omega
  · have e : pout + 2 * i = pout + 8 * (i / 4) + 2 := by omega
    have ei : i = 4 * (i / 4) + 1 := by omega
    rw [e, iterRow_load16 (step10_frame src) (step10_writes src) 5 k pin pout dst (i / 4) 2
      (by omega) (by omega), step10_sample1, hle]
    rw [← ei] at h1 ⊢
    omega
  · have e : pout + 2 * i = pout + 8 * (i / 4) + 4 := by omega
    have ei : i = 4 * (i / 4) + 2 := by omega
    rw [e, iterRow_load16 (step10_frame src) (step10_writes src) 5 k pin pout dst (i / 4) 4
      (by omega) (by omega), step10_sample2, hle]
    rw [← ei] at h2 ⊢
    omega
  · have e : pout + 2 * i = pout + 8 * (i / 4) + 6 := by omega
    have ei : i = 4 * (i / 4) + 3 := by omega
    rw [e, iterRow_load16 (step10_frame src) (step10_writes src) 5 k pin pout dst (i / 4) 6
      (by omega) (by omega), step10_sample3, hle]
    rw [← ei] at h3 ⊢
    omega

/-- C4. 10-bit round trip: a list of samples whose length is a multiple of 4,
each below 1024, packed as the spec describes and laid out as one input row, is
unpacked by `Convert10to16` to exactly the original sequence, each 16-bit output
unit being below 1024. -/
theorem Convert10to16_roundtrip (samples : List Nat) (fuel : Nat) (out inp : Image)
    (src dst : Mem) (hmul : samples.length % 4 = 0) (hrange : ∀ s ∈ samples, s < 1024)
    (hfuel : samples.length / 4 ≤ fuel) (hrow : out.h = 1)
    (hpitch : inp.pitch = (pack10 samples).length)
    (hsrc : ∀ i, i < (pack10 samples).length → src (inp.ptr + i) = (pack10 samples).getD i 0) :
    ∃ dst', Convert10to16 fuel out inp src dst = some dst' ∧
      (List.range samples.length).map (fun i => load16 dst' (out.ptr + 2 * i)) = samples ∧
      ∀ i, i < samples.length → load16 dst' (out.ptr + 2 * i) < 1024 := by
  have hlen := pack10_length samples
  have hk : samples.length = 4 * (samples.length / 4) := by omega
  refine ⟨_, Convert10to16_eq fuel (samples.length / 4) out inp src dst (by omega) hfuel, ?_⟩
  have key : ∀ i, i < samples.length →
      load16 (iterRows (step10 src) 5 8 (samples.length / 4) out inp out.h 0 dst) (out.ptr + 2 * i)
        = samples.getD i 0 := by
    intro i hi
    rw [hrow]
    simp only [iterRows, Nat.zero_mul, Nat.add_zero]
    exact unpack10_packed_at samples hrange src dst inp.ptr out.ptr _ hk hsrc i hi
  refine ⟨map_range_eq_of_getD samples _ key, ?_⟩
  intro i hi
  rw [key i hi]
  exact getD_lt_of_forall samples 1024 hrange i hi

/-- The round trip of C4 on the samples 1, 1023, 512, 7, 0, 1000, 3, 1023. -/
theorem Convert10to16_roundtrip_witness :
    pack10 [1, 1023, 512, 7, 0, 1000, 3, 1023]
      = [0x01, 0xFC, 0x0F, 0xE0, 0x01, 0x00, 0xA0, 0x3F, 0xC0, 0xFF] ∧
    ∃ dst', Convert10to16 2 ⟨16, 0, 8, 1⟩ ⟨10, 0, 8, 1⟩
        (memOfList [0x01, 0xFC, 0x0F, 0xE0, 0x01, 0x00, 0xA0, 0x3F, 0xC0, 0xFF]) (fun _ => 0)
          = some dst' ∧
      (List.range 8).map (fun i => load16 dst' (0 + 2 * i)) = [1, 1023, 512, 7, 0, 1000, 3, 1023] ∧
      ∀ i, i < 8 → load16 dst' (0 + 2 * i) < 1024 :=
  ⟨by decide,
   Convert10to16_roundtrip [1, 1023, 512, 7, 0, 1000, 3, 1023] 2 ⟨16, 0, 8, 1⟩ ⟨10, 0, 8, 1⟩
    (memOfList [0x01, 0xFC, 0x0F, 0xE0, 0x01, 0x00, 0xA0, 0x3F, 0xC0, 0xFF]) (fun _ => 0)
    (by decide) (by decide) (by decide) rfl (by decide) (by decide)⟩

/-! ## The constructor -/

theorem new_loop_ok (out_fmt : VideoPixelFormat) (l streams : List StreamInfo) (size_bytes : Nat)
    (h : ∀ si ∈ l, ¬ refused si) :
    UnpackVideo.new.loop out_fmt l streams size_bytes
      = .ok (streams ++ wlayout out_fmt size_bytes l, wlayoutSize out_fmt size_bytes l) := by
  induction l generalizing streams size_bytes with
  | nil => simp [UnpackVideo.new.loop, wlayout, wlayoutSize]
  | cons si rest ih =>
    have hsi : ¬ refused si := h si (by simp)
    unfold refused at hsi
    simp only [UnpackVideo.new.loop, if_neg hsi]
    rw [ih _ _ (fun s hs => h s (by simp [hs]))]
    simp [wlayout, wlayoutSize, StreamInfo.Width, StreamInfo.Height]

theorem new_loop_error (out_fmt : VideoPixelFormat) (l streams : List StreamInfo) (size_bytes : Nat)
    (h : ∃ si ∈ l, refused si) :
    UnpackVideo.new.loop out_fmt l streams size_bytes
      = .error ⟨"UnpackVideo: currently only supports one channel input."⟩ := by
  induction l generalizing streams size_bytes with
  | nil => simp at h
  | cons si rest ih =>
    by_cases hsi : refused si
    · unfold refused at hsi
      simp only [UnpackVideo.new.loop, if_pos hsi]
    · have hsi2 := hsi
      unfold refused at hsi2
      simp only [UnpackVideo.new.loop, if_neg hsi2]
      apply ih
      obtain ⟨s, hs, hr⟩ := h
      rcases List.mem_cons.mp hs with rfl | hs
      · exact absurd hr hsi
      · exact ⟨s, hs, hr⟩

/-- What a successful construction has established. -/
theorem new_ok {σ : Type} (V : VideoInterface σ) (src : σ) (out_fmt : VideoPixelFormat)
    (fresh : Mem) (d : UnpackVideo σ) (h : UnpackVideo.new V (some src) out_fmt fresh = .ok d) :
    out_fmt = ⟨16, 1⟩ ∧ (∀ si ∈ V.Streams src, ¬ refused si) ∧
      d = ⟨src, wlayout out_fmt 0 (V.Streams src), wlayoutSize out_fmt 0 (V.Streams src), fresh⟩ := by
  unfold UnpackVideo.new at h
  by_cases hf : out_fmt.bpp ≠ 16 ∨ out_fmt.channels ≠ 1
  · simp [if_pos hf] at h
  · simp only [if_neg hf] at h
    have hfmt : out_fmt = ⟨16, 1⟩ := by
      cases out_fmt
      simp only [ne_eq, not_or, Decidable.not_not] at hf
      simp [hf.1, hf.2]
    by_cases hall : ∀ si ∈ V.Streams src, ¬ refused si
    · rw [new_loop_ok out_fmt _ _ _ hall] at h
      simp only [List.nil_append, Except.ok.injEq] at h
      exact ⟨hfmt, hall, h.symm⟩
    · have hex : ∃ si ∈ V.Streams src, refused si := by
        by_contra hne
        exact hall (fun si hsi hr => hne ⟨si, hsi, hr⟩)
      rw [new_loop_error out_fmt _ _ _ hex] at h
      simp at h

theorem new_of_ok {σ : Type} (V : VideoInterface σ) (src : σ) (fresh : Mem)
    (hall : ∀ si ∈ V.Streams src, ¬ refused si) :
    UnpackVideo.new V (some src) ⟨16, 1⟩ fresh
      = .ok ⟨src, wlayout ⟨16, 1⟩ 0 (V.Streams src), wlayoutSize ⟨16, 1⟩ 0 (V.Streams src),
          fresh⟩ := by
  unfold UnpackVideo.new
  simp [new_loop_ok _ _ _ _ hall]

theorem new_of_refused {σ : Type} (V : VideoInterface σ) (src : σ) (fresh : Mem)
    (hex : ∃ si ∈ V.Streams src, refused si) :
    UnpackVideo.new V (some src) ⟨16, 1⟩ fresh
      = .error ⟨"UnpackVideo: currently only supports one channel input."⟩ := by
  unfold UnpackVideo.new
  simp [new_loop_error _ _ _ _ hex]

theorem layout_length (out_fmt : VideoPixelFormat) (off : Nat) (l : List StreamInfo) :
    (layout out_fmt off l).length = l.length := by
  induction l generalizing off with
  | nil => rfl
  | cons si rest ih => simp [layout, ih]

theorem layout_getElem? (out_fmt : VideoPixelFormat) (off : Nat) (l : List StreamInfo) (s : Nat)
    (si : StreamInfo) (h : l[s]? = some si) :
    (layout out_fmt off l)[s]? = some ⟨out_fmt, si.w, si.h, si.w * out_fmt.bpp / 8,
      off + ((l.take s).map (fun t => t.h * (t.w * out_fmt.bpp / 8))).sum⟩ := by
  induction l generalizing off s with
  | nil => simp at h
  | cons t rest ih =>
    cases s with
    | zero =>
      simp only [List.getElem?_cons_zero, Option.some.injEq] at h
      simp [layout, h]
    | succ s =>
      simp only [List.getElem?_cons_succ] at h
      simp only [layout, List.getElem?_cons_succ, List.take_succ_cons, List.map_cons, List.sum_cons]
      rw [ih _ s h, Nat.add_assoc]

theorem layoutSize_eq (out_fmt : VideoPixelFormat) (l : List StreamInfo) :
    layoutSize out_fmt l = (l.map (fun t => t.h * (t.w * out_fmt.bpp / 8))).sum := by
  induction l with
  | nil => rfl
  | cons si rest ih => simp [layoutSize, ih]

/-- Where nothing wraps, the layout the constructor computes is the exact one. -/
theorem wlayout_eq_layout (off : Nat) (l : List StreamInfo) (hw : ∀ si ∈ l, si.w < 2 ^ 60)
    (hs : off + layoutSize ⟨16, 1⟩ l < 2 ^ 64) :
    wlayout ⟨16, 1⟩ off l = layout ⟨16, 1⟩ off l ∧
      wlayoutSize ⟨16, 1⟩ off l = off + layoutSize ⟨16, 1⟩ l := by
  induction l generalizing off with
  | nil => simp [wlayout, layout, wlayoutSize, layoutSize]
  | cons si rest ih =>
    have hsi : si.w < 2 ^ 60 := hw si (by simp)
    have hp : (si.w * 16) % 2 ^ 64 / 8 = si.w * 16 / 8 := by
      rw [Nat.mod_eq_of_lt (by omega)]
    simp only [layoutSize] at hs
    have hm : (si.h * (si.w * 16 / 8)) % 2 ^ 64 = si.h * (si.w * 16 / 8) :=
      Nat.mod_eq_of_lt (by omega)
    have ho : (off + si.h * (si.w * 16 / 8)) % 2 ^ 64 = off + si.h * (si.w * 16 / 8) :=
      Nat.mod_eq_of_lt (by omega)
    obtain ⟨ih1, ih2⟩ := ih (off + si.h * (si.w * 16 / 8)) (fun t ht => hw t (by simp [ht]))
      (by omega)
    simp only [wlayout, wlayoutSize, layout, layoutSize, hp, hm, ho, ih1, ih2]
    exact ⟨trivial, by omega⟩

theorem noWrap_layoutSize (l : List StreamInfo) (h : noWrap l) :
    layoutSize ⟨16, 1⟩ l < 2 ^ 64 := by
  have e : ∀ t : StreamInfo, t.h * (t.w * 16 / 8) = t.h * (2 * t.w) := by
    intro t
    have : t.w * 16 / 8 = 2 * t.w := by omega
    rw [this]
  rw [layoutSize_eq]
  simp only [e]
  exact h.2

/-- What a successful construction has established when nothing wraps. -/
theorem new_ok_noWrap {σ : Type} (V : VideoInterface σ) (src : σ) (out_fmt : VideoPixelFormat)
    (fresh : Mem) (d : UnpackVideo σ) (h : UnpackVideo.new V (some src) out_fmt fresh = .ok d)
    (hnw : noWrap (V.Streams src)) :
    out_fmt = ⟨16, 1⟩ ∧ (∀ si ∈ V.Streams src, ¬ refused si) ∧
      d = ⟨src, layout out_fmt 0 (V.Streams src), layoutSize out_fmt (V.Streams src), fresh⟩ := by
  obtain ⟨hfmt, hall, hd⟩ := new_ok V src out_fmt fresh d h
  subst hfmt
  obtain ⟨e1, e2⟩ := wlayout_eq_layout 0 (V.Streams src) hnw.1
    (by rw [Nat.zero_add]; exact noWrap_layoutSize _ hnw)
  rw [Nat.zero_add] at e2
  rw [e1, e2] at hd
  exact ⟨rfl, hall, hd⟩

/-- C6, as the claim states it, fails: a source whose one stream has width `2 ^ 60`
passes validation, and the output descriptor has pitch 0, not `2 * width`: the
product `w * 16` wraps in `size_t`. -/
theorem UnpackVideo_new_pitch_wraps :
    UnpackVideo.new (constSource [⟨⟨12, 1⟩, 2 ^ 60, 1, 3 * 2 ^ 59, 0⟩] (3 * 2 ^ 59) (fun _ => 0))
        (some ()) ⟨16, 1⟩ (fun _ => 0)
      = .ok ⟨(), [⟨⟨16, 1⟩, 2 ^ 60, 1, 0, 0⟩], 0, fun _ => 0⟩ ∧
    (⟨⟨16, 1⟩, 2 ^ 60, 1, 0, 0⟩ : StreamInfo).pitch
      ≠ 2 * (⟨⟨12, 1⟩, 2 ^ 60, 1, 3 * 2 ^ 59, 0⟩ : StreamInfo).Width := by
  refine ⟨?_, by decide⟩
  simp [UnpackVideo.new, UnpackVideo.new.loop, constSource, StreamInfo.PixFormat,
    StreamInfo.Width, StreamInfo.Height]

/-- C6, amended. Layout planner descriptors: after a successful construction from
a source whose streams do not make the `size_t` arithmetic wrap (every width
below `2 ^ 60`, total output size below `2 ^ 64`), the output stream list has
the length and order of the stream list of the source, and for every index `s`
the output descriptor has format 16 bits / 1 channel, the width and height of
source stream `s`, pitch `2 * width(s)`, and byte offset the sum of
`height(t) * 2 * width(t)` over the streams `t < s`. -/
theorem UnpackVideo_new_streams {σ : Type} (V : VideoInterface σ) (src : σ)
    (out_fmt : VideoPixelFormat) (fresh : Mem) (d : UnpackVideo σ)
    (h : UnpackVideo.new V (some src) out_fmt fresh = .ok d)
    (hnw : noWrap (V.Streams src)) :
    d.Streams.length = (V.Streams src).length ∧
    ∀ (s : Nat) (si : StreamInfo), (V.Streams src)[s]? = some si →
      d.Streams[s]? = some (StreamInfo.mk ⟨16, 1⟩ si.Width si.Height (2 * si.Width)
        (((V.Streams src).take s).map (fun t => t.Height * 2 * t.Width)).sum) := by
  obtain ⟨hfmt, -, hd⟩ := new_ok_noWrap V src out_fmt fresh d h hnw
  subst hfmt hd
  refine ⟨layout_length _ _ _, ?_⟩
  intro s si hs
  have e : ∀ t : StreamInfo, t.h * (t.w * 16 / 8) = t.Height * 2 * t.Width := by
    intro t
    have : t.w * 16 / 8 = 2 * t.w := by omega
    rw [this, StreamInfo.Height, StreamInfo.Width, Nat.mul_assoc]
  have e2 : si.w * 16 / 8 = 2 * si.w := by omega
  simp only [UnpackVideo.Streams]
  rw [layout_getElem? _ _ _ s si hs]
  simp only [e, e2, Nat.zero_add, StreamInfo.Width, StreamInfo.Height]

/-- Construction from one 12-bit stream of width 4 and height 1, as an instance of
the amended C6. -/
theorem UnpackVideo_new_streams_witness :
    UnpackVideo.new (constSource [⟨⟨12, 1⟩, 4, 1, 6, 0⟩] 6 (fun _ => 0)) (some ()) ⟨16, 1⟩
        (fun _ => 0) = .ok ⟨(), [⟨⟨16, 1⟩, 4, 1, 8, 0⟩], 8, fun _ => 0⟩ ∧
    (UnpackVideo.Streams (⟨(), [⟨⟨16, 1⟩, 4, 1, 8, 0⟩], 8, fun _ => 0⟩ : UnpackVideo Unit)).length
        = ((constSource [⟨⟨12, 1⟩, 4, 1, 6, 0⟩] 6 (fun _ => 0)).Streams ()).length ∧
    ∀ (s : Nat) (si : StreamInfo),
      ((constSource [⟨⟨12, 1⟩, 4, 1, 6, 0⟩] 6 (fun _ => 0)).Streams ())[s]? = some si →
      (UnpackVideo.Streams (⟨(), [⟨⟨16, 1⟩, 4, 1, 8, 0⟩], 8, fun _ => 0⟩ : UnpackVideo Unit))[s]?
        = some (StreamInfo.mk ⟨16, 1⟩ si.Width si.Height (2 * si.Width)
          ((((constSource [⟨⟨12, 1⟩, 4, 1, 6, 0⟩] 6 (fun _ => 0)).Streams ()).take s).map
            (fun t => t.Height * 2 * t.Width)).sum) :=
  ⟨rfl, UnpackVideo_new_streams (constSource [⟨⟨12, 1⟩, 4, 1, 6, 0⟩] 6 (fun _ => 0)) ()
    ⟨16, 1⟩ (fun _ => 0) ⟨(), [⟨⟨16, 1⟩, 4, 1, 8, 0⟩], 8, fun _ => 0⟩ rfl (by decide)⟩

/-- C7, as the claim states it, fails: a source with two streams of `2 ^ 31` by
`2 ^ 31` samples and one of 4 by 1 passes validation, and `SizeBytes()` is 8,
not the sum of `height * width * 2`: the sum `size_bytes += h * pitch` wraps in
`size_t` after the second stream. -/
theorem UnpackVideo_new_size_wraps :
    UnpackVideo.new (constSource [⟨⟨12, 1⟩, 2 ^ 31, 2 ^ 31, 3 * 2 ^ 30, 0⟩,
        ⟨⟨12, 1⟩, 2 ^ 31, 2 ^ 31, 3 * 2 ^ 30, 3 * 2 ^ 61⟩, ⟨⟨12, 1⟩, 4, 1, 6, 3 * 2 ^ 62⟩]
        (3 * 2 ^ 62 + 6) (fun _ => 0)) (some ()) ⟨16, 1⟩ (fun _ => 0)
      = .ok ⟨(), [⟨⟨16, 1⟩, 2 ^ 31, 2 ^ 31, 2 ^ 32, 0⟩, ⟨⟨16, 1⟩, 2 ^ 31, 2 ^ 31, 2 ^ 32, 2 ^ 63⟩,
          ⟨⟨16, 1⟩, 4, 1, 8, 0⟩], 8, fun _ => 0⟩ ∧
    UnpackVideo.SizeBytes (⟨(), [⟨⟨16, 1⟩, 2 ^ 31, 2 ^ 31, 2 ^ 32, 0⟩,
        ⟨⟨16, 1⟩, 2 ^ 31, 2 ^ 31, 2 ^ 32, 2 ^ 63⟩, ⟨⟨16, 1⟩, 4, 1, 8, 0⟩], 8,
        fun _ => 0⟩ : UnpackVideo Unit)
      ≠ (((constSource [⟨⟨12, 1⟩, 2 ^ 31, 2 ^ 31, 3 * 2 ^ 30, 0⟩,
        ⟨⟨12, 1⟩, 2 ^ 31, 2 ^ 31, 3 * 2 ^ 30, 3 * 2 ^ 61⟩, ⟨⟨12, 1⟩, 4, 1, 6, 3 * 2 ^ 62⟩]
        (3 * 2 ^ 62 + 6) (fun _ => 0)).Streams ()).map (fun t => t.Height * t.Width * 2)).sum := by
  refine ⟨?_, by decide⟩
  simp [UnpackVideo.new, UnpackVideo.new.loop, constSource, StreamInfo.PixFormat,
    StreamInfo.Width, StreamInfo.Height]

/-- C7, amended. Total output size: after a successful construction from a source
whose streams do not make the `size_t` arithmetic wrap (every width below
`2 ^ 60`, total output size below `2 ^ 64`), `SizeBytes()` is the sum over all
source streams of `height * width * 2` bytes. -/
theorem UnpackVideo_new_SizeBytes {σ : Type} (V : VideoInterface σ) (src : σ)
    (out_fmt : VideoPixelFormat) (fresh : Mem) (d : UnpackVideo σ)
    (h : UnpackVideo.new V (some src) out_fmt fresh = .ok d)
    (hnw : noWrap (V.Streams src)) :
    d.SizeBytes = ((V.Streams src).map (fun t => t.Height * t.Width * 2)).sum := by
  obtain ⟨hfmt, -, hd⟩ := new_ok_noWrap V src out_fmt fresh d h hnw
  subst hfmt hd
  have e : ∀ t : StreamInfo, t.h * (t.w * 16 / 8) = t.Height * t.Width * 2 := by
    intro t
    have : t.w * 16 / 8 = t.w * 2 := by omega
    rw [this, StreamInfo.Height, StreamInfo.Width, Nat.mul_assoc]
  simp only [UnpackVideo.SizeBytes, layoutSize_eq, e]

/-- Construction from two streams, 4 x 1 and 8 x 3, as an instance of the amended
C7: 8 + 48 bytes. -/
theorem UnpackVideo_new_SizeBytes_witness :
    UnpackVideo.new (constSource [⟨⟨12, 1⟩, 4, 1, 6, 0⟩, ⟨⟨10, 1⟩, 8, 3, 10, 6⟩] 36 (fun _ => 0))
        (some ()) ⟨16, 1⟩ (fun _ => 0)
      = .ok ⟨(), [⟨⟨16, 1⟩, 4, 1, 8, 0⟩, ⟨⟨16, 1⟩, 8, 3, 16, 8⟩], 56, fun _ => 0⟩ ∧
    UnpackVideo.SizeBytes
        (⟨(), [⟨⟨16, 1⟩, 4, 1, 8, 0⟩, ⟨⟨16, 1⟩, 8, 3, 16, 8⟩], 56, fun _ => 0⟩ : UnpackVideo Unit)
      = (((constSource [⟨⟨12, 1⟩, 4, 1, 6, 0⟩, ⟨⟨10, 1⟩, 8, 3, 10, 6⟩] 36 (fun _ => 0)).Streams ()).map
          (fun t => t.Height * t.Width * 2)).sum :=
  ⟨rfl, UnpackVideo_new_SizeBytes
    (constSource [⟨⟨12, 1⟩, 4, 1, 6, 0⟩, ⟨⟨10, 1⟩, 8, 3, 10, 6⟩] 36 (fun _ => 0)) ()
    ⟨16, 1⟩ (fun _ => 0) _ rfl (by decide)⟩

/-- C8, as the claim states it, fails: a source whose only stream has channel
count 0 and 12 bits per sample is accepted, although its format does not have
channel count 1. -/
theorem UnpackVideo_new_zero_channels :
    ¬ ((∃ e, UnpackVideo.new (constSource [⟨⟨12, 0⟩, 4, 1, 6, 0⟩] 6 (fun _ => 0)) (some ())
          ⟨16, 1⟩ (fun _ => 0) = .error e) ↔
        ∃ si ∈ (constSource [⟨⟨12, 0⟩, 4, 1, 6, 0⟩] 6 (fun _ => 0)).Streams (),
          ¬ (si.PixFormat.channels = 1 ∧ 9 ≤ si.PixFormat.bpp ∧ si.PixFormat.bpp ≤ 16)) := by
  intro h
  have hex : ∃ si ∈ (constSource [⟨⟨12, 0⟩, 4, 1, 6, 0⟩] 6 (fun _ => 0)).Streams (),
      ¬ (si.PixFormat.channels = 1 ∧ 9 ≤ si.PixFormat.bpp ∧ si.PixFormat.bpp ≤ 16) :=
    ⟨⟨⟨12, 0⟩, 4, 1, 6, 0⟩, by simp [constSource], by decide⟩
  obtain ⟨e, he⟩ := h.mpr hex
  have hok : UnpackVideo.new (constSource [⟨⟨12, 0⟩, 4, 1, 6, 0⟩] 6 (fun _ => 0)) (some ())
      ⟨16, 1⟩ (fun _ => 0) = .ok ⟨(), [⟨⟨16, 1⟩, 4, 1, 8, 0⟩], 8, fun _ => 0⟩ := rfl
  rw [hok] at he
  cases he

/-- C8, amended. With a source present and the output format 16 bits / 1 channel,
construction fails, with the one-channel configuration error, if and only if
some input stream has a channel count above 1 or bits per sample outside
[9,16]; and it succeeds if and only if every input stream has channel count at
most 1 and bits per sample in [9,16]. -/
theorem UnpackVideo_new_input_formats {σ : Type} (V : VideoInterface σ) (src : σ) (fresh : Mem) :
    ((∃ e, UnpackVideo.new V (some src) ⟨16, 1⟩ fresh = .error e) ↔
      ∃ si ∈ V.Streams src,
        si.PixFormat.channels > 1 ∨ si.PixFormat.bpp < 9 ∨ si.PixFormat.bpp > 16) ∧
    (UnpackVideo.new V (some src) ⟨16, 1⟩ fresh
        = .error ⟨"UnpackVideo: currently only supports one channel input."⟩ ↔
      ∃ si ∈ V.Streams src,
        si.PixFormat.channels > 1 ∨ si.PixFormat.bpp < 9 ∨ si.PixFormat.bpp > 16) ∧
    ((∃ d, UnpackVideo.new V (some src) ⟨16, 1⟩ fresh = .ok d) ↔
      ∀ si ∈ V.Streams src,
        si.PixFormat.channels ≤ 1 ∧ 9 ≤ si.PixFormat.bpp ∧ si.PixFormat.bpp ≤ 16) := by
  by_cases hex : ∃ si ∈ V.Streams src, refused si
  · have herr := new_of_refused V src fresh hex
    refine ⟨⟨fun _ => hex, fun _ => ⟨_, herr⟩⟩, ⟨fun _ => hex, fun _ => herr⟩, ?_⟩
    constructor
    · rintro ⟨d, hd⟩
      rw [herr] at hd
      cases hd
    · intro hall
      obtain ⟨si, hsi, hr⟩ := hex
      have := hall si hsi
      unfold refused at hr
      omega
  · have hall : ∀ si ∈ V.Streams src, ¬ refused si := fun si hsi hr => hex ⟨si, hsi, hr⟩
    have hok := new_of_ok V src fresh hall
    refine ⟨⟨?_, fun h => absurd h hex⟩, ⟨?_, fun h => absurd h hex⟩, ?_⟩
    · rintro ⟨e, he⟩
      rw [hok] at he
      cases he
    · intro he
      rw [hok] at he
      cases he
    · constructor
      · intro _ si hsi
        have := hall si hsi
        unfold refused at this
        omega
      · intro _
        exact ⟨_, hok⟩

/-- The amended C8 at three refused sources: a stream with 2 channels, one with 8
bits per sample, one with 17 bits per sample. -/
theorem UnpackVideo_new_input_formats_witness :
    UnpackVideo.new (constSource [⟨⟨12, 2⟩, 4, 1, 6, 0⟩] 6 (fun _ => 0)) (some ()) ⟨16, 1⟩
        (fun _ => 0) = .error ⟨"UnpackVideo: currently only supports one channel input."⟩ ∧
    UnpackVideo.new (constSource [⟨⟨8, 1⟩, 4, 1, 4, 0⟩] 4 (fun _ => 0)) (some ()) ⟨16, 1⟩
        (fun _ => 0) = .error ⟨"UnpackVideo: currently only supports one channel input."⟩ ∧
    UnpackVideo.new (constSource [⟨⟨17, 1⟩, 4, 1, 9, 0⟩] 9 (fun _ => 0)) (some ()) ⟨16, 1⟩
        (fun _ => 0) = .error ⟨"UnpackVideo: currently only supports one channel input."⟩ :=
  ⟨(UnpackVideo_new_input_formats (constSource [⟨⟨12, 2⟩, 4, 1, 6, 0⟩] 6 (fun _ => 0)) ()
      (fun _ => 0)).2.1.mpr ⟨⟨⟨12, 2⟩, 4, 1, 6, 0⟩, List.mem_singleton.mpr rfl, by decide⟩,
   (UnpackVideo_new_input_formats (constSource [⟨⟨8, 1⟩, 4, 1, 4, 0⟩] 4 (fun _ => 0)) ()
      (fun _ => 0)).2.1.mpr ⟨⟨⟨8, 1⟩, 4, 1, 4, 0⟩, List.mem_singleton.mpr rfl, by decide⟩,
   (UnpackVideo_new_input_formats (constSource [⟨⟨17, 1⟩, 4, 1, 9, 0⟩] 9 (fun _ => 0)) ()
      (fun _ => 0)).2.1.mpr ⟨⟨⟨17, 1⟩, 4, 1, 9, 0⟩, List.mem_singleton.mpr rfl, by decide⟩⟩

/-- C9. Source and output-format validation: construction fails with the
null-source configuration error when the source is absent, and with the
output-format configuration error when a source is present and the requested
output format is not exactly 16 bits per sample with 1 channel, whatever
streams the source declares. -/
theorem UnpackVideo_new_validation {σ : Type} (V : VideoInterface σ) (src : Option σ)
    (out_fmt : VideoPixelFormat) (fresh : Mem) :
    (src = none → UnpackVideo.new V src out_fmt fresh
      = .error ⟨"UnpackVideo: VideoInterface in must not be null"⟩) ∧
    (src ≠ none → (out_fmt.bpp ≠ 16 ∨ out_fmt.channels ≠ 1) →
      UnpackVideo.new V src out_fmt fresh = .error ⟨"UnpackVideo: Only supports 16bit output."⟩) ∧
    ((src = none ∨ out_fmt.bpp ≠ 16 ∨ out_fmt.channels ≠ 1) →
      ∃ e, UnpackVideo.new V src out_fmt fresh = .error e) := by
  have h1 : src = none → UnpackVideo.new V src out_fmt fresh
      = .error ⟨"UnpackVideo: VideoInterface in must not be null"⟩ := by
    rintro rfl
    rfl
  have h2 : src ≠ none → (out_fmt.bpp ≠ 16 ∨ out_fmt.channels ≠ 1) →
      UnpackVideo.new V src out_fmt fresh
        = .error ⟨"UnpackVideo: Only supports 16bit output."⟩ := by
    intro hs hf
    cases src with
    | none => exact absurd rfl hs
    | some s => simp only [UnpackVideo.new, if_pos hf]
  refine ⟨h1, h2, ?_⟩
  intro h
  by_cases hs : src = none
  · exact ⟨_, h1 hs⟩
  · rcases h with h | h
    · exact absurd h hs
    · exact ⟨_, h2 hs h⟩

/-- C9 at an absent source, and at a present source with a requested output of 8
bits per sample. -/
theorem UnpackVideo_new_validation_witness :
    UnpackVideo.new (constSource [⟨⟨12, 1⟩, 4, 1, 6, 0⟩] 6 (fun _ => 0)) none ⟨16, 1⟩ (fun _ => 0)
      = .error ⟨"UnpackVideo: VideoInterface in must not be null"⟩ ∧
    UnpackVideo.new (constSource [⟨⟨12, 1⟩, 4, 1, 6, 0⟩] 6 (fun _ => 0)) (some ()) ⟨8, 1⟩
      (fun _ => 0) = .error ⟨"UnpackVideo: Only supports 16bit output."⟩ :=
  ⟨(UnpackVideo_new_validation (constSource [⟨⟨12, 1⟩, 4, 1, 6, 0⟩] 6 (fun _ => 0)) none ⟨16, 1⟩
      (fun _ => 0)).1 rfl,
   (UnpackVideo_new_validation (constSource [⟨⟨12, 1⟩, 4, 1, 6, 0⟩] 6 (fun _ => 0)) (some ())
      ⟨8, 1⟩ (fun _ => 0)).2.1 (by simp) (by decide)⟩

/-- C10, as the claim states it, fails: construction from a source that declares
no stream does not fail. -/
theorem UnpackVideo_new_accepts_no_streams :
    ¬ ∃ e, UnpackVideo.new (constSource [] 0 (fun _ => 0)) (some ()) ⟨16, 1⟩ (fun _ => 0)
      = .error e := by
  rintro ⟨e, he⟩
  have hok : UnpackVideo.new (constSource [] 0 (fun _ => 0)) (some ()) ⟨16, 1⟩ (fun _ => 0)
      = .ok ⟨(), [], 0, fun _ => 0⟩ := rfl
  rw [hok] at he
  cases he

/-- C10, amended. Construction from a present source that declares 0 streams, with
the output format 16 bits / 1 channel, succeeds, with an empty output stream
list and a total output size of 0. -/
theorem UnpackVideo_new_no_streams {σ : Type} (V : VideoInterface σ) (src : σ) (fresh : Mem)
    (h : V.Streams src = []) :
    UnpackVideo.new V (some src) ⟨16, 1⟩ fresh = .ok ⟨src, [], 0, fresh⟩ := by
  simp [UnpackVideo.new, h, UnpackVideo.new.loop]

/-- The amended C10 at the stateless source without streams. -/
theorem UnpackVideo_new_no_streams_witness :
    UnpackVideo.new (constSource [] 0 (fun _ => 0)) (some ()) ⟨16, 1⟩ (fun _ => 7)
      = .ok ⟨(), [], 0, fun _ => 7⟩ :=
  UnpackVideo_new_no_streams (constSource [] 0 (fun _ => 0)) () (fun _ => 7) rfl

/-! ## Capture -/

/-- One turn of the capture loop on an unpackable stream is a store transformer
that writes only inside the output region of the stream. -/
theorem grab_loop_step (fuel : Nat) (ins : List StreamInfo) (buffer : Mem) (si : StreamInfo)
    (rest : List StreamInfo) (s off : Nat) (hins : ins[s]? = some si) (hu : unpackable fuel si) :
    ∃ F : Mem → Mem,
      (∀ image, UnpackVideo.GrabNext.loop fuel ins buffer
          (StreamInfo.mk ⟨16, 1⟩ si.w si.h (si.w * 16 / 8) off :: rest) s image
        = UnpackVideo.GrabNext.loop fuel ins buffer rest (s + 1) (F image)) ∧
      (∀ image, si.PixFormat.bpp = 10 →
        Convert10to16 fuel ((StreamInfo.mk ⟨16, 1⟩ si.w si.h (si.w * 16 / 8) off).StreamImage 0)
          (si.StreamImage 0) buffer image = some (F image)) ∧
      (∀ image, si.PixFormat.bpp = 12 →
        Convert12to16 fuel ((StreamInfo.mk ⟨16, 1⟩ si.w si.h (si.w * 16 / 8) off).StreamImage 0)
          (si.StreamImage 0) buffer image = some (F image)) ∧
      (∀ image a, a < off → F image a = image a) ∧
      (∀ image a, off + si.h * (si.w * 16 / 8) ≤ a → F image a = image a) ∧
      (∀ i1 i2 a, i1 a = i2 a → F i1 a = F i2 a) := by
  rcases hu with ⟨hb, hp, hw, hf⟩ | ⟨hb, hp, hw, hf⟩
  · have hpk : (si.StreamImage 0).pitch = 5 * (si.pitch / 5) := by
      simp only [StreamInfo.StreamImage]; omega
    refine ⟨fun image => iterRows (step10 buffer) 5 8 (si.pitch / 5)
      ((StreamInfo.mk ⟨16, 1⟩ si.w si.h (si.w * 16 / 8) off).StreamImage 0) (si.StreamImage 0)
      si.h 0 image, ?_, ?_, ?_, ?_, ?_, ?_⟩
    · intro image
      have hc := Convert10to16_eq fuel (si.pitch / 5)
        ((StreamInfo.mk ⟨16, 1⟩ si.w si.h (si.w * 16 / 8) off).StreamImage 0) (si.StreamImage 0)
        buffer image hpk hf
      simp only [UnpackVideo.GrabNext.loop, hins, if_pos hb, hc]
      rfl
    · intro image _
      exact Convert10to16_eq fuel (si.pitch / 5) _ _ buffer image hpk hf
    · intro image h12
      rw [hb] at h12
      exact absurd h12 (by decide)
    · intro image a ha
      apply iterRows_frame_lo (step10_frame buffer)
      simp only [StreamInfo.StreamImage]
      omega
    · intro image a ha
      apply iterRows_frame_hi (step10_frame buffer)
      · simp only [StreamInfo.StreamImage]; omega
      · simp only [StreamInfo.StreamImage, Nat.zero_add]; omega
    · intro i1 i2 a h
      exact iterRows_congr (step10_frame buffer) (step10_writes buffer) _ _ _ _ _ _ _ _ _ h
  · have hpk : (si.StreamImage 0).pitch = 3 * (si.pitch / 3) := by
      simp only [StreamInfo.StreamImage]; omega
    have hne : si.PixFormat.bpp ≠ 10 := by rw [hb]; decide
    refine ⟨fun image => iterRows (step12 buffer) 3 4 (si.pitch / 3)
      ((StreamInfo.mk ⟨16, 1⟩ si.w si.h (si.w * 16 / 8) off).StreamImage 0) (si.StreamImage 0)
      si.h 0 image, ?_, ?_, ?_, ?_, ?_, ?_⟩
    · intro image
      have hc := Convert12to16_eq fuel (si.pitch / 3)
        ((StreamInfo.mk ⟨16, 1⟩ si.w si.h (si.w * 16 / 8) off).StreamImage 0) (si.StreamImage 0)
        buffer image hpk hf
      simp only [UnpackVideo.GrabNext.loop, hins, if_neg hne, if_pos hb, hc]
      rfl
    · intro image h10
      exact absurd h10 hne
    · intro image _
      exact Convert12to16_eq fuel (si.pitch / 3) _ _ buffer image hpk hf
    · intro image a ha
      apply iterRows_frame_lo (step12_frame buffer)
      simp only [StreamInfo.StreamImage]
      omega
    · intro image a ha
      apply iterRows_frame_hi (step12_frame buffer)
      · simp only [StreamInfo.StreamImage]; omega
      · simp only [StreamInfo.StreamImage, Nat.zero_add]; omega
    · intro i1 i2 a h
      exact iterRows_congr (step12_frame buffer) (step12_writes buffer) _ _ _ _ _ _ _ _ _ h

/-- The capture loop over unpackable streams completes, and the output region of
each stream ends up as the unpack of that stream alone leaves it. -/
theorem grab_loop_ok (fuel : Nat) (ins : List StreamInfo) (buffer : Mem) (rest : List StreamInfo) :
    ∀ (s off : Nat) (image : Mem), (∀ j, rest[j]? = ins[s + j]?) →
      (∀ si ∈ rest, unpackable fuel si) →
      ∃ image', UnpackVideo.GrabNext.loop fuel ins buffer (layout ⟨16, 1⟩ off rest) s image
          = .ok (.ok (), image') ∧
        (∀ a, a < off → image' a = image a) ∧
        ∀ (j : Nat) (si so : StreamInfo), rest[j]? = some si →
          (layout ⟨16, 1⟩ off rest)[j]? = some so →
          (si.PixFormat.bpp = 10 →
            ∃ m, Convert10to16 fuel (so.StreamImage 0) (si.StreamImage 0) buffer image = some m ∧
              ∀ a, so.offset ≤ a → a < so.offset + so.h * so.pitch → image' a = m a) ∧
          (si.PixFormat.bpp = 12 →
            ∃ m, Convert12to16 fuel (so.StreamImage 0) (si.StreamImage 0) buffer image = some m ∧
              ∀ a, so.offset ≤ a → a < so.offset + so.h * so.pitch → image' a = m a) := by
  induction rest with
  | nil =>
    intro s off image _ _
    refine ⟨image, rfl, fun _ _ => rfl, ?_⟩
    intro j si so h
    simp at h
  | cons si rest ih =>
    intro s off image hidx hu
    have hins : ins[s]? = some si := by
      have := hidx 0
      simpa using this.symm
    obtain ⟨F, hstep, h10, h12, hlo, hhi, hcongr⟩ :=
      grab_loop_step fuel ins buffer si (layout ⟨16, 1⟩ (off + si.h * (si.w * 16 / 8)) rest) s off
        hins (hu si (by simp))
    have hidx' : ∀ j, rest[j]? = ins[s + 1 + j]? := by
      intro j
      have := hidx (j + 1)
      rw [List.getElem?_cons_succ] at this
      rw [this]
      congr 1
      omega
    obtain ⟨image', hloop, hflo, hcont⟩ :=
      ih (s + 1) (off + si.h * (si.w * 16 / 8)) (F image) hidx' (fun t ht => hu t (by simp [ht]))
    have hlay : layout ⟨16, 1⟩ off (si :: rest)
        = StreamInfo.mk ⟨16, 1⟩ si.w si.h (si.w * 16 / 8) off
          :: layout ⟨16, 1⟩ (off + si.h * (si.w * 16 / 8)) rest := rfl
    refine ⟨image', by rw [hlay, hstep, hloop], ?_, ?_⟩
    · intro a ha
      rw [hflo a (by omega), hlo image a ha]
    · intro j ti so hj hso
      rw [hlay] at hso
      cases j with
      | zero =>
        simp only [List.getElem?_cons_zero, Option.some.injEq] at hj hso
        subst hj hso
        exact ⟨fun hb => ⟨F image, h10 image hb, fun a _ ha2 => hflo a ha2⟩,
          fun hb => ⟨F image, h12 image hb, fun a _ ha2 => hflo a ha2⟩⟩
      | succ j =>
        simp only [List.getElem?_cons_succ] at hj hso
        have hso' := layout_getElem? ⟨16, 1⟩ (off + si.h * (si.w * 16 / 8)) rest j ti hj
        rw [hso] at hso'
        simp only [Option.some.injEq] at hso'
        have hti : ins[s + 1 + j]? = some ti := by rw [← hidx' j, hj]
        obtain ⟨G, -, g10, g12, -, -, gcongr⟩ :=
          grab_loop_step fuel ins buffer ti [] (s + 1 + j) so.offset hti
            (hu ti (List.mem_cons_of_mem _ (List.getElem?_mem hj)))
        have hoff : off + si.h * (si.w * 16 / 8) ≤ so.offset := by
          rw [hso']
          exact Nat.le_add_right _ _
        have hsoeq : so = StreamInfo.mk ⟨16, 1⟩ ti.w ti.h (ti.w * 16 / 8) so.offset := by
          rw [hso']
        obtain ⟨c10, c12⟩ := hcont j ti so hj hso
        constructor
        · intro hb
          obtain ⟨m, hm, hreg⟩ := c10 hb
          have e1 := g10 (F image) hb
          have e2 := g10 image hb
          rw [← hsoeq] at e1 e2
          rw [e1] at hm
          refine ⟨G image, e2, fun a ha1 ha2 => ?_⟩
          rw [hreg a ha1 ha2, ← Option.some.inj hm]
          exact gcongr _ _ a (hhi image a (by omega))
        · intro hb
          obtain ⟨m, hm, hreg⟩ := c12 hb
          have e1 := g12 (F image) hb
          have e2 := g12 image hb
          rw [← hsoeq] at e1 e2
          rw [e1] at hm
          refine ⟨G image, e2, fun a ha1 ha2 => ?_⟩
          rw [hreg a ha1 ha2, ← Option.some.inj hm]
          exact gcongr _ _ a (hhi image a (by omega))

/-- With a pitch that is not a multiple of 3 and at least one row, `Convert12to16`
does not return, whatever the fuel. -/
theorem Convert12to16_none (fuel : Nat) (out inp : Image) (src dst : Mem) (hh : 0 < out.h)
    (hp : inp.pitch % 3 ≠ 0) : Convert12to16 fuel out inp src dst = none := by
  unfold Convert12to16
  obtain ⟨n, hn⟩ : ∃ n, out.h = n + 1 := ⟨out.h - 1, by omega⟩
  rw [hn]
  simp only [Convert12to16.rows, row12_eq_genRow]
  rw [genRow_none]
  intro k
  simp only [Nat.zero_add, Nat.one_mul, Nat.zero_mul, Nat.add_zero]
  omega

/-- With a pitch that is not a multiple of 5 and at least one row, `Convert10to16`
does not return, whatever the fuel. -/
theorem Convert10to16_none (fuel : Nat) (out inp : Image) (src dst : Mem) (hh : 0 < out.h)
    (hp : inp.pitch % 5 ≠ 0) : Convert10to16 fuel out inp src dst = none := by
  unfold Convert10to16
  obtain ⟨n, hn⟩ : ∃ n, out.h = n + 1 := ⟨out.h - 1, by omega⟩
  rw [hn]
  simp only [Convert10to16.rows, row10_eq_genRow]
  rw [genRow_none]
  intro k
  simp only [Nat.zero_add, Nat.one_mul, Nat.zero_mul, Nat.add_zero]
  omega

/-- C5, as the claim states it, fails, in two ways. A source with one 12-bit stream
of width 1 and height 1 (row pitch 1 byte) is accepted by the constructor and
delivers a frame, yet `GrabNext` does not return: the loop of `Convert12to16`
steps from `pin` to `pin + 3` past `pin_end = pin + 1` and runs on, whatever
the fuel. And for a source with a 12-bit stream of width `2 ^ 60` (row pitch 6)
followed by one of width 4 (row pitch 3), the constructor's `w * 16` wraps: both
output descriptors get offset 0, and after the capture the region of the second
stream holds, in its bytes 4-7, samples of the first stream, which the unpack
of the second stream alone does not put there. -/
theorem UnpackVideo_GrabNext_width_one :
    (UnpackVideo.new (constSource [⟨⟨12, 1⟩, 1, 1, 1, 0⟩] 1 (memOfList [0xAB])) (some ()) ⟨16, 1⟩
        (fun _ => 0) = .ok ⟨(), [⟨⟨16, 1⟩, 1, 1, 2, 0⟩], 2, fun _ => 0⟩ ∧
      (∀ si ∈ (constSource [⟨⟨12, 1⟩, 1, 1, 1, 0⟩] 1 (memOfList [0xAB])).Streams (),
        si.PixFormat.bpp = 10 ∨ si.PixFormat.bpp = 12) ∧
      ∀ fuel image wait,
        UnpackVideo.GrabNext (constSource [⟨⟨12, 1⟩, 1, 1, 1, 0⟩] 1 (memOfList [0xAB])) fuel
          ⟨(), [⟨⟨16, 1⟩, 1, 1, 2, 0⟩], 2, fun _ => 0⟩ image wait = .error Stuck.outOfFuel) ∧
    (UnpackVideo.new (constSource [⟨⟨12, 1⟩, 2 ^ 60, 1, 6, 0⟩, ⟨⟨12, 1⟩, 4, 1, 3, 6⟩] 9
          (memOfList [0x0A, 0x40, 0x01, 0xFA, 0xFF, 0xFF, 0x11, 0x22, 0x33])) (some ()) ⟨16, 1⟩
          (fun _ => 0)
        = .ok ⟨(), [⟨⟨16, 1⟩, 2 ^ 60, 1, 0, 0⟩, ⟨⟨16, 1⟩, 4, 1, 8, 0⟩], 8, fun _ => 0⟩ ∧
      (∀ si ∈ (constSource [⟨⟨12, 1⟩, 2 ^ 60, 1, 6, 0⟩, ⟨⟨12, 1⟩, 4, 1, 3, 6⟩] 9
          (memOfList [0x0A, 0x40, 0x01, 0xFA, 0xFF, 0xFF, 0x11, 0x22, 0x33])).Streams (),
        unpackable 2 si) ∧
      (match UnpackVideo.GrabNext (constSource [⟨⟨12, 1⟩, 2 ^ 60, 1, 6, 0⟩, ⟨⟨12, 1⟩, 4, 1, 3, 6⟩] 9
          (memOfList [0x0A, 0x40, 0x01, 0xFA, 0xFF, 0xFF, 0x11, 0x22, 0x33])) 2
          ⟨(), [⟨⟨16, 1⟩, 2 ^ 60, 1, 0, 0⟩, ⟨⟨16, 1⟩, 4, 1, 8, 0⟩], 8, fun _ => 0⟩ (fun _ => 7)
          false with
        | .ok (.ok true, m, _) => some ((List.range 8).map m)
        | _ => none) = some [17, 2, 50, 3, 250, 15, 255, 15] ∧
      (Convert12to16 2 ((StreamInfo.mk ⟨16, 1⟩ 4 1 8 0).StreamImage 0)
          ((StreamInfo.mk ⟨12, 1⟩ 4 1 3 6).StreamImage 0)
          (memOfList [0x0A, 0x40, 0x01, 0xFA, 0xFF, 0xFF, 0x11, 0x22, 0x33]) (fun _ => 7)).map
            (fun m => (List.range 8).map m) = some [17, 2, 50, 3, 7, 7, 7, 7]) := by
  refine ⟨⟨rfl, by decide, ?_⟩, ⟨?_, by decide, by decide, by decide⟩⟩
  · intro fuel image wait
    have hc : Convert12to16 fuel ((StreamInfo.mk ⟨16, 1⟩ 1 1 2 0).StreamImage 0)
        ((StreamInfo.mk ⟨12, 1⟩ 1 1 1 0).StreamImage 0) (memOfList [0xAB]) image = none :=
      Convert12to16_none fuel _ _ _ _ (by decide) (by decide)
    simp [UnpackVideo.GrabNext, constSource, UnpackVideo.Streams, UnpackVideo.GrabNext.loop,
      StreamInfo.PixFormat, hc]
  · simp [UnpackVideo.new, UnpackVideo.new.loop, constSource, StreamInfo.PixFormat,
      StreamInfo.Width, StreamInfo.Height]

/-- C5, amended. Capture end to end: let the decorator have the stream list
computed at construction from a source whose streams are all unpackable (10 or
12 bits per sample, row pitch a whole number of 5-byte resp. 3-byte groups
holding at most `width` samples) and do not make the `size_t` arithmetic of the
constructor wrap (every width below `2 ^ 60`, total output size below
`2 ^ 64`), let the source deliver a frame into the scratch buffer and still
declare the streams it declared at construction. Then
`GrabNext` returns true and, for every stream index `s`, the output buffer
region located by output descriptor `s` (offset, pitch, height) holds the
result of the 10-bit resp. 12-bit unpack of the scratch-buffer region located
by the descriptor `s` of the source. -/
theorem UnpackVideo_GrabNext_unpacks {σ : Type} (V : VideoInterface σ) (src : σ)
    (out_fmt : VideoPixelFormat) (fresh : Mem) (d0 d : UnpackVideo σ) (fuel : Nat) (image : Mem)
    (wait : Bool) (buffer' : Mem) (src' : σ)
    (hnew : UnpackVideo.new V (some src) out_fmt fresh = .ok d0)
    (hd : d.Streams = d0.Streams)
    (hgrab : V.GrabNext d.videoin d.buffer wait = (true, buffer', src'))
    (hstable : V.Streams src' = V.Streams src)
    (hu : ∀ si ∈ V.Streams src, unpackable fuel si)
    (hnw : noWrap (V.Streams src)) :
    ∃ image', UnpackVideo.GrabNext V fuel d image wait
        = .ok (.ok true, image', { d with videoin := src', buffer := buffer' }) ∧
      ∀ (s : Nat) (si so : StreamInfo), (V.Streams src)[s]? = some si → d.Streams[s]? = some so →
        (si.PixFormat.bpp = 10 →
          ∃ m, Convert10to16 fuel (so.StreamImage 0) (si.StreamImage 0) buffer' image = some m ∧
            ∀ a, so.offset ≤ a → a < so.offset + so.Height * so.pitch → image' a = m a) ∧
        (si.PixFormat.bpp = 12 →
          ∃ m, Convert12to16 fuel (so.StreamImage 0) (si.StreamImage 0) buffer' image = some m ∧
            ∀ a, so.offset ≤ a → a < so.offset + so.Height * so.pitch → image' a = m a) := by
  obtain ⟨hfmt, -, hd0⟩ := new_ok_noWrap V src out_fmt fresh d0 hnew hnw
  subst hfmt
  have hstreams : d.Streams = layout ⟨16, 1⟩ 0 (V.Streams src) := by rw [hd, hd0]; rfl
  obtain ⟨image', hloop, -, hcont⟩ :=
    grab_loop_ok fuel (V.Streams src) buffer' (V.Streams src) 0 0 image
      (fun j => by rw [Nat.zero_add]) hu
  refine ⟨image', ?_, ?_⟩
  · simp only [UnpackVideo.GrabNext, hgrab, hstable]
    rw [show UnpackVideo.Streams { d with videoin := src', buffer := buffer' } = d.Streams from rfl,
      hstreams, hloop]
  · intro s si so hsi hso
    rw [hstreams] at hso
    exact hcont s si so hsi hso

/-- The amended C5 on the scenario of the spec: one stream of width 4 and height 1,
12 bits per sample, and a frame of the 6 bytes 0A 40 01 FA FF FF; the 8 output
bytes read as little-endian 16-bit values are 10, 20, 4090, 4095. -/
theorem UnpackVideo_GrabNext_unpacks_witness :
    ∃ image',
      UnpackVideo.GrabNext
          (constSource [⟨⟨12, 1⟩, 4, 1, 6, 0⟩] 6 (memOfList [0x0A, 0x40, 0x01, 0xFA, 0xFF, 0xFF]))
          2 ⟨(), [⟨⟨16, 1⟩, 4, 1, 8, 0⟩], 8, fun _ => 0⟩ (fun _ => 0) false
        = .ok (.ok true, image',
            ⟨(), [⟨⟨16, 1⟩, 4, 1, 8, 0⟩], 8, memOfList [0x0A, 0x40, 0x01, 0xFA, 0xFF, 0xFF]⟩) ∧
      (List.range 4).map (fun i => load16 image' (2 * i)) = [10, 20, 4090, 4095] := by
  obtain ⟨image', hret, hcont⟩ :=
    UnpackVideo_GrabNext_unpacks
      (constSource [⟨⟨12, 1⟩, 4, 1, 6, 0⟩] 6 (memOfList [0x0A, 0x40, 0x01, 0xFA, 0xFF, 0xFF]))
      () ⟨16, 1⟩ (fun _ => 0) ⟨(), [⟨⟨16, 1⟩, 4, 1, 8, 0⟩], 8, fun _ => 0⟩
      ⟨(), [⟨⟨16, 1⟩, 4, 1, 8, 0⟩], 8, fun _ => 0⟩ 2 (fun _ => 0) false
      (memOfList [0x0A, 0x40, 0x01, 0xFA, 0xFF, 0xFF]) () rfl rfl rfl rfl (by decide) (by decide)
  refine ⟨image', hret, ?_⟩
  obtain ⟨m, hm, hreg⟩ := (hcont 0 ⟨⟨12, 1⟩, 4, 1, 6, 0⟩ ⟨⟨16, 1⟩, 4, 1, 8, 0⟩ rfl rfl).2 rfl
  have hval : (List.range 4).map (fun i => load16 m (2 * i)) = [10, 20, 4090, 4095] := by
    have hm' : Convert12to16 2 ((StreamInfo.mk ⟨16, 1⟩ 4 1 8 0).StreamImage 0)
        ((StreamInfo.mk ⟨12, 1⟩ 4 1 6 0).StreamImage 0)
        (memOfList [0x0A, 0x40, 0x01, 0xFA, 0xFF, 0xFF]) (fun _ => 0) = some m := hm
    have hdec : (Convert12to16 2 ((StreamInfo.mk ⟨16, 1⟩ 4 1 8 0).StreamImage 0)
        ((StreamInfo.mk ⟨12, 1⟩ 4 1 6 0).StreamImage 0)
        (memOfList [0x0A, 0x40, 0x01, 0xFA, 0xFF, 0xFF]) (fun _ => 0)).map
          (fun m => (List.range 4).map (fun i => load16 m (2 * i)))
        = some [10, 20, 4090, 4095] := by decide
    rw [hm'] at hdec
    exact Option.some.inj hdec
  rw [← hval]
  apply List.map_congr_left
  intro i hi
  have hi4 : i < 4 := List.mem_range.mp hi
  apply load16_congr
  · exact hreg _ (Nat.zero_le _) (by show 2 * i < 0 + 1 * 8; omega)
  · exact hreg _ (Nat.zero_le _) (by show 2 * i + 1 < 0 + 1 * 8; omega)

/-! ## No frame, and the layout over the life of the object -/

/-- C13. No frame available: in every state of the decorator and for every caller
output buffer, when the capture of the wrapped source returns false, `GrabNext`
(and `GrabNewest`) returns false, throws nothing, and hands back the caller's
output buffer with every byte as it was. -/
theorem UnpackVideo_GrabNext_no_frame {σ : Type} (V : VideoInterface σ) (fuel : Nat)
    (d : UnpackVideo σ) (image : Mem) (wait : Bool)
    (h : (V.GrabNext d.videoin d.buffer wait).1 = false) :
    ∃ d', UnpackVideo.GrabNext V fuel d image wait = .ok (.ok false, image, d') ∧
      UnpackVideo.GrabNewest V fuel d image wait = .ok (.ok false, image, d') := by
  rcases hg : V.GrabNext d.videoin d.buffer wait with ⟨ok, buffer, videoin⟩
  rw [hg] at h
  simp only at h
  subst h
  refine ⟨{ d with videoin := videoin, buffer := buffer }, ?_, ?_⟩
  · simp only [UnpackVideo.GrabNext, hg]
  · simp only [UnpackVideo.GrabNewest, UnpackVideo.GrabNext, hg]

/-- C13 on a source that never has a frame, polled without waiting. -/
theorem UnpackVideo_GrabNext_no_frame_witness :
    ∃ d', UnpackVideo.GrabNext (idleSource [⟨⟨12, 1⟩, 4, 1, 6, 0⟩] 6) 2
          ⟨(), [⟨⟨16, 1⟩, 4, 1, 8, 0⟩], 8, fun _ => 0⟩ (memOfList [1, 2, 3, 4, 5, 6, 7, 8]) false
        = .ok (.ok false, memOfList [1, 2, 3, 4, 5, 6, 7, 8], d') ∧
      UnpackVideo.GrabNewest (idleSource [⟨⟨12, 1⟩, 4, 1, 6, 0⟩] 6) 2
          ⟨(), [⟨⟨16, 1⟩, 4, 1, 8, 0⟩], 8, fun _ => 0⟩ (memOfList [1, 2, 3, 4, 5, 6, 7, 8]) false
        = .ok (.ok false, memOfList [1, 2, 3, 4, 5, 6, 7, 8], d') :=
  UnpackVideo_GrabNext_no_frame (idleSource [⟨⟨12, 1⟩, 4, 1, 6, 0⟩] 6) 2
    ⟨(), [⟨⟨16, 1⟩, 4, 1, 8, 0⟩], 8, fun _ => 0⟩ (memOfList [1, 2, 3, 4, 5, 6, 7, 8]) false rfl

/-- Whatever the outcome of `GrabNext`, the object it hands back has the stream
list and the total size it had before. -/
theorem GrabNext_keeps_layout {σ : Type} (V : VideoInterface σ) (fuel : Nat) (d : UnpackVideo σ)
    (image : Mem) (wait : Bool) (r : Except VideoException Bool) (image' : Mem)
    (d' : UnpackVideo σ) (h : UnpackVideo.GrabNext V fuel d image wait = .ok (r, image', d')) :
    d'.Streams = d.Streams ∧ d'.SizeBytes = d.SizeBytes := by
  unfold UnpackVideo.GrabNext at h
  rcases hg : V.GrabNext d.videoin d.buffer wait with ⟨ok, buffer, videoin⟩
  rw [hg] at h
  cases ok with
  | false =>
    simp only [Except.ok.injEq, Prod.mk.injEq] at h
    rw [← h.2.2]
    exact ⟨rfl, rfl⟩
  | true =>
    simp only at h
    split at h
    · cases h
    · simp only [Except.ok.injEq, Prod.mk.injEq] at h
      rw [← h.2.2]
      exact ⟨rfl, rfl⟩
    · simp only [Except.ok.injEq, Prod.mk.injEq] at h
      rw [← h.2.2]
      exact ⟨rfl, rfl⟩

/-- C16. Layout is immutable after construction: `Start`, `Stop`, `GrabNext` and
`GrabNewest`, whether a frame is obtained or not and whether an exception is
thrown or not, leave the output stream descriptor list and the total output
size as they were, so `Streams()` and `SizeBytes()` keep returning the values
computed at construction. -/
theorem UnpackVideo_layout_immutable {σ : Type} (V : VideoInterface σ) (fuel : Nat)
    (d : UnpackVideo σ) (image : Mem) (wait : Bool) :
    ((UnpackVideo.Start V d).Streams = d.Streams ∧
      (UnpackVideo.Start V d).SizeBytes = d.SizeBytes) ∧
    ((UnpackVideo.Stop V d).Streams = d.Streams ∧
      (UnpackVideo.Stop V d).SizeBytes = d.SizeBytes) ∧
    (∀ r image' d', UnpackVideo.GrabNext V fuel d image wait = .ok (r, image', d') →
      d'.Streams = d.Streams ∧ d'.SizeBytes = d.SizeBytes) ∧
    (∀ r image' d', UnpackVideo.GrabNewest V fuel d image wait = .ok (r, image', d') →
      d'.Streams = d.Streams ∧ d'.SizeBytes = d.SizeBytes) :=
  ⟨⟨rfl, rfl⟩, ⟨rfl, rfl⟩,
    fun r image' d' h => GrabNext_keeps_layout V fuel d image wait r image' d' h,
    fun r image' d' h => GrabNext_keeps_layout V fuel d image wait r image' d' h⟩

/-- C16 on a capture that delivers a frame and on one that throws (a stream of 16
bits per sample): the stream list and the size are those of before the call. -/
theorem UnpackVideo_layout_immutable_witness :
    (∃ image', UnpackVideo.GrabNext
        (constSource [⟨⟨12, 1⟩, 4, 1, 6, 0⟩] 6 (memOfList [0x0A, 0x40, 0x01, 0xFA, 0xFF, 0xFF])) 2
        ⟨(), [⟨⟨16, 1⟩, 4, 1, 8, 0⟩], 8, fun _ => 0⟩ (fun _ => 0) false
      = .ok (.ok true, image',
          ⟨(), [⟨⟨16, 1⟩, 4, 1, 8, 0⟩], 8, memOfList [0x0A, 0x40, 0x01, 0xFA, 0xFF, 0xFF]⟩)) ∧
    UnpackVideo.Streams (⟨(), [⟨⟨16, 1⟩, 4, 1, 8, 0⟩], 8,
        memOfList [0x0A, 0x40, 0x01, 0xFA, 0xFF, 0xFF]⟩ : UnpackVideo Unit)
      = UnpackVideo.Streams (⟨(), [⟨⟨16, 1⟩, 4, 1, 8, 0⟩], 8, fun _ => 0⟩ : UnpackVideo Unit) ∧
    UnpackVideo.SizeBytes (⟨(), [⟨⟨16, 1⟩, 4, 1, 8, 0⟩], 8,
        memOfList [0x0A, 0x40, 0x01, 0xFA, 0xFF, 0xFF]⟩ : UnpackVideo Unit)
      = UnpackVideo.SizeBytes (⟨(), [⟨⟨16, 1⟩, 4, 1, 8, 0⟩], 8, fun _ => 0⟩ : UnpackVideo Unit) :=
  ⟨⟨_, rfl⟩,
    (UnpackVideo_layout_immutable
      (constSource [⟨⟨12, 1⟩, 4, 1, 6, 0⟩] 6 (memOfList [0x0A, 0x40, 0x01, 0xFA, 0xFF, 0xFF])) 2
      ⟨(), [⟨⟨16, 1⟩, 4, 1, 8, 0⟩], 8, fun _ => 0⟩ (fun _ => 0) false).2.2.1 _ _ _ rfl⟩

/-! ## Termination of the row loops -/

/-- A loop over `n` whole groups is still running when fewer than `n` turns are allowed. -/
theorem genRow_short (step : Nat → Nat → Mem → Mem) (gi go : Nat) (hgi : 0 < gi)
    (n fuel pin pout : Nat) (dst : Mem) (hf : fuel < n) :
    genRow step gi go (pin + gi * n) fuel pin pout dst = none := by
  induction fuel generalizing n pin pout dst with
  | zero =>
    have : 0 < gi * n := Nat.mul_pos hgi hf
    have hne : pin ≠ pin + gi * n := by omega
    simp [genRow, hne]
  | succ f ih =>
    obtain ⟨m, rfl⟩ : ∃ m, n = m + 1 := ⟨n - 1, by omega⟩
    have : 0 < gi * (m + 1) := Nat.mul_pos hgi (Nat.succ_pos m)
    have hne : pin ≠ pin + gi * (m + 1) := by omega
    have he : pin + gi * (m + 1) = (pin + gi) + gi * m := by ring
    simp only [genRow, if_pos hne]
    rw [he]
    exact ih m (pin + gi) (pout + go) _ (by omega)

/-- The loop `while(pin != pin_end)` over `pitch` bytes in groups of `gi` ends
exactly when `pitch` is a multiple of `gi`, and then after exactly `pitch / gi` turns. -/
theorem genRow_terminates_iff (step : Nat → Nat → Mem → Mem) (gi go : Nat) (hgi : 0 < gi)
    (pitch pin pout : Nat) (dst : Mem) :
    ((∃ fuel dst', genRow step gi go (pin + pitch) fuel pin pout dst = some dst') ↔
      pitch % gi = 0) ∧
    (pitch % gi = 0 → ∀ fuel,
      (pitch / gi ≤ fuel → genRow step gi go (pin + pitch) fuel pin pout dst
        = some (iterRow step gi go (pitch / gi) pin pout dst)) ∧
      (fuel < pitch / gi → genRow step gi go (pin + pitch) fuel pin pout dst = none)) := by
  have hpos : ∀ (hm : pitch % gi = 0), pitch = gi * (pitch / gi) := by
    intro hm
    have := Nat.div_add_mod pitch gi
    omega
  constructor
  · constructor
    · rintro ⟨fuel, dst', h⟩
      by_contra hm
      rw [genRow_none] at h
      · cases h
      · intro n hn
        apply hm
        have : pitch = gi * n := by omega
        rw [this, Nat.mul_mod_right]
    · intro hm
      refine ⟨pitch / gi, iterRow step gi go (pitch / gi) pin pout dst, ?_⟩
      have := genRow_eq_iterRow step gi go hgi (pitch / gi) (pitch / gi) pin pout dst (Nat.le_refl _)
      rw [← hpos hm] at this
      exact this
  · intro hm fuel
    constructor
    · intro hf
      have := genRow_eq_iterRow step gi go hgi (pitch / gi) fuel pin pout dst hf
      rw [← hpos hm] at this
      exact this
    · intro hf
      have := genRow_short step gi go hgi (pitch / gi) fuel pin pout dst hf
      rw [← hpos hm] at this
      exact this

/-- C18. Row loop termination: the loop `while(pin != pin_end)` over a row of
`pitch` bytes ends, in `Convert12to16`, if and only if `pitch` is a multiple of 3
and, in `Convert10to16`, if and only if `pitch` is a multiple of 5; when it ends
it has run the loop body exactly `pitch / 3` (resp. `pitch / 5`) times: that
many turns suffice and fewer do not. With the packed pitch `w * 12 / 8` this is
the case exactly when `w` is even, with `w * 10 / 8` exactly when `w` is a
multiple of 4. -/
theorem row_loop_terminates_iff (src dst : Mem) (pin pout pitch w : Nat) :
    ((∃ fuel dst', Convert12to16.row src (pin + pitch) fuel pin pout dst = some dst') ↔
      pitch % 3 = 0) ∧
    (pitch % 3 = 0 → ∀ fuel,
      (pitch / 3 ≤ fuel → Convert12to16.row src (pin + pitch) fuel pin pout dst
        = some (iterRow (step12 src) 3 4 (pitch / 3) pin pout dst)) ∧
      (fuel < pitch / 3 → Convert12to16.row src (pin + pitch) fuel pin pout dst = none)) ∧
    ((∃ fuel dst', Convert10to16.row src (pin + pitch) fuel pin pout dst = some dst') ↔
      pitch % 5 = 0) ∧
    (pitch % 5 = 0 → ∀ fuel,
      (pitch / 5 ≤ fuel → Convert10to16.row src (pin + pitch) fuel pin pout dst
        = some (iterRow (step10 src) 5 8 (pitch / 5) pin pout dst)) ∧
      (fuel < pitch / 5 → Convert10to16.row src (pin + pitch) fuel pin pout dst = none)) ∧
    ((w * 12 / 8) % 3 = 0 ↔ w % 2 = 0) ∧
    ((w * 10 / 8) % 5 = 0 ↔ w % 4 = 0) := by
  have h12 := genRow_terminates_iff (step12 src) 3 4 (by decide) pitch pin pout dst
  have h10 := genRow_terminates_iff (step10 src) 5 8 (by decide) pitch pin pout dst
  simp only [← row12_eq_genRow] at h12
  simp only [← row10_eq_genRow] at h10
  exact ⟨h12.1, h12.2, h10.1, h10.2, by omega, by omega⟩

/-- C18 on rows of 6 and of 10 bytes (two turns each, one turn is not enough), and
on a row of 4 bytes, on which neither loop ends. -/
theorem row_loop_terminates_iff_witness :
    (Convert12to16.row (memOfList [0x0A, 0x40, 0x01, 0xFA, 0xFF, 0xFF]) (0 + 6) 2 0 0 (fun _ => 0)
        = some (iterRow (step12 (memOfList [0x0A, 0x40, 0x01, 0xFA, 0xFF, 0xFF])) 3 4 (6 / 3) 0 0
            (fun _ => 0)) ∧
      Convert12to16.row (memOfList [0x0A, 0x40, 0x01, 0xFA, 0xFF, 0xFF]) (0 + 6) 1 0 0 (fun _ => 0)
        = none) ∧
    ¬ (∃ fuel dst', Convert12to16.row (memOfList [1, 2, 3, 4]) (0 + 4) fuel 0 0 (fun _ => 0)
        = some dst') ∧
    ¬ (∃ fuel dst', Convert10to16.row (memOfList [1, 2, 3, 4]) (0 + 4) fuel 0 0 (fun _ => 0)
        = some dst') :=
  ⟨⟨((row_loop_terminates_iff (memOfList [0x0A, 0x40, 0x01, 0xFA, 0xFF, 0xFF]) (fun _ => 0) 0 0 6
        0).2.1 (by decide) 2).1 (by decide),
     ((row_loop_terminates_iff (memOfList [0x0A, 0x40, 0x01, 0xFA, 0xFF, 0xFF]) (fun _ => 0) 0 0 6
        0).2.1 (by decide) 1).2 (by decide)⟩,
   fun h => absurd ((row_loop_terminates_iff (memOfList [1, 2, 3, 4]) (fun _ => 0) 0 0 4 0).1.mp h)
     (by decide),
   fun h => absurd
     ((row_loop_terminates_iff (memOfList [1, 2, 3, 4]) (fun _ => 0) 0 0 4 0).2.2.1.mp h)
     (by decide)⟩

/-! ## Determinism and idempotence of the codec -/

theorem step_overwrites {step : Nat → Nat → Mem → Mem} {go : Nat} (hF : StepFrame step go)
    (hW : StepWrites step go) (pin pout : Nat) : Overwrites (step pin pout) := by
  intro a
  by_cases hin : pout ≤ a ∧ a < pout + go
  · exact Or.inl (fun d1 d2 => hW pin pout d1 d2 a hin.1 hin.2)
  · exact Or.inr (fun d => hF pin pout d a (by omega))

theorem overwrites_comp {F G : Mem → Mem} (hF : Overwrites F) (hG : Overwrites G) :
    Overwrites (fun d => G (F d)) := by
  intro a
  rcases hG a with hg | hg
  · exact Or.inl (fun d1 d2 => hg _ _)
  · rcases hF a with hf | hf
    · exact Or.inl (fun d1 d2 => by show G (F d1) a = G (F d2) a; rw [hg, hg, hf d1 d2])
    · exact Or.inr (fun d => by show G (F d) a = d a; rw [hg, hf])

theorem iterRow_overwrites {step : Nat → Nat → Mem → Mem} {go : Nat} (hF : StepFrame step go)
    (hW : StepWrites step go) (gi n pin pout : Nat) :
    Overwrites (iterRow step gi go n pin pout) := by
  induction n generalizing pin pout with
  | zero => exact fun a => Or.inr (fun d => rfl)
  | succ n ih =>
    exact overwrites_comp (F := step pin pout) (G := iterRow step gi go n (pin + gi) (pout + go))
      (step_overwrites hF hW pin pout) (ih (pin + gi) (pout + go))

theorem iterRows_overwrites {step : Nat → Nat → Mem → Mem} {go : Nat} (hF : StepFrame step go)
    (hW : StepWrites step go) (gi k : Nat) (out inp : Image) (n r : Nat) :
    Overwrites (iterRows step gi go k out inp n r) := by
  induction n generalizing r with
  | zero => exact fun a => Or.inr (fun d => rfl)
  | succ n ih =>
    exact overwrites_comp
      (F := iterRow step gi go k (inp.ptr + r * inp.pitch) (out.ptr + r * out.pitch))
      (G := iterRows step gi go k out inp n (r + 1))
      (iterRow_overwrites hF hW gi k _ _) (ih (r + 1))

/-- Running an overwriting transformer on its own result changes nothing. -/
theorem overwrites_idem {F : Mem → Mem} (hF : Overwrites F) (d : Mem) : F (F d) = F d := by
  funext a
  rcases hF a with h | h
  · exact h _ _
  · exact h _

/-- A byte among the `go * n` bytes a row loop writes does not depend on the store before. -/
theorem iterRow_written {step : Nat → Nat → Mem → Mem} {go : Nat} (hF : StepFrame step go)
    (hW : StepWrites step go) (gi n pin pout : Nat) (d1 d2 : Mem) (a : Nat)
    (h1 : pout ≤ a) (h2 : a < pout + go * n) :
    iterRow step gi go n pin pout d1 a = iterRow step gi go n pin pout d2 a := by
  induction n generalizing pin pout d1 d2 with
  | zero => omega
  | succ n ih =>
    have hm : go * (n + 1) = go + go * n := by ring
    simp only [iterRow]
    by_cases h : a < pout + go
    · exact iterRow_congr hF hW gi n _ _ _ _ a (hW pin pout d1 d2 a h1 h)
    · exact ih _ _ _ _ (by omega) (by omega)

/-- A byte among those row `q` writes does not depend on the store before the image loop. -/
theorem iterRows_written {step : Nat → Nat → Mem → Mem} {go : Nat} (hF : StepFrame step go)
    (hW : StepWrites step go) (gi k : Nat) (out inp : Image) (n r : Nat) (d1 d2 : Mem)
    (q a : Nat) (hq1 : r ≤ q) (hq2 : q < r + n) (h1 : out.ptr + q * out.pitch ≤ a)
    (h2 : a < out.ptr + q * out.pitch + go * k) :
    iterRows step gi go k out inp n r d1 a = iterRows step gi go k out inp n r d2 a := by
  induction n generalizing r d1 d2 with
  | zero => omega
  | succ n ih =>
    simp only [iterRows]
    by_cases hqr : q = r
    · subst hqr
      exact iterRows_congr hF hW gi k out inp n _ _ _ a
        (iterRow_written hF hW gi k _ _ d1 d2 a h1 h2)
    · exact ih (r + 1) _ _ (by omega) (by omega)

/-- C15. Unpack is deterministic and idempotent: with an input pitch that is a
multiple of the group size, from any two initial contents of the output store
`Convert12to16` (resp. `Convert10to16`) returns stores that agree on every
written sample position (row `r < h`, sample `j` below the number of samples in
a row), and a second run on the same input bytes returns the store of the first
run unchanged. -/
theorem Convert_deterministic_idempotent (fuel : Nat) (out inp : Image) (src dst1 dst2 : Mem) :
    (inp.pitch % 3 = 0 → inp.pitch / 3 ≤ fuel →
      ∃ m1 m2, Convert12to16 fuel out inp src dst1 = some m1 ∧
        Convert12to16 fuel out inp src dst2 = some m2 ∧
        (∀ r j, r < out.h → j < 2 * (inp.pitch / 3) →
          load16 m1 (out.ptr + r * out.pitch + 2 * j)
            = load16 m2 (out.ptr + r * out.pitch + 2 * j)) ∧
        Convert12to16 fuel out inp src m1 = some m1) ∧
    (inp.pitch % 5 = 0 → inp.pitch / 5 ≤ fuel →
      ∃ m1 m2, Convert10to16 fuel out inp src dst1 = some m1 ∧
        Convert10to16 fuel out inp src dst2 = some m2 ∧
        (∀ r j, r < out.h → j < 4 * (inp.pitch / 5) →
          load16 m1 (out.ptr + r * out.pitch + 2 * j)
            = load16 m2 (out.ptr + r * out.pitch + 2 * j)) ∧
        Convert10to16 fuel out inp src m1 = some m1) := by
  constructor
  · intro hp hf
    have hpk : inp.pitch = 3 * (inp.pitch / 3) := by omega
    refine ⟨_, _, Convert12to16_eq fuel _ out inp src dst1 hpk hf,
      Convert12to16_eq fuel _ out inp src dst2 hpk hf, ?_, ?_⟩
    · intro r j hr hj
      apply load16_congr
      · exact iterRows_written (step12_frame src) (step12_writes src) 3 _ out inp _ 0 _ _ r _
          (Nat.zero_le _) (by omega) (by omega) (by omega)
      · exact iterRows_written (step12_frame src) (step12_writes src) 3 _ out inp _ 0 _ _ r _
          (Nat.zero_le _) (by omega) (by omega) (by omega)
    · rw [Convert12to16_eq fuel _ out inp src _ hpk hf,
        overwrites_idem (iterRows_overwrites (step12_frame src) (step12_writes src) 3 _ out inp _ 0)]
  · intro hp hf
    have hpk : inp.pitch = 5 * (inp.pitch / 5) := by omega
    refine ⟨_, _, Convert10to16_eq fuel _ out inp src dst1 hpk hf,
      Convert10to16_eq fuel _ out inp src dst2 hpk hf, ?_, ?_⟩
    · intro r j hr hj
      apply load16_congr
      · exact iterRows_written (step10_frame src) (step10_writes src) 5 _ out inp _ 0 _ _ r _
          (Nat.zero_le _) (by omega) (by omega) (by omega)
      · exact iterRows_written (step10_frame src) (step10_writes src) 5 _ out inp _ 0 _ _ r _
          (Nat.zero_le _) (by omega) (by omega) (by omega)
    · rw [Convert10to16_eq fuel _ out inp src _ hpk hf,
        overwrites_idem (iterRows_overwrites (step10_frame src) (step10_writes src) 5 _ out inp _ 0)]

/-- C15 on the row 0A 40 01 FA FF FF, from an output store of zeros and from one of
sevens: the four samples agree, and a second run returns the same store. -/
theorem Convert_deterministic_idempotent_witness :
    ∃ m1 m2, Convert12to16 2 ⟨8, 0, 4, 1⟩ ⟨6, 0, 4, 1⟩
        (memOfList [0x0A, 0x40, 0x01, 0xFA, 0xFF, 0xFF]) (fun _ => 0) = some m1 ∧
      Convert12to16 2 ⟨8, 0, 4, 1⟩ ⟨6, 0, 4, 1⟩
        (memOfList [0x0A, 0x40, 0x01, 0xFA, 0xFF, 0xFF]) (fun _ => 7) = some m2 ∧
      (∀ r j, r < 1 → j < 2 * (6 / 3) →
        load16 m1 (0 + r * 8 + 2 * j) = load16 m2 (0 + r * 8 + 2 * j)) ∧
      Convert12to16 2 ⟨8, 0, 4, 1⟩ ⟨6, 0, 4, 1⟩
        (memOfList [0x0A, 0x40, 0x01, 0xFA, 0xFF, 0xFF]) m1 = some m1 :=
  (Convert_deterministic_idempotent 2 ⟨8, 0, 4, 1⟩ ⟨6, 0, 4, 1⟩
    (memOfList [0x0A, 0x40, 0x01, 0xFA, 0xFF, 0xFF]) (fun _ => 0) (fun _ => 7)).1
    (by decide) (by decide)

/-! ## Which bytes the codec reads and writes -/

theorem iterRow_step_congr (step1 step2 : Nat → Nat → Mem → Mem) (gi go n pin pout : Nat)
    (d : Mem)
    (h : ∀ g, g < n → ∀ d, step1 (pin + gi * g) (pout + go * g) d
      = step2 (pin + gi * g) (pout + go * g) d) :
    iterRow step1 gi go n pin pout d = iterRow step2 gi go n pin pout d := by
  induction n generalizing pin pout d with
  | zero => rfl
  | succ n ih =>
    simp only [iterRow]
    have h0 := h 0 (Nat.succ_pos n) d
    simp only [Nat.mul_zero, Nat.add_zero] at h0
    rw [h0]
    apply ih
    intro g hg d'
    have := h (g + 1) (by omega) d'
    have e1 : pin + gi * (g + 1) = pin + gi + gi * g := by ring
    have e2 : pout + go * (g + 1) = pout + go + go * g := by ring
    rw [e1, e2] at this
    exact this

theorem iterRows_step_congr (step1 step2 : Nat → Nat → Mem → Mem) (gi go k : Nat)
    (out inp : Image) (n r : Nat) (d : Mem)
    (h : ∀ q, r ≤ q → q < r + n → ∀ g, g < k → ∀ d,
      step1 (inp.ptr + q * inp.pitch + gi * g) (out.ptr + q * out.pitch + go * g) d
        = step2 (inp.ptr + q * inp.pitch + gi * g) (out.ptr + q * out.pitch + go * g) d) :
    iterRows step1 gi go k out inp n r d = iterRows step2 gi go k out inp n r d := by
  induction n generalizing r d with
  | zero => rfl
  | succ n ih =>
    simp only [iterRows]
    rw [iterRow_step_congr step1 step2 gi go k _ _ d
      (fun g hg d' => h r (Nat.le_refl _) (by omega) g hg d')]
    exact ih (r + 1) _ (fun q hq1 hq2 => h q (by omega) (by omega))

/-- The body of the 12-bit loop depends on the source store through the three
bytes at `pin` only. -/
theorem step12_src (s1 s2 : Mem) (pin pout : Nat) (d : Mem)
    (h : ∀ i, i < 3 → load8 s1 (pin + i) = load8 s2 (pin + i)) :
    step12 s1 pin pout d = step12 s2 pin pout d := by
  have h0 := h 0 (by decide)
  have h1 := h 1 (by decide)
  have h2 := h 2 (by decide)
  simp only [Nat.add_zero] at h0
  simp only [step12, h0, h1, h2]

/-- The body of the 10-bit loop depends on the source store through the five
bytes at `pin` only. -/
theorem step10_src (s1 s2 : Mem) (pin pout : Nat) (d : Mem)
    (h : ∀ i, i < 5 → load8 s1 (pin + i) = load8 s2 (pin + i)) :
    step10 s1 pin pout d = step10 s2 pin pout d := by
  have h0 := h 0 (by decide)
  have h1 := h 1 (by decide)
  have h2 := h 2 (by decide)
  have h3 := h 3 (by decide)
  have h4 := h 4 (by decide)
  simp only [Nat.add_zero] at h0
  simp only [step10, h0, h1, h2, h3, h4]

/-- A row loop over `n` groups reads the `gi * n` bytes from `pin` only. -/
theorem iterRow_src (stepOf : Mem → Nat → Nat → Mem → Mem) (gi go : Nat)
    (hR : ∀ s1 s2 pin pout d, (∀ i, i < gi → load8 s1 (pin + i) = load8 s2 (pin + i)) →
      stepOf s1 pin pout d = stepOf s2 pin pout d)
    (s1 s2 : Mem) (n pin pout : Nat) (d : Mem)
    (h : ∀ a, pin ≤ a → a < pin + gi * n → load8 s1 a = load8 s2 a) :
    iterRow (stepOf s1) gi go n pin pout d = iterRow (stepOf s2) gi go n pin pout d := by
  apply iterRow_step_congr
  intro g hg d'
  apply hR
  intro i hi
  have hm : gi * (g + 1) ≤ gi * n := Nat.mul_le_mul_left gi hg
  rw [Nat.mul_succ] at hm
  exact h _ (by omega) (by omega)

/-- An image loop over `n` rows of `k` groups reads the bytes of these rows only. -/
theorem iterRows_src (stepOf : Mem → Nat → Nat → Mem → Mem) (gi go : Nat)
    (hR : ∀ s1 s2 pin pout d, (∀ i, i < gi → load8 s1 (pin + i) = load8 s2 (pin + i)) →
      stepOf s1 pin pout d = stepOf s2 pin pout d)
    (s1 s2 : Mem) (k : Nat) (out inp : Image) (hp : inp.pitch = gi * k) (n : Nat) (d : Mem)
    (h : ∀ a, inp.ptr ≤ a → a < inp.ptr + n * inp.pitch → load8 s1 a = load8 s2 a) :
    iterRows (stepOf s1) gi go k out inp n 0 d = iterRows (stepOf s2) gi go k out inp n 0 d := by
  apply iterRows_step_congr
  intro q _ hq g hg d'
  apply hR
  intro i hi
  have hm : gi * (g + 1) ≤ gi * k := Nat.mul_le_mul_left gi hg
  rw [Nat.mul_succ] at hm
  have hq' : (q + 1) * inp.pitch ≤ n * inp.pitch := Nat.mul_le_mul_right _ (by omega)
  rw [Nat.succ_mul] at hq'
  exact h _ (by omega) (by omega)

/-- The in-bounds property of an unpack routine whose row and image loops are the
generic loops with body `stepOf src`, on rows of `k` groups that fill the `2 * w`
bytes of an output row. -/
theorem inBounds_of (stepOf : Mem → Nat → Nat → Mem → Mem) (gi go : Nat) (hgi : 0 < gi)
    (row : Mem → Nat → Nat → Nat → Nat → Mem → Option Mem)
    (conv : Nat → Image → Image → Mem → Mem → Option Mem)
    (hrow : ∀ src pin_end fuel pin pout dst,
      row src pin_end fuel pin pout dst = genRow (stepOf src) gi go pin_end fuel pin pout dst)
    (hconv : ∀ fuel out inp src dst,
      conv fuel out inp src dst = genRows (stepOf src) gi go fuel out inp out.h 0 dst)
    (hF : ∀ src, StepFrame (stepOf src) go) (hW : ∀ src, StepWrites (stepOf src) go)
    (hR : ∀ s1 s2 pin pout d, (∀ i, i < gi → load8 s1 (pin + i) = load8 s2 (pin + i)) →
      stepOf s1 pin pout d = stepOf s2 pin pout d)
    (fuel w h k : Nat) (out inp : Image) (src dst : Mem) (hp : inp.pitch = gi * k)
    (hw : go * k = 2 * w) (hout : out.pitch = 2 * w) (hh : out.h = h) (hf : k ≤ fuel) :
    InBounds row conv fuel w h out inp src dst := by
  have hend : ∀ r, inp.ptr + (r + 1) * inp.pitch = inp.ptr + r * inp.pitch + gi * k := by
    intro r
    rw [hp]
    ring
  have hrowEq : ∀ (s : Mem) (r : Nat) (d : Mem),
      row s (inp.ptr + (r + 1) * inp.pitch) fuel (inp.ptr + r * inp.pitch)
          (out.ptr + r * out.pitch) d
        = some (iterRow (stepOf s) gi go k (inp.ptr + r * inp.pitch) (out.ptr + r * out.pitch) d) := by
    intro s r d
    rw [hrow, hend, genRow_eq_iterRow (stepOf s) gi go hgi k fuel _ _ _ hf]
  have hconvEq : ∀ s : Mem, conv fuel out inp s dst
      = some (iterRows (stepOf s) gi go k out inp h 0 dst) := by
    intro s
    rw [hconv, hh, genRows_eq_iterRows (stepOf s) gi go hgi k fuel out inp hp hf]
  constructor
  · intro r _
    have hr1 : (r + 1) * (2 * w) = r * (2 * w) + 2 * w := Nat.succ_mul _ _
    refine ⟨_, hrowEq src r dst, ?_, ?_, ?_⟩
    · intro src2 hag
      rw [hrowEq src2 r dst]
      congr 1
      apply iterRow_src stepOf gi go hR
      intro a ha1 ha2
      exact hag a ha1 (by rw [hend]; exact ha2)
    · intro a ha
      apply iterRow_frame (hF src)
      rw [hout, hw]
      omega
    · intro dst2
      refine ⟨_, hrowEq src r dst2, ?_⟩
      intro a ha1 ha2
      apply iterRow_written (hF src) (hW src)
      · rw [hout]; exact ha1
      · rw [hout, hw]; omega
  · refine ⟨_, hconvEq src, ?_, ?_⟩
    · intro src2 hag
      rw [hconvEq src2]
      congr 1
      exact iterRows_src stepOf gi go hR src2 src k out inp hp h dst hag
    · intro a ha
      rcases ha with ha | ha
      · apply iterRows_frame_lo (hF src)
        omega
      · apply iterRows_frame_hi (hF src) gi k out inp (by rw [hw, hout])
        rw [hout, Nat.zero_add]
        omega

/-- C17. In-bounds access under the planner's layout: for a width `w` and a height
`h`, with output pitch `2 * w` and input pitch `w * 12 / 8` for an even `w`
(12-bit), resp. `w * 10 / 8` for `w` a multiple of 4 (10-bit), the unpack of row
`r` reads only the input bytes of row `r`, leaves every byte outside the
`2 * w` bytes of output row `r` as it was and overwrites each of these (the `w`
samples of the row); and the unpack of the image reads no byte outside the
`h * pitch` input bytes and changes no byte outside the `h * 2 * w` output
bytes. -/
theorem Convert_in_bounds (fuel w h : Nat) (out inp : Image) (src dst : Mem)
    (hout : out.pitch = 2 * w) (hh : out.h = h) :
    (w % 2 = 0 → inp.pitch = w * 12 / 8 → w / 2 ≤ fuel →
      InBounds Convert12to16.row Convert12to16 fuel w h out inp src dst) ∧
    (w % 4 = 0 → inp.pitch = w * 10 / 8 → w / 4 ≤ fuel →
      InBounds Convert10to16.row Convert10to16 fuel w h out inp src dst) := by
  constructor
  · intro hw hp hf
    exact inBounds_of step12 3 4 (by decide) Convert12to16.row Convert12to16
      (fun s pe f pi po d => row12_eq_genRow s pe f pi po d)
      (fun f o i s d => by unfold Convert12to16; exact rows12_eq_genRows f o i s o.h 0 d)
      step12_frame step12_writes step12_src fuel w h (w / 2) out inp src dst
      (by omega) (by omega) hout hh hf
  · intro hw hp hf
    exact inBounds_of step10 5 8 (by decide) Convert10to16.row Convert10to16
      (fun s pe f pi po d => row10_eq_genRow s pe f pi po d)
      (fun f o i s d => by unfold Convert10to16; exact rows10_eq_genRows f o i s o.h 0 d)
      step10_frame step10_writes step10_src fuel w h (w / 4) out inp src dst
      (by omega) (by omega) hout hh hf

/-- C17 on an image of 2 rows of 4 samples of 12 bits: input pitch 6, output pitch 8. -/
theorem Convert_in_bounds_witness :
    InBounds Convert12to16.row Convert12to16 2 4 2 ⟨8, 0, 4, 2⟩ ⟨6, 0, 4, 2⟩
      (memOfList [0x0A, 0x40, 0x01, 0xFA, 0xFF, 0xFF, 1, 2, 3, 4, 5, 6]) (fun _ => 0) :=
  (Convert_in_bounds 2 4 2 ⟨8, 0, 4, 2⟩ ⟨6, 0, 4, 2⟩
    (memOfList [0x0A, 0x40, 0x01, 0xFA, 0xFF, 0xFF, 1, 2, 3, 4, 5, 6]) (fun _ => 0) rfl rfl).1
    (by decide) (by decide) (by decide)

/-- C14, as the claim states it, fails: on a row of 4 bytes the 12-bit row loop
does not stop after the one whole group. At `pin = 3` the test `pin != pin_end`
still holds (`pin_end = 4`), so the body runs again there, on the bytes at
offsets 3, 4 and 5, and the loop returns for no fuel. -/
theorem Convert12to16_row_remainder :
    Convert12to16.row (memOfList [1, 2, 3, 4]) (0 + 4) 5 0 0 (fun _ => 0)
      = Convert12to16.row (memOfList [1, 2, 3, 4]) (0 + 4) 3 6 8
          (step12 (memOfList [1, 2, 3, 4]) 3 4 (step12 (memOfList [1, 2, 3, 4]) 0 0 (fun _ => 0))) ∧
    ¬ ∃ fuel dst', Convert12to16.row (memOfList [1, 2, 3, 4]) (0 + 4) fuel 0 0 (fun _ => 0)
      = some dst' := by
  refine ⟨rfl, ?_⟩
  rintro ⟨fuel, dst', h⟩
  rw [row12_eq_genRow, genRow_none] at h
  · cases h
  · intro n
    omega

/-- C14, amended. On an input row of `p` bytes with `p` a multiple of 3, the
12-bit row loop returns, having written exactly the `2 * (p / 3)` samples of the
row (each of these 16-bit units is overwritten whatever was there, every byte
outside them is as before), and it reads no byte outside the `p` bytes of the
row: it returns the same from any source store that agrees on them. -/
theorem Convert12to16_row_whole_groups (src dst : Mem) (pin pout p fuel : Nat)
    (hp : p % 3 = 0) (hf : p / 3 ≤ fuel) :
    ∃ dst', Convert12to16.row src (pin + p) fuel pin pout dst = some dst' ∧
      (∀ dst2 : Mem, ∃ dst2', Convert12to16.row src (pin + p) fuel pin pout dst2 = some dst2' ∧
        ∀ j, j < 2 * (p / 3) → load16 dst2' (pout + 2 * j) = load16 dst' (pout + 2 * j)) ∧
      (∀ a, (a < pout ∨ pout + 2 * (2 * (p / 3)) ≤ a) → dst' a = dst a) ∧
      (∀ src2 : Mem, (∀ a, pin ≤ a → a < pin + p → load8 src2 a = load8 src a) →
        Convert12to16.row src2 (pin + p) fuel pin pout dst = some dst') := by
  have hpk : pin + p = pin + 3 * (p / 3) := by omega
  have hrowEq : ∀ (s d : Mem), Convert12to16.row s (pin + p) fuel pin pout d
      = some (iterRow (step12 s) 3 4 (p / 3) pin pout d) := by
    intro s d
    rw [row12_eq_genRow, hpk, genRow_eq_iterRow (step12 s) 3 4 (by decide) _ fuel _ _ _ hf]
  refine ⟨_, hrowEq src dst, ?_, ?_, ?_⟩
  · intro dst2
    refine ⟨_, hrowEq src dst2, ?_⟩
    intro j hj
    apply load16_congr
    · exact iterRow_written (step12_frame src) (step12_writes src) 3 _ _ _ _ _ _
        (by omega) (by omega)
    · exact iterRow_written (step12_frame src) (step12_writes src) 3 _ _ _ _ _ _
        (by omega) (by omega)
  · intro a ha
    apply iterRow_frame (step12_frame src)
    omega
  · intro src2 hag
    rw [hrowEq src2 dst]
    congr 1
    apply iterRow_src step12 3 4 step12_src
    intro a ha1 ha2
    exact hag a ha1 (by omega)

/-- The amended C14 on the row 0A 40 01 FA FF FF of 6 bytes. -/
theorem Convert12to16_row_whole_groups_witness :
    ∃ dst', Convert12to16.row (memOfList [0x0A, 0x40, 0x01, 0xFA, 0xFF, 0xFF]) (0 + 6) 2 0 0
        (fun _ => 0) = some dst' ∧
      (∀ dst2 : Mem, ∃ dst2', Convert12to16.row (memOfList [0x0A, 0x40, 0x01, 0xFA, 0xFF, 0xFF])
          (0 + 6) 2 0 0 dst2 = some dst2' ∧
        ∀ j, j < 2 * (6 / 3) → load16 dst2' (0 + 2 * j) = load16 dst' (0 + 2 * j)) ∧
      (∀ a, (a < 0 ∨ 0 + 2 * (2 * (6 / 3)) ≤ a) → dst' a = (fun _ => 0 : Mem) a) ∧
      (∀ src2 : Mem,
        (∀ a, 0 ≤ a → a < 0 + 6 →
          load8 src2 a = load8 (memOfList [0x0A, 0x40, 0x01, 0xFA, 0xFF, 0xFF]) a) →
        Convert12to16.row src2 (0 + 6) 2 0 0 (fun _ => 0) = some dst') :=
  Convert12to16_row_whole_groups (memOfList [0x0A, 0x40, 0x01, 0xFA, 0xFF, 0xFF]) (fun _ => 0)
    0 0 6 2 (by decide) (by decide)

/-! ## Capture: the depth dispatch and the exception -/

theorem layoutSize_append (out_fmt : VideoPixelFormat) (a b : List StreamInfo) :
    layoutSize out_fmt (a ++ b) = layoutSize out_fmt a + layoutSize out_fmt b := by
  induction a with
  | nil => simp [layoutSize]
  | cons si rest ih => simp [layoutSize, ih, Nat.add_assoc]

theorem layout_append (out_fmt : VideoPixelFormat) (off : Nat) (a b : List StreamInfo) :
    layout out_fmt off (a ++ b)
      = layout out_fmt off a ++ layout out_fmt (off + layoutSize out_fmt a) b := by
  induction a generalizing off with
  | nil => simp [layout, layoutSize]
  | cons si rest ih => simp [layout, layoutSize, ih, Nat.add_assoc]

/-- The capture loop over a list of output streams that starts with `A`: when the
part over `A` completes, the loop goes on over the rest from the store reached. -/
theorem grab_loop_append (fuel : Nat) (ins : List StreamInfo) (buffer : Mem)
    (A B : List StreamInfo) (s : Nat) (image image1 : Mem)
    (h : UnpackVideo.GrabNext.loop fuel ins buffer A s image = .ok (.ok (), image1)) :
    UnpackVideo.GrabNext.loop fuel ins buffer (A ++ B) s image
      = UnpackVideo.GrabNext.loop fuel ins buffer B (s + A.length) image1 := by
  induction A generalizing s image with
  | nil =>
    simp only [UnpackVideo.GrabNext.loop, Except.ok.injEq, Prod.mk.injEq, true_and] at h
    simp [h]
  | cons so rest ih =>
    have hl : s + (so :: rest).length = s + 1 + rest.length := by
      simp only [List.length_cons]; omega
    rw [hl]
    simp only [List.cons_append, UnpackVideo.GrabNext.loop] at h ⊢
    cases hs : ins[s]? with
    | none => rw [hs] at h; cases h
    | some si =>
      rw [hs] at h
      simp only at h ⊢
      by_cases h10 : si.PixFormat.bpp = 10
      · simp only [if_pos h10] at h ⊢
        cases hc : Convert10to16 fuel (so.StreamImage 0) (si.StreamImage 0) buffer image with
        | none => rw [hc] at h; cases h
        | some m =>
          rw [hc] at h
          exact ih (s + 1) m h
      · simp only [if_neg h10] at h ⊢
        by_cases h12 : si.PixFormat.bpp = 12
        · simp only [if_pos h12] at h ⊢
          cases hc : Convert12to16 fuel (so.StreamImage 0) (si.StreamImage 0) buffer image with
          | none => rw [hc] at h; cases h
          | some m =>
            rw [hc] at h
            exact ih (s + 1) m h
        · simp only [if_neg h12] at h
          cases h

/-- The capture loop over unpackable streams changes no byte past their output regions. -/
theorem grab_loop_frame_hi (fuel : Nat) (ins : List StreamInfo) (buffer : Mem)
    (rest : List StreamInfo) :
    ∀ (s off : Nat) (image image' : Mem), (∀ j, rest[j]? = ins[s + j]?) →
      (∀ si ∈ rest, unpackable fuel si) →
      UnpackVideo.GrabNext.loop fuel ins buffer (layout ⟨16, 1⟩ off rest) s image
        = .ok (.ok (), image') →
      ∀ a, off + layoutSize ⟨16, 1⟩ rest ≤ a → image' a = image a := by
  induction rest with
  | nil =>
    intro s off image image' _ _ h a _
    simp only [layout, UnpackVideo.GrabNext.loop, Except.ok.injEq, Prod.mk.injEq, true_and] at h
    rw [h]
  | cons si rest ih =>
    intro s off image image' hidx hu h a ha
    have hins : ins[s]? = some si := by
      have := hidx 0
      simpa using this.symm
    obtain ⟨F, hstep, -, -, -, hhi, -⟩ :=
      grab_loop_step fuel ins buffer si (layout ⟨16, 1⟩ (off + si.h * (si.w * 16 / 8)) rest) s off
        hins (hu si (by simp))
    have hidx' : ∀ j, rest[j]? = ins[s + 1 + j]? := by
      intro j
      have := hidx (j + 1)
      rw [List.getElem?_cons_succ] at this
      rw [this]
      congr 1
      omega
    have hlay : layout ⟨16, 1⟩ off (si :: rest)
        = StreamInfo.mk ⟨16, 1⟩ si.w si.h (si.w * 16 / 8) off
          :: layout ⟨16, 1⟩ (off + si.h * (si.w * 16 / 8)) rest := rfl
    rw [hlay, hstep] at h
    have hsz : layoutSize ⟨16, 1⟩ (si :: rest)
        = si.h * (si.w * 16 / 8) + layoutSize ⟨16, 1⟩ rest := rfl
    rw [hsz] at ha
    rw [ih (s + 1) _ (F image) image' hidx' (fun t ht => hu t (by simp [ht])) h a (by omega)]
    exact hhi image a (by omega)

/-- The capture loop at a stream whose depth is neither 10 nor 12 throws, with the
caller's buffer as it is. -/
theorem grab_loop_throw (fuel : Nat) (ins : List StreamInfo) (buffer : Mem) (so : StreamInfo)
    (rest : List StreamInfo) (s : Nat) (image : Mem) (bad : StreamInfo)
    (hins : ins[s]? = some bad) (h10 : bad.PixFormat.bpp ≠ 10) (h12 : bad.PixFormat.bpp ≠ 12) :
    UnpackVideo.GrabNext.loop fuel ins buffer (so :: rest) s image
      = .ok (.error ⟨"Incorrect image bit depth: ".drop bad.PixFormat.bpp⟩, image) := by
  simp only [UnpackVideo.GrabNext.loop, hins, if_neg h10, if_neg h12]

/-- The capture loop looks at the source streams only at the indices it visits. -/
theorem grab_loop_ins_congr (fuel : Nat) (ins1 ins2 : List StreamInfo) (buffer : Mem)
    (outs : List StreamInfo) (s : Nat) (image : Mem)
    (h : ∀ j, j < outs.length → ins1[s + j]? = ins2[s + j]?) :
    UnpackVideo.GrabNext.loop fuel ins1 buffer outs s image
      = UnpackVideo.GrabNext.loop fuel ins2 buffer outs s image := by
  induction outs generalizing s image with
  | nil => rfl
  | cons so rest ih =>
    have h0 := h 0 (by simp)
    rw [Nat.add_zero] at h0
    have hrest : ∀ (m : Mem), UnpackVideo.GrabNext.loop fuel ins1 buffer rest (s + 1) m
        = UnpackVideo.GrabNext.loop fuel ins2 buffer rest (s + 1) m := by
      intro m
      apply ih
      intro j hj
      have := h (j + 1) (by simp only [List.length_cons]; omega)
      have e : s + (j + 1) = s + 1 + j := by omega
      rw [e] at this
      exact this
    simp only [UnpackVideo.GrabNext.loop, h0, hrest]

/-- The capture loop over streams of which the first `pre.length` are unpackable
and the next has a depth other than 10 and 12: it throws, with the output
regions of the first streams unpacked and every byte from there on untouched. -/
theorem grab_loop_prefix (fuel : Nat) (pre : List StreamInfo) (bad : StreamInfo)
    (post : List StreamInfo) (buffer image : Mem) (hu : ∀ si ∈ pre, unpackable fuel si)
    (h10 : bad.PixFormat.bpp ≠ 10) (h12 : bad.PixFormat.bpp ≠ 12) :
    ∃ image', UnpackVideo.GrabNext.loop fuel (pre ++ bad :: post) buffer
        (layout ⟨16, 1⟩ 0 (pre ++ bad :: post)) 0 image
          = .ok (.error ⟨"Incorrect image bit depth: ".drop bad.PixFormat.bpp⟩, image') ∧
      (∀ a, layoutSize ⟨16, 1⟩ pre ≤ a → image' a = image a) ∧
      ∀ (j : Nat) (si so : StreamInfo), pre[j]? = some si →
        (layout ⟨16, 1⟩ 0 pre)[j]? = some so →
        (si.PixFormat.bpp = 10 →
          ∃ m, Convert10to16 fuel (so.StreamImage 0) (si.StreamImage 0) buffer image = some m ∧
            ∀ a, so.offset ≤ a → a < so.offset + so.h * so.pitch → image' a = m a) ∧
        (si.PixFormat.bpp = 12 →
          ∃ m, Convert12to16 fuel (so.StreamImage 0) (si.StreamImage 0) buffer image = some m ∧
            ∀ a, so.offset ≤ a → a < so.offset + so.h * so.pitch → image' a = m a) := by
  have hidx : ∀ j, j < (layout ⟨16, 1⟩ 0 pre).length →
      (pre ++ bad :: post)[0 + j]? = pre[0 + j]? := by
    intro j hj
    rw [layout_length] at hj
    rw [Nat.zero_add, List.getElem?_append_left hj]
  obtain ⟨image1, hloop, -, hcont⟩ :=
    grab_loop_ok fuel pre buffer pre 0 0 image (fun j => by rw [Nat.zero_add]) hu
  have hhi := grab_loop_frame_hi fuel pre buffer pre 0 0 image image1
    (fun j => by rw [Nat.zero_add]) hu hloop
  have hloop' := hloop
  rw [← grab_loop_ins_congr fuel (pre ++ bad :: post) pre buffer _ 0 image hidx] at hloop'
  have hbad : (pre ++ bad :: post)[0 + (layout ⟨16, 1⟩ 0 pre).length]? = some bad := by
    rw [layout_length, Nat.zero_add, List.getElem?_append_right (Nat.le_refl _)]
    simp
  refine ⟨image1, ?_, ?_, hcont⟩
  · rw [layout_append, grab_loop_append fuel _ buffer _ _ 0 image image1 hloop']
    exact grab_loop_throw fuel _ buffer _ _ _ image1 bad hbad h10 h12
  · intro a ha
    exact hhi a (by omega)

/-- The capture of a decorator that has the layout computed at construction, on a
delivered frame, when the streams of the source are unpackable up to a first
stream of a depth other than 10 and 12. -/
theorem grab_throws {σ : Type} (V : VideoInterface σ) (src : σ) (out_fmt : VideoPixelFormat)
    (fresh : Mem) (d0 d : UnpackVideo σ) (fuel : Nat) (image : Mem) (wait : Bool)
    (buffer' : Mem) (src' : σ) (pre : List StreamInfo) (bad : StreamInfo)
    (post : List StreamInfo)
    (hnew : UnpackVideo.new V (some src) out_fmt fresh = .ok d0)
    (hd : d.Streams = d0.Streams)
    (hgrab : V.GrabNext d.videoin d.buffer wait = (true, buffer', src'))
    (hstable : V.Streams src' = V.Streams src)
    (hsplit : V.Streams src = pre ++ bad :: post)
    (hu : ∀ si ∈ pre, unpackable fuel si)
    (h10 : bad.PixFormat.bpp ≠ 10) (h12 : bad.PixFormat.bpp ≠ 12)
    (hnw : noWrap (V.Streams src)) :
    d.Streams = layout ⟨16, 1⟩ 0 (pre ++ bad :: post) ∧
    ∃ image', UnpackVideo.GrabNext V fuel d image wait
        = .ok (.error ⟨"Incorrect image bit depth: ".drop bad.PixFormat.bpp⟩, image',
            { d with videoin := src', buffer := buffer' }) ∧
      (∀ a, layoutSize ⟨16, 1⟩ pre ≤ a → image' a = image a) ∧
      ∀ (j : Nat) (si so : StreamInfo), pre[j]? = some si →
        (layout ⟨16, 1⟩ 0 pre)[j]? = some so →
        (si.PixFormat.bpp = 10 →
          ∃ m, Convert10to16 fuel (so.StreamImage 0) (si.StreamImage 0) buffer' image = some m ∧
            ∀ a, so.offset ≤ a → a < so.offset + so.h * so.pitch → image' a = m a) ∧
        (si.PixFormat.bpp = 12 →
          ∃ m, Convert12to16 fuel (so.StreamImage 0) (si.StreamImage 0) buffer' image = some m ∧
            ∀ a, so.offset ≤ a → a < so.offset + so.h * so.pitch → image' a = m a) := by
  obtain ⟨hfmt, -, hd0⟩ := new_ok_noWrap V src out_fmt fresh d0 hnew hnw
  subst hfmt
  have hstreams : d.Streams = layout ⟨16, 1⟩ 0 (pre ++ bad :: post) := by
    rw [hd, hd0, ← hsplit]; rfl
  obtain ⟨image', hloop, hhi, hcont⟩ := grab_loop_prefix fuel pre bad post buffer' image hu h10 h12
  refine ⟨hstreams, image', ?_, hhi, hcont⟩
  simp only [UnpackVideo.GrabNext, hgrab, hstable]
  rw [show UnpackVideo.Streams { d with videoin := src', buffer := buffer' } = d.Streams from rfl,
    hstreams, hsplit, hloop]

/-- C20, as the claim states it, fails, in two ways. A source with a 12-bit
stream of width 4 followed by a stream of 16 bits per sample (so `k = 1`)
delivers an all-zero frame into the decorator, and the caller's buffer holds
zeros; the capture throws, and the caller's buffer is what it was before the
call. And for a source with a 12-bit stream of width `2 ^ 60` (row pitch 3)
followed by a stream of 16 bits per sample, the constructor's `w * 16` wraps:
the first output region is empty, the region of stream `k = 1` is the bytes
0-7, and the capture throws after the unpack of stream 0 has changed the bytes
0 and 2, in the region of stream `k`. -/
theorem UnpackVideo_GrabNext_throw_same_buffer :
    (UnpackVideo.new (constSource [⟨⟨12, 1⟩, 4, 1, 6, 0⟩, ⟨⟨16, 1⟩, 4, 1, 8, 6⟩] 14 (fun _ => 0))
        (some ()) ⟨16, 1⟩ (fun _ => 0)
      = .ok ⟨(), [⟨⟨16, 1⟩, 4, 1, 8, 0⟩, ⟨⟨16, 1⟩, 4, 1, 8, 8⟩], 16, fun _ => 0⟩ ∧
    ∃ image', UnpackVideo.GrabNext
        (constSource [⟨⟨12, 1⟩, 4, 1, 6, 0⟩, ⟨⟨16, 1⟩, 4, 1, 8, 6⟩] 14 (fun _ => 0)) 2
        ⟨(), [⟨⟨16, 1⟩, 4, 1, 8, 0⟩, ⟨⟨16, 1⟩, 4, 1, 8, 8⟩], 16, fun _ => 0⟩ (fun _ => 0) false
      = .ok (.error ⟨"Incorrect image bit depth: ".drop 16⟩, image',
          ⟨(), [⟨⟨16, 1⟩, 4, 1, 8, 0⟩, ⟨⟨16, 1⟩, 4, 1, 8, 8⟩], 16, fun _ => 0⟩) ∧
      image' = fun _ => 0) ∧
    (UnpackVideo.new (constSource [⟨⟨12, 1⟩, 2 ^ 60, 1, 3, 0⟩, ⟨⟨16, 1⟩, 4, 1, 8, 3⟩] 11
          (memOfList [0x0A, 0x40, 0x01])) (some ()) ⟨16, 1⟩ (fun _ => 0)
        = .ok ⟨(), [⟨⟨16, 1⟩, 2 ^ 60, 1, 0, 0⟩, ⟨⟨16, 1⟩, 4, 1, 8, 0⟩], 8, fun _ => 0⟩ ∧
      unpackable 2 ⟨⟨12, 1⟩, 2 ^ 60, 1, 3, 0⟩ ∧
      (match UnpackVideo.GrabNext (constSource [⟨⟨12, 1⟩, 2 ^ 60, 1, 3, 0⟩,
          ⟨⟨16, 1⟩, 4, 1, 8, 3⟩] 11 (memOfList [0x0A, 0x40, 0x01])) 2
          ⟨(), [⟨⟨16, 1⟩, 2 ^ 60, 1, 0, 0⟩, ⟨⟨16, 1⟩, 4, 1, 8, 0⟩], 8, fun _ => 0⟩ (fun _ => 0)
          false with
        | .ok (.error _, m, _) => some ((List.range 8).map m)
        | _ => none) = some [10, 0, 20, 0, 0, 0, 0, 0]) := by
  refine ⟨⟨rfl, ?_⟩, ⟨?_, by decide, by decide⟩⟩
  rotate_left
  · simp [UnpackVideo.new, UnpackVideo.new.loop, constSource, StreamInfo.PixFormat,
      StreamInfo.Width, StreamInfo.Height]
  obtain ⟨-, image', hret, hhi, hcont⟩ := grab_throws
    (constSource [⟨⟨12, 1⟩, 4, 1, 6, 0⟩, ⟨⟨16, 1⟩, 4, 1, 8, 6⟩] 14 (fun _ => 0)) () ⟨16, 1⟩
    (fun _ => 0) ⟨(), [⟨⟨16, 1⟩, 4, 1, 8, 0⟩, ⟨⟨16, 1⟩, 4, 1, 8, 8⟩], 16, fun _ => 0⟩
    ⟨(), [⟨⟨16, 1⟩, 4, 1, 8, 0⟩, ⟨⟨16, 1⟩, 4, 1, 8, 8⟩], 16, fun _ => 0⟩ 2 (fun _ => 0) false
    (fun _ => 0) () [⟨⟨12, 1⟩, 4, 1, 6, 0⟩] ⟨⟨16, 1⟩, 4, 1, 8, 6⟩ [] rfl rfl rfl rfl rfl
    (by decide) (by decide) (by decide) (by decide)
  refine ⟨image', hret, ?_⟩
  obtain ⟨m, hm, hreg⟩ := (hcont 0 ⟨⟨12, 1⟩, 4, 1, 6, 0⟩ ⟨⟨16, 1⟩, 4, 1, 8, 0⟩ rfl rfl).2 rfl
  have hval : (List.range 8).map m = [0, 0, 0, 0, 0, 0, 0, 0] := by
    have hdec : (Convert12to16 2 ((StreamInfo.mk ⟨16, 1⟩ 4 1 8 0).StreamImage 0)
        ((StreamInfo.mk ⟨12, 1⟩ 4 1 6 0).StreamImage 0) (fun _ => 0) (fun _ => 0)).map
          (fun m => (List.range 8).map m) = some [0, 0, 0, 0, 0, 0, 0, 0] := by decide
    rw [hm] at hdec
    exact Option.some.inj hdec
  funext a
  by_cases ha : a < 8
  · rw [hreg a (Nat.zero_le _) (by show a < 0 + 1 * 8; omega)]
    have hget : ((List.range 8).map m)[a]? = some (m a) := by
      rw [List.getElem?_map, List.getElem?_range ha]
      rfl
    rw [hval] at hget
    have h8 : a = 0 ∨ a = 1 ∨ a = 2 ∨ a = 3 ∨ a = 4 ∨ a = 5 ∨ a = 6 ∨ a = 7 := by omega
    rcases h8 with rfl | rfl | rfl | rfl | rfl | rfl | rfl | rfl <;>
      exact (Option.some.inj hget).symm
  · exact hhi a (by show 1 * (4 * 16 / 8) + 0 ≤ a; omega)

/-- Every byte below the end of the exact layout lies in the region of one stream. -/
theorem layout_cover (off : Nat) (l : List StreamInfo) (a : Nat) (h1 : off ≤ a)
    (h2 : a < off + layoutSize ⟨16, 1⟩ l) :
    ∃ (j : Nat) (so : StreamInfo), (layout ⟨16, 1⟩ off l)[j]? = some so ∧ so.offset ≤ a ∧
      a < so.offset + so.h * so.pitch := by
  induction l generalizing off with
  | nil => simp [layoutSize] at h2; omega
  | cons si rest ih =>
    simp only [layoutSize] at h2
    have hlay : layout ⟨16, 1⟩ off (si :: rest)
        = StreamInfo.mk ⟨16, 1⟩ si.w si.h (si.w * 16 / 8) off
          :: layout ⟨16, 1⟩ (off + si.h * (si.w * 16 / 8)) rest := rfl
    rw [hlay]
    by_cases ha : a < off + si.h * (si.w * 16 / 8)
    · exact ⟨0, StreamInfo.mk ⟨16, 1⟩ si.w si.h (si.w * 16 / 8) off,
        List.getElem?_cons_zero, h1, ha⟩
    · obtain ⟨j, so, hj, hlo, hhi⟩ := ih (off + si.h * (si.w * 16 / 8)) (by omega) (by omega)
      exact ⟨j + 1, so, by rw [List.getElem?_cons_succ]; exact hj, hlo, hhi⟩

/-- C20, amended. Capture is not atomic on error: let the decorator have the
layout computed at construction from streams that do not make the `size_t`
arithmetic of the constructor wrap (every width below `2 ^ 60`, total output
size below `2 ^ 64`), let the wrapped source deliver a frame and still declare
the streams it declared at construction, let `k` be the index of a stream of a
depth other than 10 and 12, and let every stream before `k` be unpackable (so
`k` is the smallest such index). Then `GrabNext` throws the bit-depth
exception; when it does, the output region of every stream before `k` holds
the result of the 10-bit resp. 12-bit unpack of that stream, every byte from
the offset of output stream `k` on (the regions of the streams `k` and later) is
as it was before the call, and every byte that differs from its state before
the call lies in the output region of a stream before `k`. -/
theorem UnpackVideo_GrabNext_partial {σ : Type} (V : VideoInterface σ) (src : σ)
    (out_fmt : VideoPixelFormat) (fresh : Mem) (d0 d : UnpackVideo σ) (fuel : Nat) (image : Mem)
    (wait : Bool) (buffer' : Mem) (src' : σ) (k : Nat) (bad : StreamInfo)
    (hnew : UnpackVideo.new V (some src) out_fmt fresh = .ok d0)
    (hd : d.Streams = d0.Streams)
    (hgrab : V.GrabNext d.videoin d.buffer wait = (true, buffer', src'))
    (hstable : V.Streams src' = V.Streams src)
    (hk : (V.Streams src)[k]? = some bad)
    (h10 : bad.PixFormat.bpp ≠ 10) (h12 : bad.PixFormat.bpp ≠ 12)
    (hpre : ∀ j si, j < k → (V.Streams src)[j]? = some si → unpackable fuel si)
    (hnw : noWrap (V.Streams src)) :
    ∃ image', UnpackVideo.GrabNext V fuel d image wait
        = .ok (.error ⟨"Incorrect image bit depth: ".drop bad.PixFormat.bpp⟩, image',
            { d with videoin := src', buffer := buffer' }) ∧
      (∀ (s : Nat) (si so : StreamInfo), s < k → (V.Streams src)[s]? = some si →
        d.Streams[s]? = some so →
        (si.PixFormat.bpp = 10 →
          ∃ m, Convert10to16 fuel (so.StreamImage 0) (si.StreamImage 0) buffer' image = some m ∧
            ∀ a, so.offset ≤ a → a < so.offset + so.Height * so.pitch → image' a = m a) ∧
        (si.PixFormat.bpp = 12 →
          ∃ m, Convert12to16 fuel (so.StreamImage 0) (si.StreamImage 0) buffer' image = some m ∧
            ∀ a, so.offset ≤ a → a < so.offset + so.Height * so.pitch → image' a = m a)) ∧
      (∀ so : StreamInfo, d.Streams[k]? = some so → ∀ a, so.offset ≤ a → image' a = image a) ∧
      (∀ a, image' a ≠ image a →
        ∃ (s : Nat) (so : StreamInfo), s < k ∧ d.Streams[s]? = some so ∧ so.offset ≤ a ∧
          a < so.offset + so.Height * so.pitch) := by
  obtain ⟨hklt, hkeq⟩ := List.getElem?_eq_some.mp hk
  have hsplit : V.Streams src
      = (V.Streams src).take k ++ bad :: (V.Streams src).drop (k + 1) := by
    rw [← hkeq, ← List.drop_eq_getElem_cons hklt, List.take_append_drop]
  have hlen : ((V.Streams src).take k).length = k := List.length_take_of_le (Nat.le_of_lt hklt)
  have hu : ∀ si ∈ (V.Streams src).take k, unpackable fuel si := by
    intro si hsi
    obtain ⟨j, hj⟩ := List.mem_iff_getElem?.mp hsi
    have hjk : j < k := by
      have := (List.getElem?_eq_some.mp hj).1
      omega
    rw [List.getElem?_take_of_lt hjk] at hj
    exact hpre j si hjk hj
  obtain ⟨hstreams, image', hret, hhi, hcont⟩ := grab_throws V src out_fmt fresh d0 d fuel image
    wait buffer' src' _ bad _ hnew hd hgrab hstable hsplit hu h10 h12 hnw
  rw [layout_append] at hstreams
  refine ⟨image', hret, ?_, ?_, ?_⟩
  · intro s si so hs hsi hso
    have hsi' : ((V.Streams src).take k)[s]? = some si := by
      rw [List.getElem?_take_of_lt hs]; exact hsi
    have hso' : (layout ⟨16, 1⟩ 0 ((V.Streams src).take k))[s]? = some so := by
      rw [hstreams, List.getElem?_append_left (by rw [layout_length]; omega)] at hso
      exact hso
    exact hcont s si so hsi' hso'
  · intro so hso a ha
    rw [hstreams, List.getElem?_append_right (by rw [layout_length]; omega), layout_length, hlen,
      Nat.sub_self] at hso
    simp only [layout, List.getElem?_cons_zero, Option.some.injEq] at hso
    rw [← hso] at ha
    simp only [Nat.zero_add] at ha
    exact hhi a ha
  · intro a hne
    have hlt : a < 0 + layoutSize ⟨16, 1⟩ ((V.Streams src).take k) := by
      rw [Nat.zero_add]
      by_contra hge
      exact hne (hhi a (by omega))
    obtain ⟨j, so, hj, hlo, hup⟩ := layout_cover 0 _ a (Nat.zero_le _) hlt
    have hjk : j < k := by
      have := (List.getElem?_eq_some.mp hj).1
      rw [layout_length, hlen] at this
      exact this
    refine ⟨j, so, hjk, ?_, hlo, hup⟩
    rw [hstreams, List.getElem?_append_left (by rw [layout_length]; omega)]
    exact hj

/-- The amended C20 on a 12-bit stream of width 4 with the frame 0A 40 01 FA FF FF,
followed by a stream of 16 bits per sample, into a buffer of zeros: the capture
throws, the first region holds the samples 10, 20, 4090, 4095, so the buffer
differs from before (byte 0 is 10), and every byte from offset 8 on is still 0. -/
theorem UnpackVideo_GrabNext_partial_witness :
    ∃ image', UnpackVideo.GrabNext
        (constSource [⟨⟨12, 1⟩, 4, 1, 6, 0⟩, ⟨⟨16, 1⟩, 4, 1, 8, 6⟩] 14
          (memOfList [0x0A, 0x40, 0x01, 0xFA, 0xFF, 0xFF])) 2
        ⟨(), [⟨⟨16, 1⟩, 4, 1, 8, 0⟩, ⟨⟨16, 1⟩, 4, 1, 8, 8⟩], 16, fun _ => 0⟩ (fun _ => 0) false
      = .ok (.error ⟨"Incorrect image bit depth: ".drop 16⟩, image',
          ⟨(), [⟨⟨16, 1⟩, 4, 1, 8, 0⟩, ⟨⟨16, 1⟩, 4, 1, 8, 8⟩], 16,
            memOfList [0x0A, 0x40, 0x01, 0xFA, 0xFF, 0xFF]⟩) ∧
      (List.range 4).map (fun i => load16 image' (2 * i)) = [10, 20, 4090, 4095] ∧
      image' 0 ≠ (fun _ => 0 : Mem) 0 ∧
      ∀ a, 8 ≤ a → image' a = 0 := by
  obtain ⟨image', hret, hcont, hhi, -⟩ := UnpackVideo_GrabNext_partial
    (constSource [⟨⟨12, 1⟩, 4, 1, 6, 0⟩, ⟨⟨16, 1⟩, 4, 1, 8, 6⟩] 14
      (memOfList [0x0A, 0x40, 0x01, 0xFA, 0xFF, 0xFF])) () ⟨16, 1⟩
    (fun _ => 0) ⟨(), [⟨⟨16, 1⟩, 4, 1, 8, 0⟩, ⟨⟨16, 1⟩, 4, 1, 8, 8⟩], 16, fun _ => 0⟩
    ⟨(), [⟨⟨16, 1⟩, 4, 1, 8, 0⟩, ⟨⟨16, 1⟩, 4, 1, 8, 8⟩], 16, fun _ => 0⟩ 2 (fun _ => 0) false
    (memOfList [0x0A, 0x40, 0x01, 0xFA, 0xFF, 0xFF]) () 1 ⟨⟨16, 1⟩, 4, 1, 8, 6⟩
    rfl rfl rfl rfl rfl (by decide) (by decide)
    (by
      intro j si hj h
      obtain rfl : j = 0 := by omega
      obtain rfl : (⟨⟨12, 1⟩, 4, 1, 6, 0⟩ : StreamInfo) = si := Option.some.inj h
      decide)
    (by decide)
  obtain ⟨m, hm, hreg⟩ :=
    (hcont 0 ⟨⟨12, 1⟩, 4, 1, 6, 0⟩ ⟨⟨16, 1⟩, 4, 1, 8, 0⟩ (by decide) rfl rfl).2 rfl
  have hdec : (Convert12to16 2 ((StreamInfo.mk ⟨16, 1⟩ 4 1 8 0).StreamImage 0)
      ((StreamInfo.mk ⟨12, 1⟩ 4 1 6 0).StreamImage 0)
      (memOfList [0x0A, 0x40, 0x01, 0xFA, 0xFF, 0xFF]) (fun _ => 0)).map
        (fun m => ((List.range 4).map (fun i => load16 m (2 * i)), m 0))
      = some ([10, 20, 4090, 4095], 10) := by decide
  rw [hm] at hdec
  have hval := congrArg Prod.fst (Option.some.inj hdec)
  have h0 := congrArg Prod.snd (Option.some.inj hdec)
  simp only at hval h0
  refine ⟨image', hret, ?_, ?_, fun a ha => hhi ⟨⟨16, 1⟩, 4, 1, 8, 8⟩ rfl a ha⟩
  · rw [← hval]
    apply List.map_congr_left
    intro i hi
    have hi4 : i < 4 := List.mem_range.mp hi
    apply load16_congr
    · exact hreg _ (Nat.zero_le _) (by show 2 * i < 0 + 1 * 8; omega)
    · exact hreg _ (Nat.zero_le _) (by show 2 * i + 1 < 0 + 1 * 8; omega)
  · rw [hreg 0 (Nat.zero_le _) (by decide), h0]
    decide

/-! ## The output regions -/

theorem layout_offset_ge (out_fmt : VideoPixelFormat) (off : Nat) (l : List StreamInfo) (t : Nat)
    (so : StreamInfo) (h : (layout out_fmt off l)[t]? = some so) : off ≤ so.offset := by
  induction l generalizing off t with
  | nil => simp [layout] at h
  | cons si rest ih =>
    cases t with
    | zero =>
      simp only [layout, List.getElem?_cons_zero, Option.some.injEq] at h
      rw [← h]
    | succ t =>
      simp only [layout, List.getElem?_cons_succ] at h
      exact Nat.le_trans (Nat.le_add_right _ _) (ih _ t h)

theorem layout_first (out_fmt : VideoPixelFormat) (off : Nat) (l : List StreamInfo)
    (so : StreamInfo) (h : (layout out_fmt off l)[0]? = some so) : so.offset = off := by
  cases l with
  | nil => simp [layout] at h
  | cons si rest =>
    simp only [layout, List.getElem?_cons_zero, Option.some.injEq] at h
    rw [← h]

theorem layout_consecutive (out_fmt : VideoPixelFormat) (off : Nat) (l : List StreamInfo)
    (s : Nat) (so so' : StreamInfo) (h : (layout out_fmt off l)[s]? = some so)
    (h' : (layout out_fmt off l)[s + 1]? = some so') :
    so'.offset = so.offset + so.h * so.pitch := by
  induction l generalizing off s with
  | nil => simp [layout] at h
  | cons si rest ih =>
    cases s with
    | zero =>
      simp only [layout, List.getElem?_cons_zero, Option.some.injEq] at h
      simp only [layout, Nat.zero_add, List.getElem?_cons_succ] at h'
      rw [layout_first _ _ _ _ h', ← h]
    | succ s =>
      simp only [layout, List.getElem?_cons_succ] at h h'
      exact ih _ s h h'

theorem layout_disjoint (out_fmt : VideoPixelFormat) (off : Nat) (l : List StreamInfo)
    (s t : Nat) (so so' : StreamInfo) (hst : s < t) (h : (layout out_fmt off l)[s]? = some so)
    (h' : (layout out_fmt off l)[t]? = some so') :
    so.offset + so.h * so.pitch ≤ so'.offset := by
  induction l generalizing off s t with
  | nil => simp [layout] at h
  | cons si rest ih =>
    obtain ⟨t, rfl⟩ : ∃ t', t = t' + 1 := ⟨t - 1, by omega⟩
    simp only [layout, List.getElem?_cons_succ] at h'
    cases s with
    | zero =>
      simp only [layout, List.getElem?_cons_zero, Option.some.injEq] at h
      rw [← h]
      exact layout_offset_ge _ _ _ _ _ h'
    | succ s =>
      simp only [layout, List.getElem?_cons_succ] at h
      exact ih _ s t (by omega) h h'

theorem layout_last (out_fmt : VideoPixelFormat) (off : Nat) (l : List StreamInfo)
    (so : StreamInfo) (h : (layout out_fmt off l).getLast? = some so) :
    so.offset + so.h * so.pitch = off + layoutSize out_fmt l := by
  induction l generalizing off with
  | nil => simp [layout] at h
  | cons si rest ih =>
    cases rest with
    | nil =>
      simp only [layout, List.getLast?_singleton, Option.some.injEq] at h
      rw [← h]
      simp [layoutSize]
    | cons t rest' =>
      have h2 : (layout out_fmt (off + si.h * (si.w * out_fmt.bpp / 8)) (t :: rest')).getLast?
          = some so := by
        simpa only [layout, List.getLast?_cons_cons] using h
      rw [ih _ h2]
      simp [layoutSize, Nat.add_assoc]

/-- C19, as the claim states it, fails, in two ways. A source with two 12-bit
streams of width 2 and height 1, the first with a row pitch of 6 bytes (two
groups), is accepted; the output regions are the bytes 0-3 and 4-7; the unpack
of the first stream, on the frame 0A 40 01 FA FF FF and an output buffer of
zeros, writes the bytes 4-7, which are the output region of the second stream.
And a source with two 16-bit streams of `2 ^ 31` by `2 ^ 31` followed by one of
4 by 1 is accepted, with the `size_t` sum of the sizes wrapping to 0 after the
second stream: the first and the third output descriptor both start at offset
0, so byte 0 lies in both regions, and the second region ends at `2 ^ 64`, not
where the third starts. -/
theorem Convert12to16_writes_next_region :
    (UnpackVideo.new (constSource [⟨⟨12, 1⟩, 2, 1, 6, 0⟩, ⟨⟨12, 1⟩, 2, 1, 3, 6⟩] 9
        (memOfList [0x0A, 0x40, 0x01, 0xFA, 0xFF, 0xFF])) (some ()) ⟨16, 1⟩ (fun _ => 0)
      = .ok ⟨(), [⟨⟨16, 1⟩, 2, 1, 4, 0⟩, ⟨⟨16, 1⟩, 2, 1, 4, 4⟩], 8, fun _ => 0⟩ ∧
    (Convert12to16 2 ((StreamInfo.mk ⟨16, 1⟩ 2 1 4 0).StreamImage 0)
        ((StreamInfo.mk ⟨12, 1⟩ 2 1 6 0).StreamImage 0)
        (memOfList [0x0A, 0x40, 0x01, 0xFA, 0xFF, 0xFF]) (fun _ => 0)).map
          (fun m => [m 4, m 5, m 6, m 7])
      = some [0xFA, 0x0F, 0xFF, 0x0F]) ∧
    ∃ d : UnpackVideo Unit,
      UnpackVideo.new (constSource [⟨⟨16, 1⟩, 2 ^ 31, 2 ^ 31, 2 ^ 32, 0⟩,
          ⟨⟨16, 1⟩, 2 ^ 31, 2 ^ 31, 2 ^ 32, 2 ^ 63⟩, ⟨⟨16, 1⟩, 4, 1, 8, 0⟩] 8 (fun _ => 0))
          (some ()) ⟨16, 1⟩ (fun _ => 0) = .ok d ∧
      d.Streams = [⟨⟨16, 1⟩, 2 ^ 31, 2 ^ 31, 2 ^ 32, 0⟩, ⟨⟨16, 1⟩, 2 ^ 31, 2 ^ 31, 2 ^ 32, 2 ^ 63⟩,
        ⟨⟨16, 1⟩, 4, 1, 8, 0⟩] ∧
      (d.Streams.map (fun so => decide (so.offset ≤ 0 ∧ 0 < so.offset + so.Height * so.pitch)))
        = [true, false, true] ∧
      (d.Streams.map (fun so => so.offset + so.Height * so.pitch)) = [2 ^ 63, 2 ^ 64, 8] := by
  refine ⟨⟨rfl, by decide⟩, ⟨(), [⟨⟨16, 1⟩, 2 ^ 31, 2 ^ 31, 2 ^ 32, 0⟩,
    ⟨⟨16, 1⟩, 2 ^ 31, 2 ^ 31, 2 ^ 32, 2 ^ 63⟩, ⟨⟨16, 1⟩, 4, 1, 8, 0⟩], 8, fun _ => 0⟩, ?_, rfl,
    by decide, by decide⟩
  simp [UnpackVideo.new, UnpackVideo.new.loop, constSource, StreamInfo.PixFormat,
    StreamInfo.Width, StreamInfo.Height]

/-- C19, amended. Output regions tile the output buffer: after a successful
construction from a source whose streams do not make the `size_t` arithmetic
wrap (every width below `2 ^ 60`, total output size below `2 ^ 64`), the byte
ranges `[offset(s), offset(s) + height(s) * pitch(s))` of the output stream
descriptors are pairwise disjoint, each starts where the one before ends, the
first starts at 0 and the last ends at `SizeBytes()`; and the
unpack of a stream that is unpackable (10 or 12 bits, row pitch a whole number
of groups holding at most `width` samples) changes no byte outside the output
region of that stream, so none in the region of another stream. -/
theorem UnpackVideo_new_regions_tile {σ : Type} (V : VideoInterface σ) (src : σ)
    (out_fmt : VideoPixelFormat) (fresh : Mem) (d : UnpackVideo σ)
    (hnew : UnpackVideo.new V (some src) out_fmt fresh = .ok d)
    (hnw : noWrap (V.Streams src)) :
    (∀ so : StreamInfo, d.Streams[0]? = some so → so.offset = 0) ∧
    (∀ (s : Nat) (so so' : StreamInfo), d.Streams[s]? = some so → d.Streams[s + 1]? = some so' →
      so'.offset = so.offset + so.Height * so.pitch) ∧
    (∀ so : StreamInfo, d.Streams.getLast? = some so →
      so.offset + so.Height * so.pitch = d.SizeBytes) ∧
    (∀ (s t : Nat) (so so' : StreamInfo), s < t → d.Streams[s]? = some so →
      d.Streams[t]? = some so' → so.offset + so.Height * so.pitch ≤ so'.offset) ∧
    (∀ (s : Nat) (si so : StreamInfo) (fuel : Nat) (buffer image : Mem),
      (V.Streams src)[s]? = some si → d.Streams[s]? = some so → unpackable fuel si →
      (si.PixFormat.bpp = 10 →
        ∃ m, Convert10to16 fuel (so.StreamImage 0) (si.StreamImage 0) buffer image = some m ∧
          ∀ a, (a < so.offset ∨ so.offset + so.Height * so.pitch ≤ a) → m a = image a) ∧
      (si.PixFormat.bpp = 12 →
        ∃ m, Convert12to16 fuel (so.StreamImage 0) (si.StreamImage 0) buffer image = some m ∧
          ∀ a, (a < so.offset ∨ so.offset + so.Height * so.pitch ≤ a) → m a = image a)) := by
  obtain ⟨hfmt, -, hd⟩ := new_ok_noWrap V src out_fmt fresh d hnew hnw
  subst hfmt hd
  refine ⟨?_, ?_, ?_, ?_, ?_⟩
  · intro so h
    exact layout_first _ _ _ _ h
  · intro s so so' h h'
    exact layout_consecutive _ _ _ s so so' h h'
  · intro so h
    have := layout_last _ _ _ so h
    rw [Nat.zero_add] at this
    exact this
  · intro s t so so' hst h h'
    exact layout_disjoint _ _ _ s t so so' hst h h'
  · intro s si so fuel buffer image hsi hso hu
    have hso' := layout_getElem? ⟨16, 1⟩ 0 (V.Streams src) s si hsi
    have hsoeq : so = StreamInfo.mk ⟨16, 1⟩ si.w si.h (si.w * 16 / 8) so.offset := by
      have h1 : (layout ⟨16, 1⟩ 0 (V.Streams src))[s]? = some so := hso
      rw [hso'] at h1
      rw [← Option.some.inj h1]
    obtain ⟨F, -, g10, g12, hlo, hhi, -⟩ :=
      grab_loop_step fuel [si] buffer si [] 0 so.offset rfl hu
    have hreg : so.offset + so.Height * so.pitch = so.offset + si.h * (si.w * 16 / 8) := by
      rw [hsoeq]
      rfl
    constructor
    · intro hb
      have e := g10 image hb
      rw [← hsoeq] at e
      refine ⟨F image, e, fun a ha => ?_⟩
      rcases ha with ha | ha
      · exact hlo image a ha
      · exact hhi image a (by omega)
    · intro hb
      have e := g12 image hb
      rw [← hsoeq] at e
      refine ⟨F image, e, fun a ha => ?_⟩
      rcases ha with ha | ha
      · exact hlo image a ha
      · exact hhi image a (by omega)

/-- Construction from two streams, 4 x 1 and 8 x 3, as an instance of the amended
C19: the regions are the bytes 0-7 and 8-55 of 56. -/
theorem UnpackVideo_new_regions_tile_witness :
    (∀ so : StreamInfo,
      List.getLast? (UnpackVideo.Streams (⟨(), [⟨⟨16, 1⟩, 4, 1, 8, 0⟩, ⟨⟨16, 1⟩, 8, 3, 16, 8⟩],
        56, fun _ => 0⟩ : UnpackVideo Unit)) = some so →
      so.offset + so.Height * so.pitch = UnpackVideo.SizeBytes
        (⟨(), [⟨⟨16, 1⟩, 4, 1, 8, 0⟩, ⟨⟨16, 1⟩, 8, 3, 16, 8⟩], 56, fun _ => 0⟩ : UnpackVideo Unit)) ∧
    (⟨⟨16, 1⟩, 4, 1, 8, 0⟩ : StreamInfo).offset
        + (⟨⟨16, 1⟩, 4, 1, 8, 0⟩ : StreamInfo).Height * (⟨⟨16, 1⟩, 4, 1, 8, 0⟩ : StreamInfo).pitch
      ≤ (⟨⟨16, 1⟩, 8, 3, 16, 8⟩ : StreamInfo).offset :=
  ⟨(UnpackVideo_new_regions_tile
      (constSource [⟨⟨12, 1⟩, 4, 1, 6, 0⟩, ⟨⟨10, 1⟩, 8, 3, 10, 6⟩] 36 (fun _ => 0)) () ⟨16, 1⟩
      (fun _ => 0) ⟨(), [⟨⟨16, 1⟩, 4, 1, 8, 0⟩, ⟨⟨16, 1⟩, 8, 3, 16, 8⟩], 56, fun _ => 0⟩ rfl
      (by decide)).2.2.1,
   (UnpackVideo_new_regions_tile
      (constSource [⟨⟨12, 1⟩, 4, 1, 6, 0⟩, ⟨⟨10, 1⟩, 8, 3, 10, 6⟩] 36 (fun _ => 0)) () ⟨16, 1⟩
      (fun _ => 0) ⟨(), [⟨⟨16, 1⟩, 4, 1, 8, 0⟩, ⟨⟨16, 1⟩, 8, 3, 16, 8⟩], 56, fun _ => 0⟩
      rfl (by decide)).2.2.2.1 0 1 _ _ (by decide) rfl rfl⟩

end pangolin
